import Mathlib

/-!
# Word-checker: the Set implementations

A verification development for the set containers of the repository
(`src/core/AVLSet.hpp`, `src/core/HashSet.hpp`, `src/core/SkipListSet.hpp`)
and for the word checker that uses them (`src/core/WordChecker.cpp`).

## How the C++ is embedded

* `AVLSet.hpp`.  The tree hanging off `Node* start` is an inductive tree whose
  nodes carry the four fields of `struct Node` (`value`, `height`, `left`,
  `right`) together with the heap address of the node.  The address is what a
  `Node*` is compared by (`n == start`, `prev->left == n`) and what the
  members `prev` and the stack variable `n` of `assignValue` hold while the
  tree is being restructured underneath them.  `new Node` takes the next unused
  address (`fresh`).  A read through a pointer is `Node.find`, a write through
  a pointer is `Node.modify`.
* `HashSet.hpp`, `SkipListSet.hpp`.  A chain or a lane, a linked list that
  ends at `nullptr`, is the list of its nodes in link order.
* A member function is a function from the object state to the object state.
  A function that dereferences a pointer which may be null returns `Option`,
  `none` standing for the dereference of `nullptr`.  A move constructor or
  move assignment, which writes to two objects, is a function to the pair of
  their states.
* A call in which `new Node` may throw `std::bad_alloc` takes the number of
  allocations that are still going to succeed, and ends in an `Outcome`.
* `int` is modelled by the unbounded `Int` (heights) and `Nat` (`sz`,
  `capacity`, which only grow from `0` and `10`): no run of fewer than `2^31`
  insertions overflows them.
-/

/-! ## AVLSet.hpp -/

/-- A `Node*` together with everything reachable from it: `nullptr`, or the
node stored at heap address `addr` with the fields of `struct Node`. -/
inductive AVLSet.Node (α : Type) where
  | nullptr : AVLSet.Node α
  | node (addr : Nat) (value : α) (height : Int) (left right : AVLSet.Node α) : AVLSet.Node α
deriving DecidableEq

/-- The member variables of `AVLSet`: `start`, `prev`, `balance`, `sz`; `fresh`
is the allocator's next unused address. -/
structure AVLSet (α : Type) where
  start : AVLSet.Node α
  prev : Option Nat
  balance : Bool
  sz : Nat
  fresh : Nat
deriving DecidableEq

namespace AVLSet

variable {α : Type}

/-- The pointer value itself: `none` for `nullptr`, else the address. -/
def Node.ptr : Node α → Option Nat
  | .nullptr => none
  | .node a _ _ _ _ => some a

/-- Field read `n->left` (only used at a non-null `n`). -/
def Node.left : Node α → Node α
  | .nullptr => .nullptr
  | .node _ _ _ l _ => l

/-- Field read `n->right` (only used at a non-null `n`). -/
def Node.right : Node α → Node α
  | .nullptr => .nullptr
  | .node _ _ _ _ r => r

/-- The expression `x == nullptr ? 0 : x->height` of `balanceTree`. -/
def Node.heightOr0 : Node α → Int
  | .nullptr => 0
  | .node _ _ h _ _ => h

/-- Dereference of the pointer with address `p` in the tree `t`: the node
stored at that address, with its current fields (`nullptr` when no node of
`t` has this address). -/
def Node.find (p : Nat) : Node α → Node α
  | .nullptr => .nullptr
  | .node a v h l r =>
    if a = p then .node a v h l r
    else match Node.find p l with
      | .nullptr => Node.find p r
      | .node a1 v1 h1 l1 r1 => .node a1 v1 h1 l1 r1

/-- Write through the pointer with address `p`: the node stored at that
address becomes `f` of itself. -/
def Node.modify (p : Nat) (f : Node α → Node α) : Node α → Node α
  | .nullptr => .nullptr
  | .node a v h l r =>
    if a = p then f (.node a v h l r)
    else .node a v h (Node.modify p f l) (Node.modify p f r)

/-- Assignment `n->left = t`. -/
def Node.setLeft (t : Node α) : Node α → Node α
  | .nullptr => .nullptr
  | .node a v h _ r => .node a v h t r

/-- Assignment `n->right = t`. -/
def Node.setRight (t : Node α) : Node α → Node α
  | .nullptr => .nullptr
  | .node a v h l _ => .node a v h l t

/-- Assignment `n->height = x`. -/
def Node.setHeight (x : Int) : Node α → Node α
  | .nullptr => .nullptr
  | .node a v _ l r => .node a v x l r

/-- Member `checkHeight` (lines 597-619): computed from the cached heights of
the two children, `0` for `nullptr`, `1` for a node without children. -/
def checkHeight : Node α → Int
  | .nullptr => 0
  | .node _ _ _ .nullptr .nullptr => 1
  | .node _ _ _ .nullptr (.node _ _ rh _ _) => rh + 1
  | .node _ _ _ (.node _ _ lh _ _) .nullptr => lh + 1
  | .node _ _ _ (.node _ _ lh _ _) (.node _ _ rh _ _) => (if lh > rh then lh else rh) + 1

/-- The conditional expression `x > y ? x : y` of `balanceTree`. -/
def cmax (x y : Int) : Int := if x > y then x else y

/-- The LL blocks of `balanceTree` (lines 299-330): the left child becomes the
root of the subtree; the heights of the old root and of the new root are
recomputed as the code does. `none` is the dereference of a null left child. -/
def rotateLL : Node α → Option (Node α)
  | .node a v _ (.node la lv _ ll lr) r =>
    let nh := cmax lr.heightOr0 r.heightOr0 + 1
    some (.node la lv (nh + 1) ll (.node a v nh lr r))
  | _ => none

/-- The LR blocks of `balanceTree` (lines 334-389): the right child of the
left child becomes the root of the subtree. `none` is the dereference of a
null `n->left->right`. -/
def rotateLR : Node α → Option (Node α)
  | .node a v _ (.node la lv _ ll (.node ka kv _ kl kr)) r =>
    let lh := cmax ll.heightOr0 kl.heightOr0 + 1
    let nh := cmax kr.heightOr0 r.heightOr0 + 1
    some (.node ka kv (cmax nh lh + 1) (.node la lv lh ll kl) (.node a v nh kr r))
  | _ => none

/-- The RR blocks of `balanceTree` (lines 397-430). -/
def rotateRR : Node α → Option (Node α)
  | .node a v _ l (.node ra rv _ rl rr) =>
    let nh := cmax l.heightOr0 rl.heightOr0 + 1
    some (.node ra rv (nh + 1) (.node a v nh l rl) rr)
  | _ => none

/-- The RL blocks of `balanceTree` (lines 432-485): the left child of the
right child becomes the root of the subtree. `none` is the dereference of a
null `n->right->left`. -/
def rotateRL : Node α → Option (Node α)
  | .node a v _ l (.node ra rv _ (.node ka kv _ kl kr) rr) =>
    let rh := cmax kr.heightOr0 rr.heightOr0 + 1
    let nh := cmax l.heightOr0 kl.heightOr0 + 1
    some (.node ka kv (cmax rh nh + 1) (.node a v nh l kl) (.node ra rv rh kr rr))
  | _ => none

/-- The guard of line 295:
`n->left != nullptr && (n->right == nullptr || n->left->height - n->right->height > 1) && n->left->height > 1`. -/
def leftHeavy : Node α → Bool
  | .node _ _ _ (.node _ _ lh _ _) .nullptr => decide (lh > 1)
  | .node _ _ _ (.node _ _ lh _ _) (.node _ _ rh _ _) => decide (lh - rh > 1) && decide (lh > 1)
  | _ => false

/-- The guard of line 393:
`n->right != nullptr && (n->left == nullptr || n->right->height - n->left->height > 1) && n->right->height > 1`. -/
def rightHeavy : Node α → Bool
  | .node _ _ _ .nullptr (.node _ _ rh _ _) => decide (rh > 1)
  | .node _ _ _ (.node _ _ lh _ _) (.node _ _ rh _ _) => decide (rh - lh > 1) && decide (rh > 1)
  | _ => false

/-- The guard of line 297, read at `c = n->left`:
`c->left != nullptr && (c->right == nullptr || c->left->height > c->right->height)`. -/
def outerLeft : Node α → Bool
  | .node _ _ _ (.node _ _ _ _ _) .nullptr => true
  | .node _ _ _ (.node _ _ ah _ _) (.node _ _ bh _ _) => decide (ah > bh)
  | _ => false

/-- The guard of line 395, read at `c = n->right`:
`c->right != nullptr && (c->left == nullptr || c->right->height > c->left->height)`. -/
def outerRight : Node α → Bool
  | .node _ _ _ .nullptr (.node _ _ _ _ _) => true
  | .node _ _ _ (.node _ _ ah _ _) (.node _ _ bh _ _) => decide (bh > ah)
  | _ => false

/-- The subtree that `balanceTree(n)` builds out of the subtree at `n`: the
case analysis of lines 295-487. -/
def rebalance (n : Node α) : Option (Node α) :=
  if leftHeavy n then
    if outerLeft n.left then rotateLL n else rotateLR n
  else if rightHeavy n then
    if outerRight n.right then rotateRR n else rotateRL n
  else some n

/-- Where `balanceTree(n)` hangs the rebuilt subtree `t`: the three-way test
`n == start` / `prev != nullptr && prev->left == n` / else (`prev->right`),
the same in each of the four rotation cases. `none` is the dereference of a
null `prev`. In every call that `assignValue` makes, `n` is `start` or the
child of `prev` that the test selects (`balanceTree_root`, `balanceTree_left`,
`balanceTree_right`), so the subtree replaced is the one `t` was built from. -/
def splice (n t : Node α) (s : AVLSet α) : Option (AVLSet α) :=
  if n.ptr = s.start.ptr then some { s with start := t }
  else match s.prev with
    | none => none
    | some p =>
      match s.start.find p with
      | .nullptr => none
      | .node _ _ _ pl _ =>
        if pl.ptr = n.ptr then some { s with start := s.start.modify p (Node.setLeft t) }
        else some { s with start := s.start.modify p (Node.setRight t) }

/-- Member `balanceTree` (lines 291-493); `n` is the pointer argument with
the subtree it points to. -/
def balanceTree (n : Node α) (s : AVLSet α) : Option (AVLSet α) :=
  if leftHeavy n || rightHeavy n then
    match rebalance n with
    | none => none
    | some t => splice n t s
  else some s

/-- Lines 528-539 of `assignValue`, run at the node with address `a` after
the insertion below it: `n->height = checkHeight(n)`, then, when balancing,
`prev = n`, `balanceTree(n->right)` or `balanceTree(n->left)` according to
`flag`, and `balanceTree(start)`. -/
def fixup (a : Nat) (flag : Bool) (s1 : AVLSet α) : Option (AVLSet α) :=
  let s2 := { s1 with start := s1.start.modify a (fun t => t.setHeight (checkHeight t)) }
  if s2.balance then
    let s3 := { s2 with prev := some a }
    match (if flag then balanceTree (s3.start.find a).right s3
           else balanceTree (s3.start.find a).left s3) with
    | none => none
    | some s4 => balanceTree s4.start s4
  else some s2

section ordered

variable [LinearOrder α]

/-- Member `assignValue` (lines 495-543). The node argument is `n` as it is
when the call is entered: its `value` and its children are read before
anything is written. Everything after the recursive call goes through the
address of `n`. -/
def assignValue (element : α) : Node α → AVLSet α → Option (AVLSet α)
  | .nullptr, _ => none
  | .node a v _ l r, s =>
    let leaf : Node α := .node s.fresh element 1 .nullptr .nullptr
    if element > v then
      match r with
      | .nullptr =>
        fixup a true { s with start := s.start.modify a (Node.setRight leaf),
                              sz := s.sz + 1, fresh := s.fresh + 1 }
      | .node ra rv rh rl rr =>
        (assignValue element (.node ra rv rh rl rr) { s with prev := some a }).bind
          (fixup a true)
    else if element < v then
      match l with
      | .nullptr =>
        fixup a false { s with start := s.start.modify a (Node.setLeft leaf),
                               sz := s.sz + 1, fresh := s.fresh + 1 }
      | .node la lv lh ll lr =>
        (assignValue element (.node la lv lh ll lr) { s with prev := some a }).bind
          (fixup a false)
    else fixup a false s

/-- Member `containValue` (lines 545-559). -/
def containValue (element : α) : Node α → Bool
  | .nullptr => false
  | .node _ v _ l r =>
    if element > v then containValue element r
    else if element < v then containValue element l
    else true

/-- Member `contains` (lines 584-588). -/
def contains (s : AVLSet α) (element : α) : Bool := containValue element s.start

/-- Member `add` (lines 561-581). -/
def add (element : α) (s : AVLSet α) : Option (AVLSet α) :=
  match s.start with
  | .nullptr =>
    some { s with start := .node s.fresh element 0 .nullptr .nullptr,
                  sz := s.sz + 1, fresh := s.fresh + 1 }
  | .node a v h l r =>
    if !s.contains element then assignValue element (.node a v h l r) s else some s

/-- A run of `add` calls, first element first. -/
def addAll : List α → AVLSet α → Option (AVLSet α)
  | [], s => some s
  | x :: xs, s => (add x s).bind (addAll xs)

end ordered

/-- The constructor `AVLSet(bool shouldBalance)` (lines 179-183). -/
def empty (shouldBalance : Bool) : AVLSet α := ⟨.nullptr, none, shouldBalance, 0, 0⟩

/-- Member `size` (lines 591-595). -/
def size (s : AVLSet α) : Nat := s.sz

/-- Member `height` (lines 621-626). -/
def height (s : AVLSet α) : Int := checkHeight s.start - 1

/-- Member `preorderVisit`: the values handed to `visit`, in call order. -/
def preorderVisit : Node α → List α
  | .nullptr => []
  | .node _ v _ l r => v :: (preorderVisit l ++ preorderVisit r)

/-- Member `inorderVisit`: the values handed to `visit`, in call order. -/
def inorderVisit : Node α → List α
  | .nullptr => []
  | .node _ v _ l r => inorderVisit l ++ v :: inorderVisit r

/-- Member `postorderVisit`: the values handed to `visit`, in call order. -/
def postorderVisit : Node α → List α
  | .nullptr => []
  | .node _ v _ l r => postorderVisit l ++ (postorderVisit r ++ [v])

/-- Member `preorder`. -/
def preorder (s : AVLSet α) : List α := preorderVisit s.start

/-- Member `inorder`. -/
def inorder (s : AVLSet α) : List α := inorderVisit s.start

/-- Member `postorder`. -/
def postorder (s : AVLSet α) : List α := postorderVisit s.start

/-! ### Specification vocabulary for the tree -/

/-- True height of a subtree: `-1` when empty, `0` for a leaf, the number of
edges on the longest downward path otherwise. -/
def trueHeight : Node α → Int
  | .nullptr => -1
  | .node _ _ _ l r => max (trueHeight l) (trueHeight r) + 1

/-- The AVL condition at every node, on true heights. -/
def isAVL : Node α → Bool
  | .nullptr => true
  | .node _ _ _ l r =>
    decide ((trueHeight l - trueHeight r).natAbs ≤ 1) && isAVL l && isAVL r

/-- Number of nodes of the tree. -/
def nodeCount : Node α → Nat
  | .nullptr => 0
  | .node _ _ _ l r => nodeCount l + 1 + nodeCount r

/-- Addresses of the nodes, in inorder. -/
def addrs : Node α → List Nat
  | .nullptr => []
  | .node a _ _ l r => addrs l ++ a :: addrs r

/-- Strict search-tree ordering at every node. -/
def IsBST [LinearOrder α] : Node α → Prop
  | .nullptr => True
  | .node _ v _ l r =>
    (∀ x ∈ inorderVisit l, x < v) ∧ (∀ x ∈ inorderVisit r, v < x) ∧ IsBST l ∧ IsBST r

end AVLSet

/-! ### Vocabulary of the proofs -/

namespace AVLSet

variable {α : Type}

/-- No node without children caches a height above `1`. -/
def LeafLow : Node α → Prop
  | .nullptr => True
  | .node _ _ h l r => (l = .nullptr → r = .nullptr → h ≤ 1) ∧ LeafLow l ∧ LeafLow r

/-- The state `s1` holds the same values at the same addresses in the same
inorder positions as `s`, with the same counters and mode. -/
def Same (s s1 : AVLSet α) : Prop :=
  inorderVisit s1.start = inorderVisit s.start ∧ addrs s1.start = addrs s.start ∧
    s1.sz = s.sz ∧ s1.fresh = s.fresh ∧ s1.balance = s.balance

/-- The node `n` is met by the descent for `x` (the comparisons of
`assignValue` and `containValue`) that starts at the root of the tree. -/
def OnPath [LinearOrder α] (x : α) (n : Node α) : Node α → Prop
  | .nullptr => False
  | .node a v k l r =>
    n = .node a v k l r ∨ (x > v ∧ OnPath x n r) ∨ (x < v ∧ OnPath x n l)

/-- The state `s1` is `s` with the new value `x` in a new node at the address
`s.fresh`, in search-tree order. -/
def Inserted [LinearOrder α] (x : α) (s s1 : AVLSet α) : Prop :=
  (inorderVisit s1.start).Sorted (· < ·) ∧
    (inorderVisit s1.start).Perm (x :: inorderVisit s.start) ∧
    (addrs s1.start).Perm (s.fresh :: addrs s.start) ∧
    LeafLow s1.start ∧ s1.sz = s.sz + 1 ∧ s1.fresh = s.fresh + 1 ∧ s1.balance = s.balance

/-- What every state built by `add` satisfies: the inorder sequence is
strictly ascending, the nodes have distinct addresses below `fresh`, no node
without children caches a height above `1`, and `sz` counts the nodes. -/
def WF [LinearOrder α] (s : AVLSet α) : Prop :=
  (inorderVisit s.start).Sorted (· < ·) ∧ (addrs s.start).Nodup ∧
    (∀ b ∈ addrs s.start, b < s.fresh) ∧ LeafLow s.start ∧
    s.sz = (inorderVisit s.start).length

/-- The degenerate tree on the values `xs`, stored at the addresses `a`,
`a + 1`, ...: no node has a left child, and each node caches the number of
nodes from it down to the last one. -/
def spine (a : Nat) : List α → Node α
  | [] => .nullptr
  | x :: xs => .node a x (xs.length + 1) .nullptr (spine (a + 1) xs)

/-- The tree `t` hung at the lower end of a chain of nodes without left
children, stored at `a`, `a + 1`, ... with the given values and cached heights. -/
def chain (a : Nat) : List (α × Int) → Node α → Node α
  | [], t => t
  | p :: ps, t => .node a p.1 p.2 .nullptr (chain (a + 1) ps t)

end AVLSet

/-! ### Move assignment -/

namespace AVLSet

variable {α : Type}

/-- The move assignment `operator=(AVLSet&&)` (lines 261-282), `t` being
`*this`: the members `start`, `prev`, `balance` and `sz` of the two objects
are exchanged. The result is `*this` and `s` after the call; the allocator is
the one of the program, so both go on above every address in use. -/
def moveAssign (t s : AVLSet α) : AVLSet α × AVLSet α :=
  let tempStart := s.start
  let tempPrev := s.prev
  let tempBalance := s.balance
  let tempSize := s.sz
  let s1 : AVLSet α :=
    { s with start := t.start, prev := t.prev, balance := t.balance, sz := t.sz,
             fresh := max t.fresh s.fresh }
  ({ t with start := tempStart, prev := tempPrev, balance := tempBalance, sz := tempSize,
            fresh := max t.fresh s.fresh }, s1)

end AVLSet

/-! ### Copying, and the cached heights -/

namespace AVLSet

variable {α : Type}

/-- How a call in which `new Node` may throw `std::bad_alloc` ends: it
returns, the object being in state `s` and `allocs` more allocations being
going to succeed; or an allocation throws, and the exception leaves the
object in state `s`; or `nullptr` is dereferenced. -/
inductive Outcome (α : Type) where
  | returned (s : AVLSet α) (allocs : Nat) : Outcome α
  | thrown (s : AVLSet α) : Outcome α
  | undefined : Outcome α
deriving DecidableEq

section ordered

variable [LinearOrder α]

/-- Member `copy` (lines 148-161): `add` of the value of the node, then the
copy of the left and of the right subtree. -/
def copy : Node α → AVLSet α → Option (AVLSet α)
  | .nullptr, s => some s
  | .node _ v _ l r, s => ((add v s).bind (copy l)).bind (copy r)

/-- The copy constructor `AVLSet(const AVLSet& s)` (lines 194-212): the copy
into the local `mySet`, then the copy into `*this`, which starts out empty
with the balancing mode of `s`. -/
def copyConstruct (s : AVLSet α) : Option (AVLSet α) :=
  (copy s.start { (empty s.balance : AVLSet α) with fresh := s.fresh }).bind fun mySet =>
    copy s.start ⟨.nullptr, none, s.balance, 0, mySet.fresh⟩

/-- Member `assignValue` (lines 495-543) when its `new Node` (line 501 or
516) throws: the state the exception leaves. On the way down only `prev` is
written, and the exception skips what follows the recursive calls. -/
def assignValueThrow (element : α) : Node α → AVLSet α → AVLSet α
  | .nullptr, s => s
  | .node a v _ l r, s =>
    if element > v then
      match r with
      | .nullptr => s
      | .node ra rv rh rl rr =>
        assignValueThrow element (.node ra rv rh rl rr) { s with prev := some a }
    else if element < v then
      match l with
      | .nullptr => s
      | .node la lv lh ll lr =>
        assignValueThrow element (.node la lv lh ll lr) { s with prev := some a }
    else s

/-- Member `add` (lines 561-581) with an allocator that lets `allocs` more
allocations succeed. A call with `start == nullptr` or `!contains(element)`
runs `new Node` once, before it writes to the tree or to `sz`; any other call
allocates nothing. -/
def addAlloc (element : α) (s : AVLSet α) (allocs : Nat) : Outcome α :=
  match s.start with
  | .nullptr =>
    match allocs with
    | 0 => .thrown s
    | k + 1 =>
      .returned { s with start := .node s.fresh element 0 .nullptr .nullptr,
                         sz := s.sz + 1, fresh := s.fresh + 1 } k
  | .node a v h l r =>
    if !s.contains element then
      match allocs with
      | 0 => .thrown (assignValueThrow element (.node a v h l r) s)
      | k + 1 =>
        match assignValue element (.node a v h l r) s with
        | some s1 => .returned s1 k
        | none => .undefined
    else .returned s allocs

/-- Member `copy` with an allocator that lets `allocs` more allocations
succeed. -/
def copyAlloc : Node α → AVLSet α → Nat → Outcome α
  | .nullptr, s, allocs => .returned s allocs
  | .node _ v _ l r, s, allocs =>
    match addAlloc v s allocs with
    | .returned s1 k1 =>
      match copyAlloc l s1 k1 with
      | .returned s2 k2 => copyAlloc r s2 k2
      | .thrown s2 => .thrown s2
      | .undefined => .undefined
    | .thrown s1 => .thrown s1
    | .undefined => .undefined

/-- The copy assignment `operator=(const AVLSet& s)` (lines 239-258) on
`*this = t` and another object `s`, with an allocator that lets `allocs` more
allocations succeed: what becomes of `*this`. An exception of the copy into
the local `mySet` is rethrown before `*this` is written to; then `*this` is
cleared and `copy(s.start)` runs on it. -/
def copyAssignAlloc (t s : AVLSet α) (allocs : Nat) : Outcome α :=
  match copyAlloc s.start { (empty s.balance : AVLSet α) with fresh := max t.fresh s.fresh }
      allocs with
  | .returned mySet k =>
    copyAlloc s.start
      { t with start := .nullptr, prev := none, balance := s.balance, sz := 0,
               fresh := mySet.fresh } k
  | .thrown _ => .thrown t
  | .undefined => .undefined

end ordered

end AVLSet

namespace AVLSet

variable {α : Type}

/-- Height of a subtree in the convention of `checkHeight`: `0` when empty,
`1` for a node without children. -/
def codeHeight : Node α → Int
  | .nullptr => 0
  | .node _ _ _ l r => max (codeHeight l) (codeHeight r) + 1

/-- Every node of the subtree caches one plus the larger of the heights of
its two subtrees. -/
def heightsValid : Node α → Bool
  | .nullptr => true
  | .node _ _ h l r =>
    decide (h = max (codeHeight l) (codeHeight r) + 1) && heightsValid l && heightsValid r

/-- Every node other than the root caches a valid height. -/
def heightsValidBelowRoot (s : AVLSet α) : Bool :=
  heightsValid s.start.left && heightsValid s.start.right

end AVLSet

/-! ## HashSet.hpp -/

/-- The member variables of `HashSet`: `hashTable` is the array of bucket
heads, each bucket being the values of its chain in link order;
`hashFunction`, `sz`, `capacity`. -/
structure HashSet (α : Type) where
  hashTable : List (List α)
  hashFunction : α → Nat
  sz : Nat
  capacity : Nat

namespace HashSet

variable {α : Type}

/-- The constant `DEFAULT_CAPACITY`. -/
def DEFAULT_CAPACITY : Nat := 10

/-- The constructor `HashSet(HashFunction hashFunction)` (lines 134-141). -/
def new (hashFunction : α → Nat) : HashSet α :=
  ⟨List.replicate DEFAULT_CAPACITY [], hashFunction, 0, DEFAULT_CAPACITY⟩

/-- A new last node holding `v` on the chain of bucket `index`: the walk to
the end of the chain in `add` (lines 419-430) and in `rehash` (lines 377-390). -/
def appendAt (v : α) : Nat → List (List α) → List (List α)
  | _, [] => []
  | 0, c :: cs => (c ++ [v]) :: cs
  | i + 1, c :: cs => c :: appendAt v i cs

/-- Member `rehash` (lines 366-408): a table of `capacity * 2 + 1` empty
buckets is filled by walking the old buckets `0 .. capacity - 1`, each chain
from its head, and the old table is dropped. -/
def rehash (s : HashSet α) : HashSet α :=
  let newCapacity := s.capacity * 2 + 1
  let nodeList := (List.range s.capacity).foldl
    (fun nodeList i => (s.hashTable.getD i []).foldl
      (fun nodeList value => appendAt value (s.hashFunction value % newCapacity) nodeList)
      nodeList)
    (List.replicate newCapacity [])
  { s with hashTable := nodeList, capacity := newCapacity }

/-- Member `size` (lines 463-467). -/
def size (s : HashSet α) : Nat := s.sz

/-- Member `elementsAtIndex` (lines 470-483). -/
def elementsAtIndex (s : HashSet α) (index : Nat) : Nat :=
  if index ≥ s.capacity then 0 else (s.hashTable.getD index []).length

section eq

variable [DecidableEq α]

/-- Member `contains` (lines 442-460): the chain of the bucket
`hashFunction(element) % capacity` is scanned for a value `== element`. -/
def contains (s : HashSet α) (element : α) : Bool :=
  decide (element ∈ s.hashTable.getD (s.hashFunction element % s.capacity) [])

/-- Member `add` (lines 410-439). The guard `(double)sz/capacity >= 0.8` is
the comparison `4 * capacity ≤ 5 * sz` of the exact quotient with `4/5`: for
`int` operands the quotient is `4/5` or differs from it by at least
`1 / (5 * 2^31)`, far more than the rounding of the division and of the
literal `0.8`, both of which round `4/5` to the same IEEE `double`. -/
def add (element : α) (s : HashSet α) : HashSet α :=
  if !s.contains element then
    let index := s.hashFunction element % s.capacity
    let s1 := { s with hashTable := appendAt element index s.hashTable, sz := s.sz + 1 }
    if 4 * s1.capacity ≤ 5 * s1.sz then rehash s1 else s1
  else s

/-- Member `isElementAtIndex` (lines 486-501). -/
def isElementAtIndex (s : HashSet α) (element : α) (index : Nat) : Bool :=
  if index ≥ s.capacity then false else decide (element ∈ s.hashTable.getD index [])

/-- A run of `add` calls, first element first. -/
def addAll : List α → HashSet α → HashSet α
  | [], s => s
  | x :: xs, s => addAll xs (add x s)

end eq

end HashSet

namespace HashSet

variable {α : Type}

/-- Every stored value, bucket after bucket, each chain from its head. -/
def stored (s : HashSet α) : List α := s.hashTable.flatten

/-- The bucket-placement invariant: the table has `capacity > 0` buckets and
every value of the chain of bucket `i` hashes to `i` modulo `capacity`. -/
def Placed (s : HashSet α) : Prop :=
  s.hashTable.length = s.capacity ∧ 0 < s.capacity ∧
    ∀ i e, e ∈ s.hashTable.getD i [] → s.hashFunction e % s.capacity = i

/-- What every state built by `add` satisfies: the placement invariant, no
value stored twice, and `sz` counts the stored values. -/
def WF (s : HashSet α) : Prop :=
  Placed s ∧ (stored s).Nodup ∧ s.sz = (stored s).length

end HashSet

/-! ## SkipListSet.hpp

A lane is the list of its nodes in `right` order, `nullptr` being the empty
list; `below`, which does not own its target, is the address of the target.
An entry of the array `nodeList` is a lane head or, after `resize`, an entry
of `new Node*[n]` that was never written. The level tester is the list of the
answers it is going to give, an exhausted list answering no: every run in
which each `add` returns is the run of such a list. -/

/-- Class `SkipListKey`: the three values that `normal`, `negInf` and `posInf`
build. -/
inductive SkipListKey (α : Type) where
  | normal (element : α) : SkipListKey α
  | negInf : SkipListKey α
  | posInf : SkipListKey α
deriving DecidableEq

namespace SkipListKey

variable {α : Type} [LinearOrder α]

/-- `operator==(const SkipListKey&)` (lines 109-114). -/
def eqKey : SkipListKey α → SkipListKey α → Bool
  | normal a, normal b => decide (a = b)
  | negInf, negInf => true
  | posInf, posInf => true
  | _, _ => false

/-- `operator==(const ElementType&)` (lines 117-121). -/
def eqElem : SkipListKey α → α → Bool
  | normal a, other => decide (a = other)
  | _, _ => false

/-- `operator<(const SkipListKey&)` (lines 124-139). -/
def ltKey : SkipListKey α → SkipListKey α → Bool
  | negInf, negInf => false
  | negInf, _ => true
  | posInf, _ => false
  | normal _, posInf => true
  | normal a, normal b => decide (a < b)
  | normal _, negInf => false

/-- `operator<(const ElementType&)` (lines 142-147). -/
def ltElem : SkipListKey α → α → Bool
  | negInf, _ => true
  | normal a, other => decide (a < other)
  | posInf, _ => false

end SkipListKey

/-- A `struct Node` of SkipListSet at heap address `addr`; its `right` pointer
is its position in the lane. -/
structure SkipListSet.Node (α : Type) where
  addr : Nat
  key : SkipListKey α
  below : Option Nat
deriving DecidableEq

/-- An entry of the array `nodeList`. -/
inductive SkipListSet.Slot (α : Type) where
  | uninit : SkipListSet.Slot α
  | ptr (lane : List (SkipListSet.Node α)) : SkipListSet.Slot α
deriving DecidableEq

/-- The member variables of `SkipListSet`: `levelTester`, `nodeList`, `sz`,
`lv`, `capacity`; `fresh` is the allocator's next unused address. -/
structure SkipListSet (α : Type) where
  levelTester : List Bool
  nodeList : List (SkipListSet.Slot α)
  sz : Nat
  lv : Nat
  capacity : Nat
  fresh : Nat
deriving DecidableEq

namespace SkipListSet

variable {α : Type}

/-- The constant `INITIAL_CAPACITY`. -/
def INITIAL_CAPACITY : Nat := 10

/-- The constructor `SkipListSet(levelTester)` (lines 321-330). -/
def new (levelTester : List Bool) : SkipListSet α :=
  ⟨levelTester, List.replicate INITIAL_CAPACITY (.ptr []), 0, 1, INITIAL_CAPACITY, 0⟩

/-- The nodes an entry leads to. -/
def Slot.lane : Slot α → List (Node α)
  | .uninit => []
  | .ptr l => l

/-- Read of `nodeList[i]`; `none` outside the array or at an entry never written. -/
def readSlot (i : Nat) (s : SkipListSet α) : Option (List (Node α)) :=
  match s.nodeList.get? i with
  | some (.ptr l) => some l
  | _ => none

/-- Write `nodeList[i] = head`; `none` outside the array. -/
def writeSlot (i : Nat) (lane : List (Node α)) (s : SkipListSet α) : Option (SkipListSet α) :=
  if i < s.nodeList.length then some { s with nodeList := s.nodeList.set i (.ptr lane) }
  else none

/-- The node at address `b` in a lane, with the nodes to its right. -/
def findIn (b : Nat) : List (Node α) → List (Node α)
  | [] => []
  | c :: rest => if c.addr = b then c :: rest else findIn b rest

/-- Dereference of the pointer with address `b`: the node stored there, with
the nodes to its right. -/
def deref (b : Nat) : List (Slot α) → List (Node α)
  | [] => []
  | sl :: rest =>
    match findIn b sl.lane with
    | [] => deref b rest
    | c :: more => c :: more

/-- The writes `n->right = c->right; c->right = n` at the node `c` stored at
address `a`. -/
def insertAfter (a : Nat) (n : Node α) : List (Node α) → List (Node α)
  | [] => []
  | c :: rest => if c.addr = a then c :: n :: rest else c :: insertAfter a n rest

/-- The same writes, in whichever lane the address `a` lies. -/
def Slot.insertAfter (a : Nat) (n : Node α) : Slot α → Slot α
  | .uninit => .uninit
  | .ptr l => .ptr (SkipListSet.insertAfter a n l)

/-- Member `resize` (lines 377-387): the first `lv` entries are copied into a
new array of `capacity * 2 + 1` entries, the others are left unwritten. -/
def resize (s : SkipListSet α) : Option (SkipListSet α) :=
  if s.lv ≤ s.nodeList.length then
    some { s with
      nodeList := s.nodeList.take s.lv ++ List.replicate (s.capacity * 2 + 1 - s.lv) .uninit,
      capacity := s.capacity * 2 + 1 }
  else none

/-- Lines 550-567 of `add`: when `insertLevel` is above `lv`, a new top lane
of two sentinels is built over the old top lane. The guard
`(double)lv/capacity >= 0.8` is `4 * capacity ≤ 5 * lv`, as in `HashSet.add`. -/
def newLevel (insertLevel : Nat) (s : SkipListSet α) : Option (SkipListSet α) :=
  if insertLevel > s.lv then
    let s1 := { s with lv := insertLevel }
    (if 4 * s1.capacity ≤ 5 * s1.lv then resize s1 else some s1).bind fun s2 =>
      (readSlot (s2.lv - 2) s2).bind fun lower =>
        match lower.getLast? with
        | none => none
        | some testNode =>
          let negNode : Node α := ⟨s2.fresh, .negInf, lower.head?.map Node.addr⟩
          let posNode : Node α := ⟨s2.fresh + 1, .posInf, some testNode.addr⟩
          writeSlot (s2.lv - 1) [negNode, posNode] { s2 with fresh := s2.fresh + 2 }
  else some s

/-- Member `size` (lines 615-619). -/
def size (s : SkipListSet α) : Nat := s.sz

/-- Member `levelCount` (lines 622-626). -/
def levelCount (s : SkipListSet α) : Nat := s.lv

/-- Member `elementsOnLevel` (lines 629-647): the `int` counter starts at
`-2`, counts the nodes of the lane, and is returned as `unsigned int`. -/
def elementsOnLevel (s : SkipListSet α) (level : Nat) : Option Nat :=
  if level ≥ s.lv then some 0
  else (readSlot level s).map fun lane => (((-2 : Int) + lane.length) % 2 ^ 32).toNat

section ordered

variable [LinearOrder α]

/-- The walk to the right of lines 522-537 and 569-575: the first node with
`key < element && !(right->key < element)`. `none` stands for reaching
`nullptr`, which is dereferenced right after the loop, or for reading the key
of a null `right`. -/
def walk (element : α) : List (Node α) → Option (Node α)
  | [] => none
  | c :: rest =>
    if c.key.ltElem element then
      match rest with
      | [] => none
      | r :: more =>
        if !(r.key.ltElem element) then some c else walk element (r :: more)
    else walk element rest

/-- The loop of lines 520-537, from the node `current`: walk to the right,
go `below` when there is a lane below, stop otherwise. The counter bounds the
number of lanes visited; `add` starts it at `lv`. -/
def search (element : α) (nodeList : List (Slot α)) : Nat → List (Node α) → Option (Node α)
  | 0, _ => none
  | fuel + 1, current =>
    match walk element current with
    | none => none
    | some c =>
      match c.below with
      | none => some c
      | some b => search element nodeList fuel (deref b nodeList)

/-- What the loop of `contains` does in one lane. -/
inductive Step where
  | answer (b : Bool) : Step
  | down (below : Option Nat) : Step
deriving DecidableEq

/-- The loop of `contains` (lines 599-610) within one lane: `answer true` at
a node with `key == element`, `down` at a node with
`key < element && normal(element) < right->key`, `answer false` at `nullptr`. -/
def containsLane (element : α) : List (Node α) → Option Step
  | [] => some (.answer false)
  | c :: rest =>
    if c.key.eqElem element then some (.answer true)
    else if c.key.ltElem element then
      match rest with
      | [] => none
      | r :: more =>
        if (SkipListKey.normal element).ltKey r.key then some (.down c.below)
        else containsLane element (r :: more)
    else containsLane element rest

/-- The loop of `contains` from the node `current`; the counter bounds the
number of lanes visited. -/
def containsFrom (element : α) (nodeList : List (Slot α)) : Nat → List (Node α) → Option Bool
  | 0, _ => none
  | fuel + 1, current =>
    match containsLane element current with
    | none => none
    | some (.answer b) => some b
    | some (.down none) => some false
    | some (.down (some b)) => containsFrom element nodeList fuel (deref b nodeList)

/-- Member `contains` (lines 596-612). -/
def contains (s : SkipListSet α) (element : α) : Option Bool :=
  (readSlot (s.lv - 1) s).bind (containsFrom element s.nodeList s.lv)

/-- The loop of lines 548-585, `tester` being the answers the level tester
still has to give, `insertLevel` and `pNode` the variables of `add`. -/
def promote (element : α) : List Bool → Nat → Nat → SkipListSet α → Option (SkipListSet α)
  | [], _, _, s => some { s with levelTester := [] }
  | false :: rest, _, _, s => some { s with levelTester := rest }
  | true :: rest, insertLevel, pNode, s =>
    (newLevel (insertLevel + 1) s).bind fun s1 =>
      (readSlot (insertLevel + 1 - 1) s1).bind fun lane =>
        (walk element lane).bind fun insertCurrent =>
          promote element rest (insertLevel + 1) s1.fresh
            { s1 with
              nodeList := s1.nodeList.map
                (Slot.insertAfter insertCurrent.addr ⟨s1.fresh, .normal element, some pNode⟩),
              fresh := s1.fresh + 1 }

/-- Member `add` (lines 504-593). -/
def add (element : α) (s : SkipListSet α) : Option (SkipListSet α) :=
  match readSlot 0 s with
  | none => none
  | some [] =>
    writeSlot 0
      [⟨s.fresh, .negInf, none⟩, ⟨s.fresh + 1, .normal element, none⟩,
        ⟨s.fresh + 2, .posInf, none⟩]
      { s with sz := s.sz + 1, fresh := s.fresh + 3 }
  | some (_ :: _) =>
    (contains s element).bind fun found =>
      if !found then
        (readSlot (s.lv - 1) s).bind fun top =>
          (search element s.nodeList s.lv top).bind fun current =>
            (promote element s.levelTester 1 s.fresh
              { s with
                nodeList := s.nodeList.map
                  (Slot.insertAfter current.addr ⟨s.fresh, .normal element, none⟩),
                fresh := s.fresh + 1 }).map fun s2 => { s2 with sz := s2.sz + 1 }
      else some s

/-- Member `isElementOnLevel` (lines 650-666). -/
def isElementOnLevel (s : SkipListSet α) (element : α) (level : Nat) : Option Bool :=
  if level ≥ s.lv then some false
  else (readSlot level s).map fun lane => lane.any fun n => n.key.eqElem element

/-- A run of `add` calls, first element first. -/
def addAll : List α → SkipListSet α → Option (SkipListSet α)
  | [], s => some s
  | x :: xs, s => (add x s).bind (addAll xs)

end ordered

end SkipListSet

namespace SkipListSet

variable {α : Type}

/-- The lane that entry `i` of the array leads to (no node for an entry that
is outside the array or was never written). -/
def laneAt (nodeList : List (Slot α)) (i : Nat) : List (Node α) :=
  (nodeList.getD i .uninit).lane

/-- The lane ends with a positive-infinity sentinel. -/
def EndsPos (lane : List (Node α)) : Prop :=
  ∃ front t, lane = front ++ [t] ∧ t.key = .posInf

/-- The lane starts with a negative-infinity sentinel and ends with a
positive-infinity sentinel. -/
def Framed (lane : List (Node α)) : Prop :=
  (∃ h rest, lane = h :: rest ∧ h.key = .negInf) ∧ EndsPos lane

/-- Every node of the lane `upper` has its `below` at a node of the lane
`lower` with the same key. -/
def Linked (lower upper : List (Node α)) : Prop :=
  ∀ n ∈ upper, ∃ m ∈ lower, n.below = some m.addr ∧ m.key = n.key

/-- What every state built by `add` satisfies. -/
structure Inv (s : SkipListSet α) : Prop where
  length_eq : s.nodeList.length = s.capacity
  lv_pos : 1 ≤ s.lv
  load : 5 * s.lv < 4 * s.capacity
  written : ∀ i, i < s.lv → ∃ l, s.nodeList.get? i = some (.ptr l)
  above : ∀ i, s.lv ≤ i → laneAt s.nodeList i = []
  framed : (laneAt s.nodeList 0 = [] ∧ s.lv = 1) ∨ ∀ i, i < s.lv → Framed (laneAt s.nodeList i)
  ground : ∀ n ∈ laneAt s.nodeList 0, n.below = none
  linked : ∀ i, i + 1 < s.lv → Linked (laneAt s.nodeList i) (laneAt s.nodeList (i + 1))
  nodup : ∀ i, ((laneAt s.nodeList i).map Node.addr).Nodup
  apart : ∀ i j, ∀ n ∈ laneAt s.nodeList i, ∀ m ∈ laneAt s.nodeList j, n.addr = m.addr → i = j
  below_fresh : ∀ i, ∀ n ∈ laneAt s.nodeList i, n.addr < s.fresh

end SkipListSet

/-! ### Move construction, and the order of the lanes -/

namespace SkipListSet

variable {α : Type}

/-- The move constructor `SkipListSet(SkipListSet&& s)` (lines 423-444): the
member initialisers build `*this` with a new level tester, an array of
`INITIAL_CAPACITY` null entries, `sz{s.sz}` and `lv{s.lv}`; the body then
exchanges `nodeList`, `sz`, `lv` and `capacity` with `s`. The result is
`*this` and `s` after the call. -/
def moveConstruct (levelTester : List Bool) (s : SkipListSet α) : SkipListSet α × SkipListSet α :=
  let t : SkipListSet α :=
    ⟨levelTester, List.replicate INITIAL_CAPACITY (.ptr []), s.sz, s.lv, INITIAL_CAPACITY, s.fresh⟩
  let tempList := s.nodeList
  let tempSz := s.sz
  let tempLevel := s.lv
  let tempCapacity := s.capacity
  let s1 : SkipListSet α :=
    { s with nodeList := t.nodeList, sz := t.sz, lv := t.lv, capacity := t.capacity }
  ({ t with nodeList := tempList, sz := tempSz, lv := tempLevel, capacity := tempCapacity }, s1)

/-- The elements of the normal keys of a lane, in lane order. -/
def elements (lane : List (Node α)) : List α :=
  lane.filterMap fun n =>
    match n.key with
    | .normal a => some a
    | _ => none

/-- The keys of the lane are strictly ascending under `operator<`. -/
def Ascending [LinearOrder α] (lane : List (Node α)) : Prop :=
  lane.Pairwise fun a b => a.key.ltKey b.key = true

/-- The states that `add` calls build from a new SkipListSet: well-formed,
with ascending lanes, and `sz` counting the distinct elements of lane 0. -/
structure Reach [LinearOrder α] (s : SkipListSet α) : Prop where
  inv : Inv s
  ascending : ∀ i, Ascending (laneAt s.nodeList i)
  counted : s.sz = (elements (laneAt s.nodeList 0)).length
  distinct : (elements (laneAt s.nodeList 0)).Nodup

end SkipListSet

/-! ### Copy construction, and the capacity of the lane array -/

namespace SkipListSet

variable {α : Type}

section ordered

variable [LinearOrder α]

/-- The loop `while(!(belowCurrent->key == pNode->key))` of `copy` (lines
357-360): the first node from `belowCurrent` on with the key; `none` stands
for reading the key of `nullptr`. -/
def findKey (key : SkipListKey α) : List (Node α) → Option (Node α)
  | [] => none
  | c :: rest => if c.key.eqKey key then some c else findKey key rest

/-- The body of the inner loop of `copy` (lines 353-372) for the node
`current` of lane `i` of the source: a new node with the key of `current`,
its `below` at the node of lane `i - 1` of `*this` found by the key, is put
at the end of lane `i` of `*this`. -/
def copyNode (i : Nat) (current : Node α) (t : SkipListSet α) : Option (SkipListSet α) :=
  (if i ≠ 0 then
      (readSlot (i - 1) t).bind fun lower =>
        (findKey current.key lower).map fun belowCurrent => some belowCurrent.addr
    else some none).bind fun below =>
    (readSlot i t).bind fun lane =>
      match lane with
      | [] => writeSlot i [⟨t.fresh, current.key, below⟩] { t with fresh := t.fresh + 1 }
      | c :: rest =>
        writeSlot i (c :: rest ++ [⟨t.fresh, current.key, below⟩])
          { t with fresh := t.fresh + 1 }

/-- The inner loop of `copy` over the nodes of one lane of the source. -/
def copyLane (i : Nat) : List (Node α) → SkipListSet α → Option (SkipListSet α)
  | [], t => some t
  | current :: rest, t => (copyNode i current t).bind (copyLane i rest)

/-- The outer loop of `copy` from entry `i` on, `n` entries being left. -/
def copyFrom (s : SkipListSet α) : Nat → Nat → SkipListSet α → Option (SkipListSet α)
  | 0, _, t => some t
  | n + 1, i, t =>
    (readSlot i s).bind fun lane => (copyLane i lane t).bind (copyFrom s n (i + 1))

/-- Member `copy` (lines 347-375), `t` being `*this`. -/
def copy (s t : SkipListSet α) : Option (SkipListSet α) :=
  copyFrom s s.capacity 0 t

/-- The copy constructor `SkipListSet(const SkipListSet& s)` (lines 396-420):
the copy into the local `tempSkip`, a new set whose `capacity` is overwritten
with the one of `s`, then the copy into `*this`, which starts with an array of
`s.capacity` null entries and the counters of `s`. The two level testers are
new ones. -/
def copyConstruct (tempTester levelTester : List Bool) (s : SkipListSet α) :
    Option (SkipListSet α) :=
  let tempSkip : SkipListSet α :=
    { (new tempTester : SkipListSet α) with capacity := s.capacity, fresh := s.fresh }
  (copy s tempSkip).bind fun tempSkip1 =>
    copy s ⟨levelTester, List.replicate s.capacity (.ptr []), s.sz, s.lv, s.capacity,
      tempSkip1.fresh⟩

end ordered

end SkipListSet

namespace SkipListSet

variable {α : Type}

/-- Every entry of the array has been written. -/
def AllPtr (nodeList : List (Slot α)) : Prop :=
  ∀ sl ∈ nodeList, ∃ l, sl = Slot.ptr l

/-- The state after `add(2)`, `add(1)` on a new set whose level tester answers
yes once: 1 and 2 on lane 0, 1 on lane 1. -/
def twoLanes : SkipListSet Nat :=
  ⟨[], [.ptr [⟨0, .negInf, none⟩, ⟨3, .normal 1, none⟩, ⟨1, .normal 2, none⟩,
          ⟨2, .posInf, none⟩],
        .ptr [⟨4, .negInf, some 0⟩, ⟨6, .normal 1, some 3⟩, ⟨5, .posInf, some 2⟩]] ++
      List.replicate 8 (.ptr []), 2, 2, 10, 7⟩

/-- What holds of `*this`, in state `t`, while `copy` runs on the source `s`:
the lanes below `k` have the keys of those of `s`, lane `k` has the keys of
the nodes `pre` copied so far, the lanes above are empty; every `below` leads
to a node with the same key one lane down, and the addresses are distinct. -/
structure Copying (s t : SkipListSet α) (k : Nat) (pre : List (Node α)) : Prop where
  length_eq : t.nodeList.length = s.capacity
  allPtr : AllPtr t.nodeList
  done : ∀ i, i < k → (laneAt t.nodeList i).map Node.key = (laneAt s.nodeList i).map Node.key
  current : (laneAt t.nodeList k).map Node.key = pre.map Node.key
  rest : ∀ i, k < i → laneAt t.nodeList i = []
  ground : ∀ n ∈ laneAt t.nodeList 0, n.below = none
  linked : ∀ i, Linked (laneAt t.nodeList i) (laneAt t.nodeList (i + 1))
  nodup : ∀ i, ((laneAt t.nodeList i).map Node.addr).Nodup
  apart : ∀ i j, ∀ n ∈ laneAt t.nodeList i, ∀ m ∈ laneAt t.nodeList j, n.addr = m.addr → i = j
  below_fresh : ∀ i, ∀ n ∈ laneAt t.nodeList i, n.addr < t.fresh

end SkipListSet

namespace SkipListSet

/-- What the specification prescribes for the capacity of the lane array
after `n` more lanes are materialized one by one over `lv` lanes: a new lane
that brings `levelCount / capacity` to `0.8` or above is followed by one
growth to `2 * capacity + 1`, and nothing else changes the capacity. -/
def capacityAfterLanes : Nat → Nat → Nat → Nat
  | 0, _, capacity => capacity
  | n + 1, lv, capacity =>
    capacityAfterLanes n (lv + 1)
      (if 4 * capacity ≤ 5 * (lv + 1) then 2 * capacity + 1 else capacity)

end SkipListSet

/-! ## WordChecker.cpp

A `std::string` is the list of its `char`s. A member function of
`std::string` that throws `std::out_of_range` for a position beyond the end,
and `operator[]` beyond the end, return `none`. The `std::set<std::string>`
of `findSuggestions` is the list of its elements in iteration order, which is
ascending in `operator<` of `std::string`. The word set `words` is its
membership test `contains`. `size_t` arithmetic is taken modulo `2 ^ 64`;
the `int` loop counters are natural numbers, which no word of fewer than
`2^31` `char`s overflows. -/

namespace WordChecker

/-- `word.substr(pos, len)`. -/
def substr (word : List Char) (pos len : Nat) : Option (List Char) :=
  if pos > word.length then none else some ((word.drop pos).take len)

/-- `word.substr(pos)`. -/
def substrFrom (word : List Char) (pos : Nat) : Option (List Char) :=
  if pos > word.length then none else some (word.drop pos)

/-- `word[pos]` on a `const std::string`: the `char` at `pos`, the terminating
null at `pos == size()`. -/
def index (word : List Char) (pos : Nat) : Option Char :=
  if pos > word.length then none else some (word.getD pos (Char.ofNat 0))

/-- `word.insert(pos, 1, c)`. -/
def insert (word : List Char) (pos : Nat) (c : Char) : Option (List Char) :=
  if pos > word.length then none else some (word.take pos ++ c :: word.drop pos)

/-- `word.erase(pos, 1)`. -/
def erase (word : List Char) (pos : Nat) : Option (List Char) :=
  if pos > word.length then none else some (word.take pos ++ word.drop (pos + 1))

/-- `word.replace(pos, 1, 1, c)`. -/
def replace (word : List Char) (pos : Nat) (c : Char) : Option (List Char) :=
  if pos > word.length then none else some (word.take pos ++ c :: word.drop (pos + 1))

/-- `operator<` of `std::string`: the first position where the two strings
differ decides, by the `char`s there; a proper beginning of a string is below
the string. -/
def strLt : List Char → List Char → Bool
  | _, [] => false
  | [], _ :: _ => true
  | a :: as, b :: bs =>
    if a.toNat < b.toNat then true else if b.toNat < a.toNat then false else strLt as bs

/-- `tempSet.insert(x)`. -/
def setInsert (x : List Char) : List (List Char) → List (List Char)
  | [] => [x]
  | y :: ys =>
    if strLt x y then x :: y :: ys
    else if strLt y x then y :: setInsert x ys
    else y :: ys

/-- The loop `for (i = first; i < first + n; i++) body`, `n` being the number
of values of `i` for which the condition holds. -/
def forLoop {σ : Type} (body : Nat → σ → Option σ) : Nat → Nat → σ → Option σ
  | 0, _, acc => some acc
  | n + 1, i, acc => (body i acc).bind (forLoop body n (i + 1))

/-- The values of a `char` that runs from `'A'` to `'Z'`. -/
def letters : List Char :=
  ['A', 'B', 'C', 'D', 'E', 'F', 'G', 'H', 'I', 'J', 'K', 'L', 'M',
   'N', 'O', 'P', 'Q', 'R', 'S', 'T', 'U', 'V', 'W', 'X', 'Y', 'Z']

/-- The loop `for (char j = 'A'; j <= 'Z'; j++) body`. -/
def forLetters {σ : Type} (body : Char → σ → Option σ) : List Char → σ → Option σ
  | [], acc => some acc
  | j :: rest, acc => (body j acc).bind (forLetters body rest)

/-- Member `wordExists` (lines 19-27). -/
def wordExists (contains : List Char → Bool) (word : List Char) : Bool :=
  if contains word then true else false

/-- The statement `if (wordExists(w)) tempSet.insert(w);`. -/
def insertIfWord (contains : List Char → Bool) (w : List Char)
    (tempSet : List (List Char)) : List (List Char) :=
  if wordExists contains w then setInsert w tempSet else tempSet

/-- The first technique (lines 38-47): two neighbours exchanged. The bound
`word.size() - 1` is a `size_t`. -/
def swapEach (contains : List Char → Bool) (word : List Char)
    (tempSet : List (List Char)) : Option (List (List Char)) :=
  forLoop (fun i tempSet =>
      (substr word 0 i).bind fun front =>
        (index word (i + 1)).bind fun c1 =>
          (index word i).bind fun c2 =>
            (substrFrom word (i + 2)).map fun back =>
              insertIfWord contains (front ++ [c1] ++ [c2] ++ back) tempSet)
    ((word.length + 2 ^ 64 - 1) % 2 ^ 64) 0 tempSet

/-- The second technique (lines 50-59): a letter put in at each position. -/
def insertEach (contains : List Char → Bool) (word : List Char)
    (tempSet : List (List Char)) : Option (List (List Char)) :=
  forLoop (fun k tempSet =>
      forLetters (fun j tempSet =>
          (insert word k j).map fun testWord => insertIfWord contains testWord tempSet)
        letters tempSet)
    (word.length + 1) 0 tempSet

/-- The third technique (lines 62-68): one `char` taken out. -/
def eraseEach (contains : List Char → Bool) (word : List Char)
    (tempSet : List (List Char)) : Option (List (List Char)) :=
  forLoop (fun m tempSet =>
      (erase word m).map fun deleteWord => insertIfWord contains deleteWord tempSet)
    word.length 0 tempSet

/-- The fourth technique (lines 71-79): a letter in place of each `char`, and
behind the last one. `replace` changes `word4` and `testWord4` is a copy of
the result. -/
def replaceEach (contains : List Char → Bool) (word : List Char)
    (tempSet : List (List Char)) : Option (List (List Char)) :=
  forLoop (fun n tempSet =>
      forLetters (fun l tempSet =>
          (replace word n l).map fun word4 =>
            if wordExists contains word4 then setInsert word4 tempSet else tempSet)
        letters tempSet)
    (word.length + 1) 0 tempSet

/-- The fifth technique (lines 82-88): the word split in two by a blank. The
second `substr` is only evaluated when the first part is a word. -/
def splitEach (contains : List Char → Bool) (word : List Char)
    (tempSet : List (List Char)) : Option (List (List Char)) :=
  forLoop (fun a tempSet =>
      (insert word a ' ').bind fun testWord5 =>
        (substr testWord5 0 a).bind fun first =>
          if wordExists contains first then
            (substrFrom testWord5 (a + 1)).map fun second =>
              if wordExists contains second then setInsert testWord5 tempSet else tempSet
          else some tempSet)
    (word.length - 1) 1 tempSet

/-- Member `findSuggestions` (lines 30-93). -/
def findSuggestions (contains : List Char → Bool) (word : List Char) :
    Option (List (List Char)) :=
  (swapEach contains word []).bind fun s1 =>
    (insertEach contains word s1).bind fun s2 =>
      (eraseEach contains word s2).bind fun s3 =>
        (replaceEach contains word s3).bind fun s4 =>
          splitEach contains word s4

/-- What `findSuggestions` keeps true of `tempSet`: ascending iteration order,
and every element a word, or two words with a blank in between that make up
`w`. -/
def Suggested (contains : List Char → Bool) (w : List Char) (tempSet : List (List Char)) : Prop :=
  (tempSet.Pairwise fun a b => strLt a b = true) ∧
    ∀ r ∈ tempSet, contains r = true ∨
      ∃ a b, r = a ++ ' ' :: b ∧ contains a = true ∧ contains b = true ∧ a ++ b = w

end WordChecker

/-! ## Lemmas on AVLSet -/

namespace AVLSet

variable {α : Type}

/-! ### Reading and writing through an address -/

theorem find_eq_nullptr_of_not_mem (p : Nat) (t : Node α) (h : p ∉ addrs t) :
    Node.find p t = .nullptr := by
  induction t with
  | nullptr => rfl
  | node a v k l r ihl ihr =>
    simp only [addrs, List.mem_append, List.mem_cons, not_or] at h
    have hne : ¬ a = p := fun e => h.2.1 e.symm
    simp [Node.find, hne, ihl h.1, ihr h.2.2]

theorem find_of_mem (p : Nat) (t : Node α) (h : p ∈ addrs t) :
    ∃ v k l r, Node.find p t = .node p v k l r := by
  induction t with
  | nullptr => simp [addrs] at h
  | node a v k l r ihl ihr =>
    by_cases hap : a = p
    · subst hap
      exact ⟨v, k, l, r, by simp [Node.find]⟩
    · simp only [addrs, List.mem_append, List.mem_cons] at h
      by_cases hl : p ∈ addrs l
      · obtain ⟨v1, k1, l1, r1, e⟩ := ihl hl
        exact ⟨v1, k1, l1, r1, by simp [Node.find, hap, e]⟩
      · have hr : p ∈ addrs r := by
          rcases h with h | h | h
          · exact absurd h hl
          · exact absurd h.symm hap
          · exact h
        obtain ⟨v1, k1, l1, r1, e⟩ := ihr hr
        exact ⟨v1, k1, l1, r1, by simp [Node.find, hap, find_eq_nullptr_of_not_mem p l hl, e]⟩

theorem modify_of_not_mem (p : Nat) (f : Node α → Node α) (t : Node α) (h : p ∉ addrs t) :
    Node.modify p f t = t := by
  induction t with
  | nullptr => rfl
  | node a v k l r ihl ihr =>
    simp only [addrs, List.mem_append, List.mem_cons, not_or] at h
    have hne : ¬ a = p := fun e => h.2.1 e.symm
    simp [Node.modify, hne, ihl h.1, ihr h.2.2]

/-- Under distinct addresses a write through `p` only depends on what is
written to the node that is stored at `p`. -/
theorem modify_congr (p : Nat) (f g : Node α → Node α) (t : Node α)
    (hnd : (addrs t).Nodup) (hfg : f (Node.find p t) = g (Node.find p t)) :
    Node.modify p f t = Node.modify p g t := by
  induction t with
  | nullptr => rfl
  | node a v k l r ihl ihr =>
    by_cases hap : a = p
    · simpa [Node.modify, Node.find, hap] using hfg
    · simp only [addrs] at hnd
      have hndl : (addrs l).Nodup := (List.nodup_append.1 hnd).1
      have hndr : (addrs r).Nodup := ((List.nodup_cons.1 (List.nodup_append.1 hnd).2.1)).2
      have hdisj := (List.nodup_append.1 hnd).2.2
      simp only [Node.modify, hap, if_false]
      by_cases hl : p ∈ addrs l
      · have hr : p ∉ addrs r := fun hr => hdisj hl (List.mem_cons_of_mem _ hr)
        obtain ⟨v1, k1, l1, r1, e⟩ := find_of_mem p l hl
        have e2 : Node.find p (.node a v k l r) = Node.find p l := by
          simp [Node.find, hap, e]
        rw [e2] at hfg
        rw [ihl hndl hfg, modify_of_not_mem p f r hr, modify_of_not_mem p g r hr]
      · have e2 : Node.find p (.node a v k l r) = Node.find p r := by
          simp [Node.find, hap, find_eq_nullptr_of_not_mem p l hl]
        rw [e2] at hfg
        rw [ihr hndr hfg, modify_of_not_mem p f l hl, modify_of_not_mem p g l hl]

/-- The addresses below the node stored at `p` are addresses of the tree. -/
theorem addrs_find_subset (p : Nat) (t : Node α) :
    ∀ x ∈ addrs (Node.find p t), x ∈ addrs t := by
  induction t with
  | nullptr => simp [Node.find, addrs]
  | node a v k l r ihl ihr =>
    intro x hx
    by_cases hap : a = p
    · simpa [Node.find, hap] using hx
    · simp only [addrs, List.mem_append, List.mem_cons]
      by_cases hl : p ∈ addrs l
      · obtain ⟨v1, k1, l1, r1, e⟩ := find_of_mem p l hl
        have e2 : Node.find p (.node a v k l r) = Node.find p l := by
          simp [Node.find, hap, e]
        rw [e2] at hx
        exact Or.inl (ihl x hx)
      · have e2 : Node.find p (.node a v k l r) = Node.find p r := by
          simp [Node.find, hap, find_eq_nullptr_of_not_mem p l hl]
        rw [e2] at hx
        exact Or.inr (Or.inr (ihr x hx))

theorem nodup_addrs_find (p : Nat) (t : Node α) (hnd : (addrs t).Nodup) :
    (addrs (Node.find p t)).Nodup := by
  induction t with
  | nullptr => simp [Node.find, addrs]
  | node a v k l r ihl ihr =>
    by_cases hap : a = p
    · simpa [Node.find, hap] using hnd
    · simp only [addrs] at hnd
      have hndl : (addrs l).Nodup := (List.nodup_append.1 hnd).1
      have hndr : (addrs r).Nodup := ((List.nodup_cons.1 (List.nodup_append.1 hnd).2.1)).2
      by_cases hl : p ∈ addrs l
      · obtain ⟨v1, k1, l1, r1, e⟩ := find_of_mem p l hl
        have e2 : Node.find p (.node a v k l r) = Node.find p l := by
          simp [Node.find, hap, e]
        rw [e2]; exact ihl hndl
      · have e2 : Node.find p (.node a v k l r) = Node.find p r := by
          simp [Node.find, hap, find_eq_nullptr_of_not_mem p l hl]
        rw [e2]; exact ihr hndr

/-- The node stored at `p` is the root, or lies strictly below it. -/
theorem find_root_or_below (p : Nat) (a : Nat) (v : α) (k : Int) (l r : Node α) :
    a = p ∨ ∀ x ∈ addrs (Node.find p (.node a v k l r)), x ∈ addrs l ∨ x ∈ addrs r := by
  by_cases hap : a = p
  · exact Or.inl hap
  · right
    intro x hx
    by_cases hl : p ∈ addrs l
    · obtain ⟨v1, k1, l1, r1, e⟩ := find_of_mem p l hl
      have e2 : Node.find p (.node a v k l r) = Node.find p l := by
        simp [Node.find, hap, e]
      rw [e2] at hx
      exact Or.inl (addrs_find_subset p l x hx)
    · have e2 : Node.find p (.node a v k l r) = Node.find p r := by
        simp [Node.find, hap, find_eq_nullptr_of_not_mem p l hl]
      rw [e2] at hx
      exact Or.inr (addrs_find_subset p r x hx)

end AVLSet

namespace AVLSet

variable {α : Type}

theorem modify_lists (p : Nat) (f : Node α → Node α) (t : Node α)
    (hf : ∀ n, inorderVisit (f n) = inorderVisit n ∧ addrs (f n) = addrs n) :
    inorderVisit (Node.modify p f t) = inorderVisit t ∧ addrs (Node.modify p f t) = addrs t := by
  induction t with
  | nullptr => exact ⟨rfl, rfl⟩
  | node a v k l r ihl ihr =>
    by_cases hap : a = p
    · simpa [Node.modify, hap] using hf (.node p v k l r)
    · simp [Node.modify, hap, inorderVisit, addrs, ihl.1, ihl.2, ihr.1, ihr.2]

theorem modify_eq_nullptr (p : Nat) (f : Node α → Node α) (t : Node α)
    (hf : ∀ n, f n = .nullptr → n = .nullptr) (h : Node.modify p f t = .nullptr) :
    t = .nullptr := by
  cases t with
  | nullptr => rfl
  | node a v k l r =>
    by_cases hap : a = p
    · simp only [Node.modify, hap, if_true] at h
      exact absurd (hf _ h) (by simp)
    · simp [Node.modify, hap] at h

theorem modify_leafLow (p : Nat) (f : Node α → Node α) (t : Node α)
    (hf : ∀ n, LeafLow n → LeafLow (f n)) (hn : ∀ n, f n = .nullptr → n = .nullptr)
    (h : LeafLow t) : LeafLow (Node.modify p f t) := by
  induction t with
  | nullptr => exact h
  | node a v k l r ihl ihr =>
    by_cases hap : a = p
    · simpa [Node.modify, hap] using hf _ h
    · simp only [Node.modify, hap, if_false, LeafLow]
      obtain ⟨h1, h2, h3⟩ := h
      exact ⟨fun e1 e2 => h1 (modify_eq_nullptr p f l hn e1) (modify_eq_nullptr p f r hn e2),
        ihl h2, ihr h3⟩

/-- A write through `p` that keeps the two inorder lists of the node stored
at `p` keeps those of the whole tree. -/
theorem modify_lists_at (p : Nat) (f : Node α → Node α) (t : Node α)
    (hnd : (addrs t).Nodup)
    (hf : inorderVisit (f (Node.find p t)) = inorderVisit (Node.find p t) ∧
      addrs (f (Node.find p t)) = addrs (Node.find p t)) :
    inorderVisit (Node.modify p f t) = inorderVisit t ∧ addrs (Node.modify p f t) = addrs t := by
  classical
  let g : Node α → Node α := fun n => if n = Node.find p t then f n else n
  have hg : Node.modify p f t = Node.modify p g t :=
    modify_congr p f g t hnd (by simp [g])
  rw [hg]
  apply modify_lists
  intro n
  by_cases e : n = Node.find p t
  · simp only [g, e, if_true]; exact hf
  · simp [g, e]

theorem modify_leafLow_at (p : Nat) (f : Node α → Node α) (t : Node α)
    (hnd : (addrs t).Nodup) (hf : LeafLow (f (Node.find p t)))
    (hn : f (Node.find p t) ≠ .nullptr) (h : LeafLow t) :
    LeafLow (Node.modify p f t) := by
  classical
  let g : Node α → Node α := fun n => if n = Node.find p t then f n else n
  have hg : Node.modify p f t = Node.modify p g t :=
    modify_congr p f g t hnd (by simp [g])
  rw [hg]
  apply modify_leafLow _ _ _ _ _ h
  · intro n hl
    by_cases e : n = Node.find p t
    · simp only [g, e, if_true]; exact hf
    · simpa [g, e] using hl
  · intro n hnull
    by_cases e : n = Node.find p t
    · simp only [g, e, if_true] at hnull; exact absurd hnull hn
    · simpa [g, e] using hnull

/-! ### The rotations -/

theorem cmax_eq_max (x y : Int) : cmax x y = max x y := by
  unfold cmax
  split <;> omega

theorem rebalance_spec (n : Node α) (h : LeafLow n) :
    ∃ t, rebalance n = some t ∧ inorderVisit t = inorderVisit n ∧ addrs t = addrs n ∧
      LeafLow t ∧ (t = .nullptr → n = .nullptr) := by
  unfold rebalance
  by_cases hL : leftHeavy n = true
  · rw [if_pos hL]
    obtain _ | ⟨a, v, k, l, r⟩ := n
    · simp [leftHeavy] at hL
    obtain _ | ⟨la, lv, lh, ll, lr⟩ := l
    · cases r <;> simp [leftHeavy] at hL
    have hlh : lh > 1 := by
      cases r <;> simp [leftHeavy] at hL <;> omega
    by_cases hO : outerLeft (Node.node la lv lh ll lr) = true
    · simp only [Node.left, hO, if_true, rotateLL]
      refine ⟨_, rfl, by simp [inorderVisit], by simp [addrs], ?_, by simp⟩
      simp only [LeafLow] at h ⊢
      obtain ⟨-, ⟨-, h2, h3⟩, h4⟩ := h
      refine ⟨?_, h2, ⟨?_, h3, h4⟩⟩
      · intro _ e; simp at e
      · intro e1 e2; subst e1; subst e2; simp [Node.heightOr0, cmax]
    · simp only [Node.left, hO, if_false]
      obtain _ | ⟨ka, kv, kh, kl, kr⟩ := lr
      · exfalso
        obtain _ | ⟨_, _, _, _, _⟩ := ll
        · simp only [LeafLow] at h
          have := h.2.1.1 trivial trivial
          omega
        · simp [outerLeft] at hO
      · simp only [rotateLR]
        refine ⟨_, rfl, by simp [inorderVisit], by simp [addrs], ?_, by simp⟩
        simp only [LeafLow] at h ⊢
        obtain ⟨-, ⟨-, h2, ⟨-, h3, h4⟩⟩, h5⟩ := h
        refine ⟨?_, ⟨?_, h2, h3⟩, ⟨?_, h4, h5⟩⟩
        · intro e; simp at e
        · intro e1 e2; subst e1; subst e2; simp [Node.heightOr0, cmax]
        · intro e1 e2; subst e1; subst e2; simp [Node.heightOr0, cmax]
  · rw [if_neg hL]
    by_cases hR : rightHeavy n = true
    · rw [if_pos hR]
      obtain _ | ⟨a, v, k, l, r⟩ := n
      · simp [rightHeavy] at hR
      obtain _ | ⟨ra, rv, rh, rl, rr⟩ := r
      · cases l <;> simp [rightHeavy] at hR
      have hrh : rh > 1 := by
        cases l <;> simp [rightHeavy] at hR <;> omega
      by_cases hO : outerRight (Node.node ra rv rh rl rr) = true
      · simp only [Node.right, hO, if_true, rotateRR]
        refine ⟨_, rfl, by simp [inorderVisit], by simp [addrs], ?_, by simp⟩
        simp only [LeafLow] at h ⊢
        obtain ⟨-, h1, ⟨-, h2, h3⟩⟩ := h
        refine ⟨?_, ⟨?_, h1, h2⟩, h3⟩
        · intro e; simp at e
        · intro e1 e2; subst e1; subst e2; simp [Node.heightOr0, cmax]
      · simp only [Node.right, hO, if_false]
        obtain _ | ⟨ka, kv, kh, kl, kr⟩ := rl
        · exfalso
          obtain _ | ⟨_, _, _, _, _⟩ := rr
          · simp only [LeafLow] at h
            have := h.2.2.1 trivial trivial
            omega
          · simp [outerRight] at hO
        · simp only [rotateRL]
          refine ⟨_, rfl, by simp [inorderVisit], by simp [addrs], ?_, by simp⟩
          simp only [LeafLow] at h ⊢
          obtain ⟨-, h1, ⟨-, ⟨-, h2, h3⟩, h4⟩⟩ := h
          refine ⟨?_, ⟨?_, h1, h2⟩, ⟨?_, h3, h4⟩⟩
          · intro e; simp at e
          · intro e1 e2; subst e1; subst e2; simp [Node.heightOr0, cmax]
          · intro e1 e2; subst e1; subst e2; simp [Node.heightOr0, cmax]
    · rw [if_neg hR]
      exact ⟨n, rfl, rfl, rfl, h, id⟩

end AVLSet

namespace AVLSet

variable {α : Type}

theorem leafLow_find (p : Nat) (t : Node α) (h : LeafLow t) : LeafLow (Node.find p t) := by
  induction t with
  | nullptr => exact h
  | node a v k l r ihl ihr =>
    by_cases hap : a = p
    · simpa [Node.find, hap] using h
    · obtain ⟨-, h2, h3⟩ := h
      by_cases hl : p ∈ addrs l
      · obtain ⟨v1, k1, l1, r1, e⟩ := find_of_mem p l hl
        have e2 : Node.find p (.node a v k l r) = Node.find p l := by
          simp [Node.find, hap, e]
        rw [e2]; exact ihl h2
      · have e2 : Node.find p (.node a v k l r) = Node.find p r := by
          simp [Node.find, hap, find_eq_nullptr_of_not_mem p l hl]
        rw [e2]; exact ihr h3

theorem heavy_ne_nullptr (n : Node α) (h : (leftHeavy n || rightHeavy n) = true) :
    n ≠ .nullptr := by
  rintro rfl
  simp [leftHeavy, rightHeavy] at h

theorem ptr_mem_addrs (n : Node α) (a : Nat) (h : n.ptr = some a) : a ∈ addrs n := by
  cases n with
  | nullptr => simp [Node.ptr] at h
  | node b v k l r =>
    simp only [Node.ptr, Option.some.injEq] at h
    subst h
    simp [addrs]

theorem same_refl (s : AVLSet α) : Same s s := ⟨rfl, rfl, rfl, rfl, rfl⟩

theorem same_trans {s s1 s2 : AVLSet α} (h1 : Same s s1) (h2 : Same s1 s2) : Same s s2 :=
  ⟨h2.1.trans h1.1, h2.2.1.trans h1.2.1, h2.2.2.1.trans h1.2.2.1,
    h2.2.2.2.1.trans h1.2.2.2.1, h2.2.2.2.2.trans h1.2.2.2.2⟩

/-- The call `balanceTree(start)`. -/
theorem balanceTree_root (s : AVLSet α) (h : LeafLow s.start) :
    ∃ s1, balanceTree s.start s = some s1 ∧ Same s s1 ∧ LeafLow s1.start := by
  unfold balanceTree
  by_cases hv : (leftHeavy s.start || rightHeavy s.start) = true
  · rw [if_pos hv]
    obtain ⟨t, e, h1, h2, h3, -⟩ := rebalance_spec s.start h
    rw [e]
    refine ⟨{ s with start := t }, by simp [splice], ⟨h1, h2, rfl, rfl, rfl⟩, h3⟩
  · rw [if_neg hv]
    exact ⟨s, rfl, same_refl s, h⟩

/-- The address of a child of the node stored at `a` is not the address of
the root. -/
theorem child_ptr_ne_root (a : Nat) (t : Node α) (hnd : (addrs t).Nodup)
    (v : α) (k : Int) (l r c : Node α) (e : Node.find a t = .node a v k l r)
    (hc : c = l ∨ c = r) (hcn : c ≠ .nullptr) : c.ptr ≠ t.ptr := by
  obtain _ | ⟨ca, cv, ck, cl, cr⟩ := c
  · exact absurd rfl hcn
  obtain _ | ⟨b, w, j, L, R⟩ := t
  · simp [Node.find] at e
  simp only [Node.ptr, ne_eq, Option.some.injEq]
  intro hab
  subst hab
  have hca : ∀ n : Node α, n = .node ca cv ck cl cr → ca ∈ addrs n := by
    intro n hn; subst hn; simp [addrs]
  simp only [addrs] at hnd
  have hnotL : ca ∉ addrs L := fun hx =>
    (List.nodup_append.1 hnd).2.2 hx (List.mem_cons_self _ _)
  have hnotR : ca ∉ addrs R := fun hx =>
    (List.nodup_cons.1 (List.nodup_append.1 hnd).2.1).1 hx
  have hin : ca ∈ addrs l ∨ ca ∈ addrs r := by
    rcases hc with hc | hc
    · exact Or.inl (hca l hc.symm)
    · exact Or.inr (hca r hc.symm)
  rcases find_root_or_below a ca w j L R with hroot | hbelow
  · subst hroot
    simp only [Node.find, if_true, Node.node.injEq] at e
    obtain ⟨-, -, -, e1, e2⟩ := e
    subst e1; subst e2
    rcases hin with hin | hin
    · exact hnotL hin
    · exact hnotR hin
  · rw [e] at hbelow
    have hmem : ca ∈ addrs (Node.node a v k l r) := by
      simp only [addrs, List.mem_append, List.mem_cons]
      rcases hin with hin | hin
      · exact Or.inl hin
      · exact Or.inr (Or.inr hin)
    rcases hbelow ca hmem with hx | hx
    · exact hnotL hx
    · exact hnotR hx

/-- The call `balanceTree(n->right)` made right after `prev = n`. -/
theorem balanceTree_right (a : Nat) (s : AVLSet α) (hnd : (addrs s.start).Nodup)
    (hp : s.prev = some a) (ha : a ∈ addrs s.start) (h : LeafLow s.start) :
    ∃ s1, balanceTree (Node.find a s.start).right s = some s1 ∧ Same s s1 ∧
      LeafLow s1.start := by
  obtain ⟨v, k, l, r, e⟩ := find_of_mem a s.start ha
  rw [e]
  simp only [Node.right]
  unfold balanceTree
  by_cases hv : (leftHeavy r || rightHeavy r) = true
  · rw [if_pos hv]
    have hrn : r ≠ .nullptr := heavy_ne_nullptr r hv
    have hlf : LeafLow (Node.node a v k l r) := e ▸ leafLow_find a s.start h
    obtain ⟨t, et, h1, h2, h3, h4⟩ := rebalance_spec r hlf.2.2
    rw [et]
    have hne : r.ptr ≠ s.start.ptr :=
      child_ptr_ne_root a s.start hnd v k l r r e (Or.inr rfl) hrn
    have hndf : (addrs (Node.node a v k l r)).Nodup := e ▸ nodup_addrs_find a s.start hnd
    have hlr : l.ptr ≠ r.ptr := by
      obtain _ | ⟨ra, rv, rk, rl, rr⟩ := r
      · exact absurd rfl hrn
      obtain _ | ⟨la, lv, lk, ll, lr⟩ := l
      · simp [Node.ptr]
      · simp only [Node.ptr, ne_eq, Option.some.injEq]
        intro hla
        subst hla
        simp only [addrs] at hndf
        have hdis := (List.nodup_append.1 hndf).2.2
        exact hdis (a := la) (by simp) (by simp)
    have hl := modify_lists_at a (Node.setRight t) s.start hnd
      (by rw [e]; simp [Node.setRight, inorderVisit, addrs, h1, h2])
    have hll := modify_leafLow_at a (Node.setRight t) s.start hnd
      (by
        rw [e]
        exact ⟨fun _ e2 => absurd (h4 e2) hrn, hlf.2.1, h3⟩)
      (by rw [e]; simp [Node.setRight]) h
    refine ⟨{ s with start := s.start.modify a (Node.setRight t) }, ?_,
      ⟨hl.1, hl.2, rfl, rfl, rfl⟩, hll⟩
    simp [splice, hne, hp, e, hlr]
  · rw [if_neg hv]
    exact ⟨s, rfl, same_refl s, h⟩

/-- The call `balanceTree(n->left)` made right after `prev = n`. -/
theorem balanceTree_left (a : Nat) (s : AVLSet α) (hnd : (addrs s.start).Nodup)
    (hp : s.prev = some a) (ha : a ∈ addrs s.start) (h : LeafLow s.start) :
    ∃ s1, balanceTree (Node.find a s.start).left s = some s1 ∧ Same s s1 ∧
      LeafLow s1.start := by
  obtain ⟨v, k, l, r, e⟩ := find_of_mem a s.start ha
  rw [e]
  simp only [Node.left]
  unfold balanceTree
  by_cases hv : (leftHeavy l || rightHeavy l) = true
  · rw [if_pos hv]
    have hln : l ≠ .nullptr := heavy_ne_nullptr l hv
    have hlf : LeafLow (Node.node a v k l r) := e ▸ leafLow_find a s.start h
    obtain ⟨t, et, h1, h2, h3, h4⟩ := rebalance_spec l hlf.2.1
    rw [et]
    have hne : l.ptr ≠ s.start.ptr :=
      child_ptr_ne_root a s.start hnd v k l r l e (Or.inl rfl) hln
    have hl := modify_lists_at a (Node.setLeft t) s.start hnd
      (by rw [e]; simp [Node.setLeft, inorderVisit, addrs, h1, h2])
    have hll := modify_leafLow_at a (Node.setLeft t) s.start hnd
      (by
        rw [e]
        exact ⟨fun e2 _ => absurd (h4 e2) hln, h3, hlf.2.2⟩)
      (by rw [e]; simp [Node.setLeft]) h
    refine ⟨{ s with start := s.start.modify a (Node.setLeft t) }, ?_,
      ⟨hl.1, hl.2, rfl, rfl, rfl⟩, hll⟩
    simp [splice, hne, hp, e]
  · rw [if_neg hv]
    exact ⟨s, rfl, same_refl s, h⟩

/-- Lines 528-539 keep the inorder sequence, the addresses and the counters. -/
theorem fixup_spec (a : Nat) (flag : Bool) (s : AVLSet α) (hnd : (addrs s.start).Nodup)
    (ha : a ∈ addrs s.start) (h : LeafLow s.start) :
    ∃ s1, fixup a flag s = some s1 ∧ Same s s1 ∧ LeafLow s1.start := by
  have hf : ∀ n : Node α, inorderVisit (n.setHeight (checkHeight n)) = inorderVisit n ∧
      addrs (n.setHeight (checkHeight n)) = addrs n := by
    intro n; cases n <;> simp [Node.setHeight, inorderVisit, addrs]
  have hl := modify_lists a (fun t => t.setHeight (checkHeight t)) s.start hf
  have hll : LeafLow (s.start.modify a (fun t => t.setHeight (checkHeight t))) := by
    apply modify_leafLow _ _ _ _ _ h
    · intro n hn
      obtain _ | ⟨b, w, j, L, R⟩ := n
      · exact hn
      · refine ⟨?_, hn.2.1, hn.2.2⟩
        intro e1 e2; subst e1; subst e2; simp [checkHeight]
    · intro n hn
      cases n with
      | nullptr => rfl
      | node b w j L R => simp [Node.setHeight] at hn
  unfold fixup
  simp only
  by_cases hb : s.balance = true
  · rw [if_pos hb]
    let s3 : AVLSet α :=
      { s with start := s.start.modify a (fun t => t.setHeight (checkHeight t)), prev := some a }
    have hs3 : Same s s3 := ⟨hl.1, hl.2, rfl, rfl, rfl⟩
    have hnd3 : (addrs s3.start).Nodup := by rw [hs3.2.1]; exact hnd
    have ha3 : a ∈ addrs s3.start := by rw [hs3.2.1]; exact ha
    have hchild : ∃ s4, (if flag = true then balanceTree (Node.find a s3.start).right s3
        else balanceTree (Node.find a s3.start).left s3) = some s4 ∧ Same s3 s4 ∧
        LeafLow s4.start := by
      by_cases hflag : flag = true
      · rw [if_pos hflag]; exact balanceTree_right a s3 hnd3 rfl ha3 hll
      · rw [if_neg hflag]; exact balanceTree_left a s3 hnd3 rfl ha3 hll
    obtain ⟨s4, e4, hs4, hl4⟩ := hchild
    obtain ⟨s5, e5, hs5, hl5⟩ := balanceTree_root s4 hl4
    refine ⟨s5, ?_, same_trans hs3 (same_trans hs4 hs5), hl5⟩
    show (match (if flag = true then balanceTree (Node.find a s3.start).right s3
        else balanceTree (Node.find a s3.start).left s3) with
      | none => none
      | some s4 => balanceTree s4.start s4) = some s5
    rw [e4]
    exact e5
  · rw [if_neg hb]
    exact ⟨_, rfl, ⟨hl.1, hl.2, rfl, rfl, rfl⟩, hll⟩

end AVLSet

namespace AVLSet

variable {α : Type} [LinearOrder α]

theorem sorted_append_iff {l1 l2 : List α} :
    (l1 ++ l2).Sorted (· < ·) ↔
      l1.Sorted (· < ·) ∧ l2.Sorted (· < ·) ∧ ∀ a ∈ l1, ∀ b ∈ l2, a < b :=
  List.pairwise_append

theorem onPath_self (x : α) (n : Node α) (h : n ≠ .nullptr) : OnPath x n n := by
  cases n with
  | nullptr => exact absurd rfl h
  | node a v k l r => exact Or.inl rfl

theorem onPath_lists (x : α) (n t : Node α) (h : OnPath x n t) :
    (∀ b ∈ addrs n, b ∈ addrs t) ∧ (∀ y ∈ inorderVisit n, y ∈ inorderVisit t) := by
  induction t with
  | nullptr => exact absurd h (by simp [OnPath])
  | node a v k l r ihl ihr =>
    rcases h with h | ⟨-, h⟩ | ⟨-, h⟩
    · subst h; exact ⟨fun _ hb => hb, fun _ hy => hy⟩
    · obtain ⟨h1, h2⟩ := ihr h
      refine ⟨fun b hb => ?_, fun y hy => ?_⟩
      · simp only [addrs, List.mem_append, List.mem_cons]; exact Or.inr (Or.inr (h1 b hb))
      · simp only [inorderVisit, List.mem_append, List.mem_cons]; exact Or.inr (Or.inr (h2 y hy))
    · obtain ⟨h1, h2⟩ := ihl h
      refine ⟨fun b hb => ?_, fun y hy => ?_⟩
      · simp only [addrs, List.mem_append, List.mem_cons]; exact Or.inl (h1 b hb)
      · simp only [inorderVisit, List.mem_append, List.mem_cons]; exact Or.inl (h2 y hy)

theorem onPath_right (x : α) (a : Nat) (v : α) (k : Int) (l r t : Node α)
    (h : OnPath x (.node a v k l r) t) (hx : x > v) (hr : r ≠ .nullptr) : OnPath x r t := by
  induction t with
  | nullptr => exact absurd h (by simp [OnPath])
  | node b w j L R ihl ihr =>
    rcases h with h | ⟨h0, h⟩ | ⟨h0, h⟩
    · simp only [Node.node.injEq] at h
      obtain ⟨-, e2, -, -, e5⟩ := h
      subst e2; subst e5
      exact Or.inr (Or.inl ⟨hx, onPath_self x r hr⟩)
    · exact Or.inr (Or.inl ⟨h0, ihr h⟩)
    · exact Or.inr (Or.inr ⟨h0, ihl h⟩)

theorem onPath_left (x : α) (a : Nat) (v : α) (k : Int) (l r t : Node α)
    (h : OnPath x (.node a v k l r) t) (hx : x < v) (hl : l ≠ .nullptr) : OnPath x l t := by
  induction t with
  | nullptr => exact absurd h (by simp [OnPath])
  | node b w j L R ihl ihr =>
    rcases h with h | ⟨h0, h⟩ | ⟨h0, h⟩
    · simp only [Node.node.injEq] at h
      obtain ⟨-, e2, -, e4, -⟩ := h
      subst e2; subst e4
      exact Or.inr (Or.inr ⟨hx, onPath_self x l hl⟩)
    · exact Or.inr (Or.inl ⟨h0, ihr h⟩)
    · exact Or.inr (Or.inr ⟨h0, ihl h⟩)

/-- Writing `f n` over the node `n` met by the descent for `x`, when `f n`
is `n` with `x` put in order at a new address `c`. -/
theorem modify_insert (x : α) (c a : Nat) (f : Node α → Node α) (n t : Node α)
    (hnd : (addrs t).Nodup) (hs : (inorderVisit t).Sorted (· < ·)) (hl : LeafLow t)
    (hp : OnPath x n t) (hptr : n.ptr = some a)
    (hf1 : (inorderVisit (f n)).Sorted (· < ·))
    (hf2 : (inorderVisit (f n)).Perm (x :: inorderVisit n))
    (hf3 : (addrs (f n)).Perm (c :: addrs n))
    (hf4 : LeafLow (f n)) (hf5 : f n ≠ .nullptr) :
    (inorderVisit (Node.modify a f t)).Sorted (· < ·) ∧
      (inorderVisit (Node.modify a f t)).Perm (x :: inorderVisit t) ∧
      (addrs (Node.modify a f t)).Perm (c :: addrs t) ∧
      LeafLow (Node.modify a f t) ∧ Node.modify a f t ≠ .nullptr := by
  induction t with
  | nullptr => exact absurd hp (by simp [OnPath])
  | node b w j L R ihl ihr =>
    have hmemn : a ∈ addrs n := ptr_mem_addrs n a hptr
    simp only [addrs] at hnd
    have hndL : (addrs L).Nodup := (List.nodup_append.1 hnd).1
    have hndR : (addrs R).Nodup := (List.nodup_cons.1 (List.nodup_append.1 hnd).2.1).2
    have hbR : b ∉ addrs R := (List.nodup_cons.1 (List.nodup_append.1 hnd).2.1).1
    have hdis := (List.nodup_append.1 hnd).2.2
    simp only [inorderVisit] at hs
    have hsL : (inorderVisit L).Sorted (· < ·) := (sorted_append_iff.1 hs).1
    have hsR : (inorderVisit R).Sorted (· < ·) :=
      (List.sorted_cons.1 (sorted_append_iff.1 hs).2.1).2
    have hwR : ∀ y ∈ inorderVisit R, w < y :=
      (List.sorted_cons.1 (sorted_append_iff.1 hs).2.1).1
    have hLw : ∀ y ∈ inorderVisit L, y < w := fun y hy =>
      (sorted_append_iff.1 hs).2.2 y hy w (List.mem_cons_self _ _)
    have hLR : ∀ y ∈ inorderVisit L, ∀ z ∈ inorderVisit R, y < z := fun y hy z hz =>
      (sorted_append_iff.1 hs).2.2 y hy z (List.mem_cons_of_mem _ hz)
    rcases hp with hp | ⟨h0, hp⟩ | ⟨h0, hp⟩
    · subst hp
      simp only [Node.ptr, Option.some.injEq] at hptr
      subst hptr
      simp only [Node.modify, if_true]
      exact ⟨hf1, hf2, hf3, hf4, hf5⟩
    · have haR : a ∈ addrs R := (onPath_lists x n R hp).1 a hmemn
      have hba : ¬ b = a := fun e => hbR (e ▸ haR)
      have haL : a ∉ addrs L := fun hx => hdis hx (List.mem_cons_of_mem _ haR)
      obtain ⟨i1, i2, i3, i4, -⟩ := ihr hndR hsR hl.2.2 hp
      simp only [Node.modify, hba, if_false, modify_of_not_mem a f L haL, inorderVisit, addrs]
      refine ⟨?_, ?_, ?_, ?_, by simp⟩
      · refine sorted_append_iff.2 ⟨hsL, List.sorted_cons.2 ⟨?_, i1⟩, ?_⟩
        · intro y hy
          rcases List.mem_cons.1 (i2.subset hy) with e | e
          · subst e; exact h0
          · exact hwR y e
        · intro y hy z hz
          rcases List.mem_cons.1 hz with e | e
          · subst e; exact hLw y hy
          · rcases List.mem_cons.1 (i2.subset e) with e1 | e1
            · subst e1; exact lt_trans (hLw y hy) h0
            · exact hLR y hy z e1
      · calc (inorderVisit L ++ w :: inorderVisit (Node.modify a f R)).Perm
              (inorderVisit L ++ w :: (x :: inorderVisit R)) :=
            List.Perm.append_left _ (List.Perm.cons _ i2)
          _ |>.Perm (x :: (inorderVisit L ++ w :: inorderVisit R)) := by
            rw [← List.cons_append]
            have := @List.perm_middle _ x (inorderVisit L ++ [w]) (inorderVisit R)
            simpa using this
      · calc (addrs L ++ b :: addrs (Node.modify a f R)).Perm
              (addrs L ++ b :: (c :: addrs R)) :=
            List.Perm.append_left _ (List.Perm.cons _ i3)
          _ |>.Perm (c :: (addrs L ++ b :: addrs R)) := by
            have := @List.perm_middle _ c (addrs L ++ [b]) (addrs R)
            simpa using this
      · exact ⟨fun _ e => absurd e (by
          intro e2
          have := i3.length_eq
          rw [e2] at this
          simp [addrs] at this), hl.2.1, i4⟩
    · have haL : a ∈ addrs L := (onPath_lists x n L hp).1 a hmemn
      have hba : ¬ b = a := fun e => hdis haL (e ▸ List.mem_cons_self _ _)
      have haR : a ∉ addrs R := fun hx => hdis haL (List.mem_cons_of_mem _ hx)
      obtain ⟨i1, i2, i3, i4, -⟩ := ihl hndL hsL hl.2.1 hp
      simp only [Node.modify, hba, if_false, modify_of_not_mem a f R haR, inorderVisit, addrs]
      refine ⟨?_, ?_, ?_, ?_, by simp⟩
      · refine sorted_append_iff.2 ⟨i1, List.sorted_cons.2 ⟨hwR, hsR⟩, ?_⟩
        intro y hy z hz
        rcases List.mem_cons.1 (i2.subset hy) with e | e
        · subst e
          rcases List.mem_cons.1 hz with e1 | e1
          · subst e1; exact h0
          · exact lt_trans h0 (hwR z e1)
        · rcases List.mem_cons.1 hz with e1 | e1
          · subst e1; exact hLw y e
          · exact hLR y e z e1
      · exact (List.Perm.append_right _ i2)
      · exact (List.Perm.append_right _ i3)
      · exact ⟨fun e _ => absurd e (by
          intro e2
          have := i3.length_eq
          rw [e2] at this
          simp [addrs] at this), i4, hl.2.2⟩

end AVLSet

namespace AVLSet

variable {α : Type} [LinearOrder α]

theorem onPath_sub (x : α) (n t : Node α) (h : OnPath x n t)
    (hs : (inorderVisit t).Sorted (· < ·)) (hl : LeafLow t) :
    (inorderVisit n).Sorted (· < ·) ∧ LeafLow n := by
  induction t with
  | nullptr => exact absurd h (by simp [OnPath])
  | node a v k l r ihl ihr =>
    rcases h with h | ⟨-, h⟩ | ⟨-, h⟩
    · subst h; exact ⟨hs, hl⟩
    · simp only [inorderVisit] at hs
      exact ihr h (List.sorted_cons.1 (sorted_append_iff.1 hs).2.1).2 hl.2.2
    · simp only [inorderVisit] at hs
      exact ihl h (sorted_append_iff.1 hs).1 hl.2.1

theorem inserted_fresh (x : α) (s s1 : AVLSet α) (hnd : (addrs s.start).Nodup)
    (hfr : ∀ b ∈ addrs s.start, b < s.fresh) (h : Inserted x s s1) :
    (addrs s1.start).Nodup ∧ ∀ b ∈ addrs s1.start, b < s1.fresh := by
  obtain ⟨-, -, h3, -, -, h6, -⟩ := h
  constructor
  · rw [h3.nodup_iff]
    exact List.nodup_cons.2 ⟨fun hm => lt_irrefl _ (hfr _ hm), hnd⟩
  · intro b hb
    rw [h6]
    rcases List.mem_cons.1 (h3.subset hb) with e | e
    · omega
    · have := hfr b e; omega

theorem inserted_same (x : α) (s s1 s2 : AVLSet α) (h : Inserted x s s1) (h2 : Same s1 s2)
    (hl : LeafLow s2.start) : Inserted x s s2 := by
  obtain ⟨a1, a2, a3, -, a5, a6, a7⟩ := h
  obtain ⟨b1, b2, b3, b4, b5⟩ := h2
  exact ⟨b1 ▸ a1, b1 ▸ a2, b2 ▸ a3, hl, b3.trans a5, b4.trans a6, b5.trans a7⟩

/-- Appending `x` at the far right of a sorted list whose last element is below `x`. -/
theorem sorted_snoc_right (l : List α) (v x : α) (h : (l ++ [v]).Sorted (· < ·)) (hx : v < x) :
    (l ++ v :: [x]).Sorted (· < ·) := by
  obtain ⟨h1, -, h3⟩ := sorted_append_iff.1 h
  refine sorted_append_iff.2 ⟨h1, by simp [hx], ?_⟩
  intro y hy z hz
  have hyv : y < v := h3 y hy v (by simp)
  rcases List.mem_cons.1 hz with e | e
  · subst e; exact hyv
  · simp only [List.mem_singleton] at e
    subst e; exact lt_trans hyv hx

theorem assignValue_spec (x : α) (n : Node α) (s : AVLSet α)
    (hnd : (addrs s.start).Nodup) (hfr : ∀ b ∈ addrs s.start, b < s.fresh)
    (hs : (inorderVisit s.start).Sorted (· < ·)) (hl : LeafLow s.start)
    (hp : OnPath x n s.start) (hx : x ∉ inorderVisit s.start) :
    ∃ s1, assignValue x n s = some s1 ∧ Inserted x s s1 := by
  induction n generalizing s with
  | nullptr =>
    exfalso
    clear hnd hfr hs hl hx
    generalize s.start = t at hp
    induction t with
    | nullptr => exact hp
    | node a v k l r ihl ihr =>
      rcases hp with h | ⟨-, h⟩ | ⟨-, h⟩
      · simp at h
      · exact ihr h
      · exact ihl h
  | node a v k l r ihl ihr =>
    have hsub := onPath_lists x _ _ hp
    have ha : a ∈ addrs s.start := hsub.1 a (by simp [addrs])
    have hv : v ∈ inorderVisit s.start := hsub.2 v (by simp [inorderVisit])
    have hxv : x ≠ v := fun e => hx (e ▸ hv)
    obtain ⟨hsn, hln⟩ := onPath_sub x _ _ hp hs hl
    -- what is left to do once the new node hangs in the tree
    have finish : ∀ (flag : Bool) (s1 : AVLSet α), Inserted x s s1 →
        ∃ s2, fixup a flag s1 = some s2 ∧ Inserted x s s2 := by
      intro flag s1 h1
      obtain ⟨hnd1, -⟩ := inserted_fresh x s s1 hnd hfr h1
      have ha1 : a ∈ addrs s1.start := h1.2.2.1.symm.subset (List.mem_cons_of_mem _ ha)
      obtain ⟨s2, e2, hsame, hl2⟩ := fixup_spec a flag s1 hnd1 ha1 h1.2.2.2.1
      exact ⟨s2, e2, inserted_same x s s1 s2 h1 hsame hl2⟩
    unfold assignValue; simp only
    by_cases hgt : x > v
    · rw [if_pos hgt]
      cases r with
      | nullptr =>
        simp only
        apply finish
        have hm := modify_insert x s.fresh a
          (Node.setRight (Node.node s.fresh x 1 .nullptr .nullptr)) _ s.start hnd hs hl hp rfl
          (by
            simp only [Node.setRight, inorderVisit, List.nil_append]
            simp only [inorderVisit, List.nil_append] at hsn
            exact sorted_snoc_right _ v x hsn hgt)
          (by
            simp only [Node.setRight, inorderVisit, List.nil_append]
            have := @List.perm_middle _ x (inorderVisit l ++ [v]) []
            simpa using this)
          (by
            simp only [Node.setRight, addrs, List.nil_append]
            have := @List.perm_middle _ s.fresh (addrs l ++ [a]) []
            simpa using this)
          (by
            simp only [Node.setRight, LeafLow]
            exact ⟨fun _ e => absurd e (by simp), hln.2.1, by simp⟩)
          (by simp [Node.setRight])
        exact ⟨hm.1, hm.2.1, hm.2.2.1, hm.2.2.2.1, rfl, rfl, rfl⟩
      | node ra rv rk rl rr =>
        simp only
        have hp2 := onPath_right x a v k l _ s.start hp hgt (by simp)
        obtain ⟨s1, e1, h1⟩ := ihr { s with prev := some a } hnd hfr hs hl hp2 hx
        rw [e1]
        exact finish true s1 h1
    · rw [if_neg hgt]
      have hlt : x < v := lt_of_le_of_ne (not_lt.1 hgt) hxv
      rw [if_pos hlt]
      cases l with
      | nullptr =>
        simp only
        apply finish
        have hm := modify_insert x s.fresh a
          (Node.setLeft (Node.node s.fresh x 1 .nullptr .nullptr)) _ s.start hnd hs hl hp rfl
          (by
            simp only [Node.setLeft, inorderVisit, List.nil_append]
            simp only [inorderVisit, List.nil_append] at hsn
            refine List.sorted_cons.2 ⟨?_, hsn⟩
            intro y hy
            rcases List.mem_cons.1 hy with e | e
            · subst e; exact hlt
            · exact lt_trans hlt ((List.sorted_cons.1 hsn).1 y e))
          (by simp [Node.setLeft, inorderVisit])
          (by simp [Node.setLeft, addrs])
          (by
            simp only [Node.setLeft, LeafLow]
            exact ⟨fun e _ => absurd e (by simp), by simp, hln.2.2⟩)
          (by simp [Node.setLeft])
        exact ⟨hm.1, hm.2.1, hm.2.2.1, hm.2.2.2.1, rfl, rfl, rfl⟩
      | node la lv lk ll lr =>
        simp only
        have hp2 := onPath_left x a v k _ r s.start hp hlt (by simp)
        obtain ⟨s1, e1, h1⟩ := ihl { s with prev := some a } hnd hfr hs hl hp2 hx
        rw [e1]
        exact finish false s1 h1

/-- On a search tree `containValue` finds exactly the values of the tree. -/
theorem containValue_iff (x : α) (t : Node α) (hs : (inorderVisit t).Sorted (· < ·)) :
    containValue x t = true ↔ x ∈ inorderVisit t := by
  induction t with
  | nullptr => simp [containValue, inorderVisit]
  | node a v k l r ihl ihr =>
    simp only [inorderVisit] at hs
    obtain ⟨hsl, hsr0, hlr⟩ := sorted_append_iff.1 hs
    obtain ⟨hvr, hsr⟩ := List.sorted_cons.1 hsr0
    simp only [containValue, inorderVisit, List.mem_append, List.mem_cons]
    by_cases hgt : x > v
    · rw [if_pos hgt, ihr hsr]
      constructor
      · exact fun h => Or.inr (Or.inr h)
      · rintro (h | h | h)
        · exact absurd (hlr x h v (List.mem_cons_self _ _)) (not_lt.2 (le_of_lt hgt))
        · exact absurd h (ne_of_gt hgt)
        · exact h
    · rw [if_neg hgt]
      by_cases hlt : x < v
      · rw [if_pos hlt, ihl hsl]
        constructor
        · exact fun h => Or.inl h
        · rintro (h | h | h)
          · exact h
          · exact absurd h (ne_of_lt hlt)
          · exact absurd (hvr x h) (not_lt.2 (le_of_lt hlt))
      · rw [if_neg hlt]
        simp only [true_iff]
        exact Or.inr (Or.inl (le_antisymm (not_lt.1 hgt) (not_lt.1 hlt)))

theorem wf_empty (b : Bool) : WF (empty b : AVLSet α) := by
  simp [WF, empty, inorderVisit, addrs, LeafLow]

/-- One call of `add` on a well-formed state. -/
theorem add_spec (x : α) (s : AVLSet α) (h : WF s) :
    ∃ s1, add x s = some s1 ∧ WF s1 ∧ s1.balance = s.balance ∧
      (x ∈ inorderVisit s.start → s1 = s) ∧
      (x ∉ inorderVisit s.start → (inorderVisit s1.start).Perm (x :: inorderVisit s.start)) := by
  obtain ⟨hs, hnd, hfr, hl, hsz⟩ := h
  unfold add
  cases hst : s.start with
  | nullptr =>
    simp only
    refine ⟨_, rfl, ?_, rfl, ?_, ?_⟩
    · rw [hst] at hsz
      simp [WF, inorderVisit, addrs, LeafLow, hsz]
    · intro hm; simp [inorderVisit] at hm
    · intro _; simp [inorderVisit]
  | node a v k l r =>
    simp only
    have hc := containValue_iff x s.start hs
    by_cases hm : x ∈ inorderVisit s.start
    · have : s.contains x = true := hc.2 hm
      simp only [this, Bool.not_true, Bool.false_eq_true, if_false]
      exact ⟨s, rfl, ⟨hs, hnd, hfr, hl, hsz⟩, rfl, fun _ => rfl, fun h => absurd (hst ▸ hm) h⟩
    · have : s.contains x = false := by
        cases hcx : s.contains x with
        | false => rfl
        | true => exact absurd (hc.1 hcx) hm
      simp only [this, Bool.not_false, if_true]
      have hp : OnPath x (Node.node a v k l r) s.start := by
        rw [hst]; exact Or.inl rfl
      obtain ⟨s1, e1, h1⟩ := assignValue_spec x _ s hnd hfr hs hl hp hm
      obtain ⟨hnd1, hfr1⟩ := inserted_fresh x s s1 hnd hfr h1
      refine ⟨s1, e1, ⟨h1.1, hnd1, hfr1, h1.2.2.2.1, ?_⟩, h1.2.2.2.2.2.2,
        fun h => absurd (hst ▸ h) hm, fun _ => hst ▸ h1.2.1⟩
      rw [h1.2.2.2.2.1, h1.2.1.length_eq, hsz]
      simp

/-- A run of `add` calls on a well-formed state. -/
theorem addAll_spec (xs : List α) (s : AVLSet α) (h : WF s) :
    ∃ s1, addAll xs s = some s1 ∧ WF s1 ∧ s1.balance = s.balance ∧
      ∀ y, y ∈ inorderVisit s1.start ↔ y ∈ xs ∨ y ∈ inorderVisit s.start := by
  induction xs generalizing s with
  | nil => exact ⟨s, rfl, h, rfl, by simp⟩
  | cons x xs ih =>
    obtain ⟨s1, e1, hw1, hb1, hin, hout⟩ := add_spec x s h
    obtain ⟨s2, e2, hw2, hb2, hmem⟩ := ih s1 hw1
    refine ⟨s2, by simp [addAll, e1, e2], hw2, hb2.trans hb1, ?_⟩
    intro y
    rw [hmem y]
    by_cases hx : x ∈ inorderVisit s.start
    · rw [hin hx]
      simp only [List.mem_cons]
      constructor
      · rintro (h | h)
        · exact Or.inl (Or.inr h)
        · exact Or.inr h
      · rintro ((h | h) | h)
        · exact Or.inr (h ▸ hx)
        · exact Or.inl h
        · exact Or.inr h
    · have := (hout hx).mem_iff (a := y)
      rw [this]
      simp only [List.mem_cons]
      tauto

end AVLSet

namespace AVLSet

variable {α : Type}

theorem nodeCount_eq_length (t : Node α) : nodeCount t = (inorderVisit t).length := by
  induction t with
  | nullptr => rfl
  | node a v k l r ihl ihr => simp [nodeCount, inorderVisit, ihl, ihr]; omega

theorem preorderVisit_perm (t : Node α) : (preorderVisit t).Perm (inorderVisit t) := by
  induction t with
  | nullptr => exact List.Perm.refl _
  | node a v k l r ihl ihr =>
    simp only [preorderVisit, inorderVisit]
    exact (List.Perm.cons v (List.Perm.append ihl ihr)).trans List.perm_middle.symm

theorem postorderVisit_perm (t : Node α) : (postorderVisit t).Perm (inorderVisit t) := by
  induction t with
  | nullptr => exact List.Perm.refl _
  | node a v k l r ihl ihr =>
    simp only [postorderVisit, inorderVisit]
    refine List.Perm.append ihl ?_
    exact (List.perm_append_singleton v _).trans (List.Perm.cons v ihr)

end AVLSet

namespace AVLSet

variable {α : Type} [LinearOrder α]

theorem isBST_of_sorted (t : Node α) (hs : (inorderVisit t).Sorted (· < ·)) : IsBST t := by
  induction t with
  | nullptr => trivial
  | node a v k l r ihl ihr =>
    simp only [inorderVisit] at hs
    obtain ⟨hsl, hsr0, hlr⟩ := sorted_append_iff.1 hs
    obtain ⟨hvr, hsr⟩ := List.sorted_cons.1 hsr0
    exact ⟨fun x hx => hlr x hx v (List.mem_cons_self _ _), hvr, ihl hsl, ihr hsr⟩

/-- Every run of `add` calls on a new set returns, in a well-formed state
that holds exactly the values added. -/
theorem addAll_empty (b : Bool) (xs : List α) :
    ∃ s, addAll xs (empty b) = some s ∧ WF s ∧ s.balance = b ∧
      ∀ y, y ∈ inorderVisit s.start ↔ y ∈ xs := by
  obtain ⟨s, e, hw, hb, hm⟩ := addAll_spec xs (empty b) (wf_empty b)
  exact ⟨s, e, hw, hb, fun y => by simpa [empty, inorderVisit] using hm y⟩

end AVLSet


namespace AVLSet

variable {α : Type}

theorem chain_snoc (a : Nat) (ps : List (α × Int)) (p : α × Int) (t : Node α) :
    chain a (ps ++ [p]) t = chain a ps (.node (a + ps.length) p.1 p.2 .nullptr t) := by
  induction ps generalizing a with
  | nil => simp [chain]
  | cons q qs ih =>
    rw [List.cons_append]
    simp only [chain, List.length_cons]
    rw [ih (a + 1)]
    congr 3
    omega

theorem modify_chain (a : Nat) (ps : List (α × Int)) (f : Node α → Node α)
    (c : Nat) (v : α) (k : Int) (l r : Node α) (hc : c = a + ps.length) :
    Node.modify c f (chain a ps (.node c v k l r)) = chain a ps (f (.node c v k l r)) := by
  induction ps generalizing a with
  | nil => simp [chain, Node.modify]
  | cons q qs ih =>
    have hne : ¬ a = c := by simp only [List.length_cons] at hc; omega
    simp only [chain, Node.modify, hne, if_false]
    rw [ih (a + 1) (by simp only [List.length_cons] at hc; omega)]

end AVLSet

namespace AVLSet

variable {α : Type} [LinearOrder α]

theorem containValue_chain (y : α) (a : Nat) (ps : List (α × Int)) (t : Node α)
    (h : ∀ p ∈ ps, p.1 < y) : containValue y (chain a ps t) = containValue y t := by
  induction ps generalizing a with
  | nil => rfl
  | cons q qs ih =>
    have hq : y > q.1 := h q (List.mem_cons_self _ _)
    simp only [chain, containValue, hq, if_true]
    exact ih (a + 1) (fun p hp => h p (List.mem_cons_of_mem _ hp))

theorem containValue_spine (y : α) (a : Nat) (xs : List α) (h : ∀ z ∈ xs, z < y) :
    containValue y (spine a xs) = false := by
  induction xs generalizing a with
  | nil => rfl
  | cons x xs ih =>
    have hx : y > x := h x (List.mem_cons_self _ _)
    simp only [spine, containValue, hx, if_true]
    exact ih (a + 1) (fun z hz => h z (List.mem_cons_of_mem _ hz))

/-- Without balancing, `assignValue` for a value above all the others walks
down the degenerate tree, hangs the new node at its end and recomputes the
cached heights on the way back. -/
theorem assignValue_spine (y : α) (rest : List α) (ps : List (α × Int)) (a0 a : Nat) (v : α)
    (k : Int) (s : AVLSet α) (hb : s.balance = false) (ha : a = a0 + ps.length)
    (hst : s.start = chain a0 ps (.node a v k .nullptr (spine (a + 1) rest)))
    (hfr : s.fresh = a + 1 + rest.length) (hv : v < y) (hrest : ∀ z ∈ rest, z < y) :
    ∃ p, assignValue y (.node a v k .nullptr (spine (a + 1) rest)) s =
      some ⟨chain a0 ps (.node a v (rest.length + 2) .nullptr (spine (a + 1) (rest ++ [y]))),
        p, false, s.sz + 1, s.fresh + 1⟩ := by
  induction rest generalizing ps a v k s with
  | nil =>
    refine ⟨s.prev, ?_⟩
    unfold assignValue
    simp only [gt_iff_lt, hv, if_true, spine, fixup, hb, hst, Bool.false_eq_true, if_false]
    rw [modify_chain a0 ps _ a v k _ _ ha]
    simp only [Node.setRight]
    rw [modify_chain a0 ps _ a v k _ _ ha]
    simp [Node.setHeight, checkHeight, hfr, spine]
  | cons z rest ih =>
    have hz : z < y := hrest z (List.mem_cons_self _ _)
    have hst2 : s.start = chain a0 (ps ++ [(v, k)])
        (.node (a + 1) z (rest.length + 1) .nullptr (spine (a + 1 + 1) rest)) := by
      rw [hst, chain_snoc, ← ha]
      rfl
    obtain ⟨p, e⟩ := ih (ps ++ [(v, k)]) (a + 1) z (rest.length + 1) { s with prev := some a }
      hb (by simp; omega) hst2 (by simp only [List.length_cons] at hfr; simpa using (by omega))
      hz (fun w hw => hrest w (List.mem_cons_of_mem _ hw))
    refine ⟨p, ?_⟩
    unfold assignValue
    simp only [gt_iff_lt, hv, if_true, spine]
    simp only [spine] at e
    rw [e]
    simp only [Option.bind, fixup, Bool.false_eq_true, if_false, chain_snoc, ← ha]
    rw [modify_chain a0 ps _ a v k _ _ ha]
    have hl : rest.append [y] = rest ++ [y] := rfl
    simp only [hl, Node.setHeight, checkHeight, List.length_cons, List.length_append,
      List.length_singleton, List.length_nil]
    have h1 : ((rest.length : Int) + 2 + 1) = ((rest.length + 1 : Nat) : Int) + 2 := by
      push_cast; ring
    have h2 : ((rest.length : Int) + 2) = ((rest.length + (0 + 1) : Nat) : Int) + 1 := by
      push_cast; ring
    rw [h1, h2]

theorem addAll_append (xs ys : List α) (s : AVLSet α) :
    addAll (xs ++ ys) s = (addAll xs s).bind (addAll ys) := by
  induction xs generalizing s with
  | nil => rfl
  | cons x xs ih =>
    simp only [List.cons_append, addAll]
    cases add x s with
    | none => rfl
    | some s1 => exact ih s1

/-- Without balancing, a strictly ascending run of `add` calls leaves the
degenerate tree. -/
theorem addAll_ascending (x0 : α) (rest : List α) (hs : (x0 :: rest).Sorted (· < ·)) :
    ∃ h0 p, addAll (x0 :: rest) (empty false) =
      some ⟨.node 0 x0 h0 .nullptr (spine 1 rest), p, false, rest.length + 1, rest.length + 1⟩ := by
  induction rest using List.reverseRecOn with
  | nil => exact ⟨0, none, rfl⟩
  | append_singleton rest y ih =>
    have hs1 : (x0 :: rest).Sorted (· < ·) := by
      have := (@sorted_append_iff _ _ (x0 :: rest) [y]).1 (by simpa using hs)
      exact this.1
    have hy : ∀ z ∈ x0 :: rest, z < y := by
      have := (@sorted_append_iff _ _ (x0 :: rest) [y]).1 (by simpa using hs)
      exact fun z hz => this.2.2 z hz y (List.mem_singleton_self y)
    obtain ⟨h0, p, e⟩ := ih hs1
    have hc : containValue y (Node.node 0 x0 h0 .nullptr (spine 1 rest)) = false := by
      have hx0 : y > x0 := hy x0 (List.mem_cons_self _ _)
      simp only [containValue, hx0, if_true]
      exact containValue_spine y 1 rest (fun z hz => hy z (List.mem_cons_of_mem _ hz))
    obtain ⟨q, e2⟩ := assignValue_spine y rest [] 0 0 x0 h0
      ⟨.node 0 x0 h0 .nullptr (spine 1 rest), p, false, rest.length + 1, rest.length + 1⟩
      rfl rfl rfl (by simp; omega) (hy x0 (List.mem_cons_self _ _))
      (fun z hz => hy z (List.mem_cons_of_mem _ hz))
    refine ⟨(rest.length : Int) + 2, q, ?_⟩
    have : x0 :: (rest ++ [y]) = (x0 :: rest) ++ [y] := rfl
    rw [this, addAll_append, e]
    simp only [Option.bind, addAll, add, contains, hc, Bool.not_false, if_true]
    simp only [chain] at e2
    rw [e2]
    simp

end AVLSet


/-! ## The claims on AVLSet -/

namespace AVLSet

variable {α : Type} [LinearOrder α]

/-- C1, at the failing input: the nine calls `add(6)`, `add(0)`, `add(5)`,
`add(1)`, `add(2)`, `add(3)`, `add(4)`, `add(7)`, `add(8)` on an empty AVLSet
with balancing on leave the tree shown, which is not an AVL tree: the node
holding 2 has a left subtree of true height 1 (1 above 0) and no right
subtree. -/
theorem avl_balance_lost_after_nine_adds :
    (addAll [6, 0, 5, 1, 2, 3, 4, 7, 8] (empty true)).map
        (fun s => (s.start, isAVL s.start)) =
      some (.node 5 3 4
          (.node 4 2 3 (.node 3 1 2 (.node 1 0 1 .nullptr .nullptr) .nullptr) .nullptr)
          (.node 2 5 3 (.node 6 4 1 .nullptr .nullptr)
            (.node 7 7 2 (.node 0 6 1 .nullptr .nullptr) (.node 8 8 1 .nullptr .nullptr))),
        false) := by
  decide!

/-- C2: every run of `add` calls on an empty AVLSet, balancing on or off,
returns, and the tree it leaves has the strict search-tree ordering at every
node; its inorder sequence is strictly ascending and is the inorder sequence
the same run leaves without balancing, so the rotations do not change it. -/
theorem avl_search_tree_ordering (b : Bool) (xs : List α) :
    ∃ s u, addAll xs (empty b) = some s ∧ addAll xs (empty false) = some u ∧
      IsBST s.start ∧ (inorder s).Sorted (· < ·) ∧ inorder s = inorder u := by
  obtain ⟨s, e, hw, -, hm⟩ := addAll_empty b xs
  obtain ⟨u, eu, hwu, -, hmu⟩ := addAll_empty false xs
  refine ⟨s, u, e, eu, isBST_of_sorted _ hw.1, hw.1, ?_⟩
  refine List.eq_of_perm_of_sorted ?_ hw.1 hwu.1
  exact (List.perm_ext_iff_of_nodup hw.1.nodup hwu.1.nodup).2
    (fun y => (hm y).trans (hmu y).symm)

/-- C3: after any run of `add` calls on an empty AVLSet, balancing on or off,
`contains(x)` is true exactly when `x` is one of the values added. -/
theorem avl_contains_iff_added (b : Bool) (xs : List α) (x : α) :
    ∃ s, addAll xs (empty b) = some s ∧ (contains s x = true ↔ x ∈ xs) := by
  obtain ⟨s, e, hw, -, hm⟩ := addAll_empty b xs
  exact ⟨s, e, (containValue_iff x s.start hw.1).trans (hm x)⟩

/-- C4: after any run of `add` calls on an empty AVLSet, balancing on or off,
`size()` is the number of distinct values in the run and the number of nodes
of the tree. -/
theorem avl_size_counts_distinct (b : Bool) (xs : List α) :
    ∃ s, addAll xs (empty b) = some s ∧ size s = xs.dedup.length ∧
      size s = nodeCount s.start := by
  obtain ⟨s, e, hw, -, hm⟩ := addAll_empty b xs
  refine ⟨s, e, ?_, ?_⟩
  · unfold size
    rw [hw.2.2.2.2]
    apply List.Perm.length_eq
    exact (List.perm_ext_iff_of_nodup hw.1.nodup (List.nodup_dedup xs)).2
      (fun y => (hm y).trans List.mem_dedup.symm)
  · unfold size
    rw [hw.2.2.2.2, nodeCount_eq_length]

/-- C5, at the failing input: after `add(0)`, ..., `add(9)` in ascending
order on an empty AVLSet with balancing on, `height()` returns 4 while the
tree shown has true height 3: the node holding 6 still caches the height 4
it had before the rotation below it. -/
theorem avl_height_stale_after_ten_adds :
    (addAll [0, 1, 2, 3, 4, 5, 6, 7, 8, 9] (empty true)).map
        (fun s => (s.start, height s, trueHeight s.start)) =
      some (.node 4 4 5
          (.node 2 2 3 (.node 1 1 2 (.node 0 0 1 .nullptr .nullptr) .nullptr)
            (.node 3 3 1 .nullptr .nullptr))
          (.node 6 6 4 (.node 5 5 1 .nullptr .nullptr)
            (.node 8 8 2 (.node 7 7 1 .nullptr .nullptr) (.node 9 9 1 .nullptr .nullptr))),
        4, 3) := by
  decide!

/-- C6: with balancing off, adding `n ≥ 1` values in strictly ascending
order to an empty AVLSet leaves a set whose `height()` is `n - 1`. -/
theorem avl_unbalanced_ascending_height (xs : List α)
    (hne : xs ≠ []) (hs : xs.Sorted (· < ·)) :
    ∃ s, addAll xs (empty false) = some s ∧ height s = (xs.length : Int) - 1 := by
  obtain _ | ⟨x0, rest⟩ := xs
  · exact absurd rfl hne
  obtain ⟨h0, p, e⟩ := addAll_ascending x0 rest hs
  refine ⟨_, e, ?_⟩
  cases rest with
  | nil => simp [height, checkHeight, spine]
  | cons z zs =>
    simp only [height, checkHeight, spine, List.length_cons]
    push_cast
    ring

/-- Witness for C6: the values 10, 20, 30 added in this order without
balancing give height 2. -/
theorem avl_unbalanced_ascending_height_witness :
    ∃ s, addAll [10, 20, 30] (empty false) = some s ∧ height s = (([10, 20, 30] : List Nat).length : Int) - 1 :=
  avl_unbalanced_ascending_height [10, 20, 30] (by decide) (by decide)

/-- C7: adding 5, 3, 8, 1, 4, 7, 9 in this order to an empty AVLSet with
balancing on gives a set of height at most 3 (it is 2) whose inorder traversal
visits 1, 3, 4, 5, 7, 8, 9 in this order. -/
theorem avl_scenario_seven_values :
    (addAll [5, 3, 8, 1, 4, 7, 9] (empty true)).map
        (fun s => (decide (height s ≤ 3), height s, inorder s)) =
      some (true, 2, [1, 3, 4, 5, 7, 8, 9]) := by
  decide!

/-- C8: on every AVLSet reached by `add` calls each of `preorder`, `inorder`
and `postorder` calls the visitor `size()` times; the three visit sequences
are permutations of one another, without repetition, and hold exactly the
values for which `contains` is true. -/
theorem avl_traversals_visit_each_once (b : Bool) (xs : List α) :
    ∃ s, addAll xs (empty b) = some s ∧
      (preorder s).length = size s ∧ (inorder s).length = size s ∧
      (postorder s).length = size s ∧
      (preorder s).Perm (inorder s) ∧ (postorder s).Perm (inorder s) ∧
      (preorder s).Nodup ∧ (inorder s).Nodup ∧ (postorder s).Nodup ∧
      ∀ x, contains s x = true ↔ x ∈ inorder s := by
  obtain ⟨s, e, hw, -, -⟩ := addAll_empty b xs
  have hpre := preorderVisit_perm s.start
  have hpost := postorderVisit_perm s.start
  have hnd : (inorderVisit s.start).Nodup := hw.1.nodup
  refine ⟨s, e, ?_, hw.2.2.2.2.symm, ?_, hpre, hpost, hpre.nodup_iff.2 hnd, hnd,
    hpost.nodup_iff.2 hnd, fun x => containValue_iff x s.start hw.1⟩
  · exact hpre.length_eq.trans hw.2.2.2.2.symm
  · exact hpost.length_eq.trans hw.2.2.2.2.symm

/-- C9: on an AVLSet `s` reached by `add` calls, `add(e)` of a value with
`contains(e)` true returns the very same state: same tree with the same
cached heights, same `sz`, same `prev`. -/
theorem avl_add_present_is_noop (b : Bool) (xs : List α) (s : AVLSet α) (e : α)
    (_hr : addAll xs (empty b) = some s) (hc : contains s e = true) : add e s = some s := by
  unfold add
  cases hst : s.start with
  | nullptr => simp [contains, hst, containValue] at hc
  | node a v k l r => simp [hc]

/-- Witness for C9: after `add(2)`, `add(1)`, `add(3)` the call `add(1)`
changes nothing. -/
theorem avl_add_present_is_noop_witness :
    add (1 : Nat) ⟨.node 0 2 2 (.node 1 1 1 .nullptr .nullptr) (.node 2 3 1 .nullptr .nullptr),
        some 0, true, 3, 3⟩ =
      some ⟨.node 0 2 2 (.node 1 1 1 .nullptr .nullptr) (.node 2 3 1 .nullptr .nullptr),
        some 0, true, 3, 3⟩ :=
  avl_add_present_is_noop true [2, 1, 3] _ 1 (by decide!) (by decide!)

end AVLSet

/-! ## The claims on HashSet -/

namespace HashSet

variable {α : Type} [DecidableEq α]

/-- One `add` keeps the load strictly below four fifths. -/
theorem add_load (x : α) (s : HashSet α) (h : 5 * s.sz < 4 * s.capacity) :
    5 * (add x s).sz < 4 * (add x s).capacity := by
  unfold add
  by_cases hc : (!s.contains x) = true
  · rw [if_pos hc]
    simp only
    by_cases hg : 4 * s.capacity ≤ 5 * (s.sz + 1)
    · rw [if_pos hg]
      show 5 * (s.sz + 1) < 4 * (s.capacity * 2 + 1)
      omega
    · rw [if_neg hg]
      simp only
      omega
  · rw [if_neg hc]
    exact h

theorem addAll_load (xs : List α) (s : HashSet α) (h : 5 * s.sz < 4 * s.capacity) :
    5 * (addAll xs s).sz < 4 * (addAll xs s).capacity := by
  induction xs generalizing s with
  | nil => exact h
  | cons x xs ih => exact ih (add x s) (add_load x s h)

/-- C10: for every hash function, after every `add` that follows any run of
`add` calls on a newly constructed HashSet, `5 * size() < 4 * capacity`, that
is `size / capacity < 0.8`. -/
theorem hashset_load_below_four_fifths (hashFunction : α → Nat) (xs : List α) (x : α) :
    5 * size (add x (addAll xs (new hashFunction))) <
      4 * (add x (addAll xs (new hashFunction))).capacity :=
  add_load x _ (addAll_load xs _ (by simp [new, DEFAULT_CAPACITY]))

end HashSet

namespace HashSet

variable {α : Type}

theorem appendAt_length (v : α) (i : Nat) (T : List (List α)) :
    (appendAt v i T).length = T.length := by
  induction T generalizing i with
  | nil => cases i <;> rfl
  | cons c cs ih =>
    cases i with
    | zero => rfl
    | succ i => simp [appendAt, ih]

theorem appendAt_getD (v : α) (i j : Nat) (T : List (List α)) (hi : i < T.length) :
    (appendAt v i T).getD j [] = if j = i then T.getD i [] ++ [v] else T.getD j [] := by
  induction T generalizing i j with
  | nil => simp at hi
  | cons c cs ih =>
    cases i with
    | zero =>
      cases j with
      | zero => simp [appendAt]
      | succ j => simp [appendAt]
    | succ i =>
      cases j with
      | zero => simp [appendAt]
      | succ j =>
        simp only [appendAt, List.getD_cons_succ, Nat.succ_eq_add_one, add_left_inj]
        exact ih i j (by simpa using hi)

theorem flatten_appendAt (v : α) (i : Nat) (T : List (List α)) (hi : i < T.length) :
    (appendAt v i T).flatten.Perm (v :: T.flatten) := by
  induction T generalizing i with
  | nil => simp at hi
  | cons c cs ih =>
    cases i with
    | zero =>
      simp only [appendAt, List.flatten_cons, List.append_assoc, List.singleton_append]
      exact List.perm_middle
    | succ i =>
      simp only [appendAt, List.flatten_cons]
      have h1 := ih i (by simpa using hi)
      exact (List.Perm.append_left c h1).trans List.perm_middle

theorem mem_flatten_iff_getD (e : α) (T : List (List α)) :
    e ∈ T.flatten ↔ ∃ i, i < T.length ∧ e ∈ T.getD i [] := by
  induction T with
  | nil => simp
  | cons c cs ih =>
    simp only [List.flatten_cons, List.mem_append, ih, List.length_cons]
    constructor
    · rintro (h | ⟨i, hi, h⟩)
      · exact ⟨0, by omega, by simpa using h⟩
      · exact ⟨i + 1, by omega, by simpa using h⟩
    · rintro ⟨i, hi, h⟩
      cases i with
      | zero => exact Or.inl (by simpa using h)
      | succ i => exact Or.inr ⟨i, by omega, by simpa using h⟩

theorem getD_eq_nil_of_le (T : List (List α)) (i : Nat) (h : T.length ≤ i) :
    T.getD i [] = [] := by
  induction T generalizing i with
  | nil => simp
  | cons c cs ih =>
    cases i with
    | zero => simp at h
    | succ i => simpa using ih i (by simpa using h)

/-- Filling a table value by value: bucket `j` receives, in order, the values
sent to `j`. -/
theorem foldl_appendAt (g : α → Nat) (vs : List α) (T : List (List α))
    (hg : ∀ v ∈ vs, g v < T.length) :
    (vs.foldl (fun T v => appendAt v (g v) T) T).length = T.length ∧
      (∀ j, (vs.foldl (fun T v => appendAt v (g v) T) T).getD j [] =
        T.getD j [] ++ vs.filter (fun v => decide (g v = j))) ∧
      (vs.foldl (fun T v => appendAt v (g v) T) T).flatten.Perm (vs ++ T.flatten) := by
  induction vs generalizing T with
  | nil => simp
  | cons v vs ih =>
    have hv : g v < T.length := hg v (List.mem_cons_self _ _)
    have hlen := appendAt_length v (g v) T
    obtain ⟨h1, h2, h3⟩ := ih (appendAt v (g v) T)
      (fun w hw => by rw [hlen]; exact hg w (List.mem_cons_of_mem _ hw))
    simp only [List.foldl_cons]
    refine ⟨h1.trans hlen, ?_, ?_⟩
    · intro j
      rw [h2 j, appendAt_getD v (g v) j T hv]
      by_cases hj : j = g v
      · subst hj; simp
      · have hj2 : ¬ g v = j := fun e => hj e.symm
        simp [hj, hj2]
    · refine h3.trans ?_
      have := flatten_appendAt v (g v) T hv
      exact (List.Perm.append_left vs this).trans List.perm_middle

theorem range_map_getD (T : List (List α)) :
    (List.range T.length).map (fun i => T.getD i []) = T := by
  apply List.ext_getElem
  · simp
  · intro n h1 h2
    simp [List.getD_eq_getElem?_getD, List.getElem?_eq_getElem h2]

/-- The two nested loops of `rehash` walk the stored values in table order. -/
theorem rehash_hashTable (s : HashSet α) (hlen : s.hashTable.length = s.capacity) :
    (rehash s).hashTable =
      (stored s).foldl
        (fun T v => appendAt v (s.hashFunction v % (s.capacity * 2 + 1)) T)
        (List.replicate (s.capacity * 2 + 1) []) := by
  unfold rehash stored
  simp only
  rw [← hlen]
  generalize List.replicate (s.hashTable.length * 2 + 1) ([] : List α) = T0
  generalize (fun (T : List (List α)) (v : α) =>
    appendAt v (s.hashFunction v % (s.hashTable.length * 2 + 1)) T) = f
  have key : ∀ (tbl : List (List α)) (T : List (List α)),
      (tbl.foldl (fun nodeList c => c.foldl f nodeList) T) = tbl.flatten.foldl f T := by
    intro tbl
    induction tbl with
    | nil => intro T; rfl
    | cons c cs ih => intro T; simp [List.foldl_append, ih]
  rw [← key, ← List.foldl_map (fun i => s.hashTable.getD i []) (fun nodeList c => c.foldl f nodeList),
    range_map_getD]

end HashSet

namespace HashSet

variable {α : Type}

/-- What `rehash` builds from a table of `capacity` buckets. -/
theorem rehash_spec (s : HashSet α) (hlen : s.hashTable.length = s.capacity) :
    (rehash s).hashTable.length = s.capacity * 2 + 1 ∧
      (∀ j, (rehash s).hashTable.getD j [] =
        (stored s).filter (fun v => decide (s.hashFunction v % (s.capacity * 2 + 1) = j))) ∧
      (stored (rehash s)).Perm (stored s) := by
  have h := foldl_appendAt (fun v => s.hashFunction v % (s.capacity * 2 + 1)) (stored s)
    (List.replicate (s.capacity * 2 + 1) [])
    (fun v _ => by simpa using Nat.mod_lt _ (by omega))
  rw [← rehash_hashTable s hlen] at h
  obtain ⟨h1, h2, h3⟩ := h
  refine ⟨by simpa using h1, ?_, ?_⟩
  · intro j
    rw [h2 j]
    have : (List.replicate (s.capacity * 2 + 1) ([] : List α)).getD j [] = [] := by
      simp only [List.getD_eq_getElem?_getD]
      by_cases hj : j < s.capacity * 2 + 1
      · simp [List.getElem?_replicate, hj]
      · simp [List.getElem?_replicate, hj]
    rw [this, List.nil_append]
  · have : (List.replicate (s.capacity * 2 + 1) ([] : List α)).flatten = [] := by
      simp
    unfold stored at h3 ⊢
    rw [this, List.append_nil] at h3
    exact h3

theorem placed_rehash (s : HashSet α) (h : Placed s) : Placed (rehash s) := by
  obtain ⟨h1, h2, h3⟩ := rehash_spec s h.1
  refine ⟨h1, Nat.succ_pos _, ?_⟩
  intro i e he
  rw [h2 i] at he
  simpa using (List.mem_filter.1 he).2

theorem wf_rehash (s : HashSet α) (h : WF s) : WF (rehash s) := by
  obtain ⟨h1, h2, h3⟩ := rehash_spec s h.1.1
  exact ⟨placed_rehash s h.1, h3.nodup_iff.2 h.2.1, by
    show s.sz = _
    rw [h.2.2, h3.length_eq]⟩

theorem wf_new (hashFunction : α → Nat) : WF (new hashFunction) := by
  refine ⟨⟨by simp [new], by simp [new, DEFAULT_CAPACITY], ?_⟩, ?_, ?_⟩
  · intro i e he
    have : (List.replicate DEFAULT_CAPACITY ([] : List α)).getD i [] = [] := by
      simp only [List.getD_eq_getElem?_getD]
      by_cases hj : i < DEFAULT_CAPACITY
      · simp [List.getElem?_replicate, hj]
      · simp [List.getElem?_replicate, hj]
    simp only [new] at he
    rw [this] at he
    simp at he
  · simp [stored, new]
  · simp [stored, new]

end HashSet

namespace HashSet

variable {α : Type} [DecidableEq α]

/-- Under the placement invariant `contains` finds exactly the stored values. -/
theorem contains_iff_stored (s : HashSet α) (h : Placed s) (e : α) :
    contains s e = true ↔ e ∈ stored s := by
  unfold contains stored
  rw [decide_eq_true_iff, mem_flatten_iff_getD]
  constructor
  · intro he
    exact ⟨_, by rw [h.1]; exact Nat.mod_lt _ h.2.1, he⟩
  · rintro ⟨i, -, he⟩
    rw [h.2.2 i e he]
    exact he

/-- One call of `add` on a well-formed table. -/
theorem hash_add_spec (x : α) (s : HashSet α) (h : WF s) :
    WF (add x s) ∧ (add x s).hashFunction = s.hashFunction ∧
      (x ∈ stored s → add x s = s) ∧
      (x ∉ stored s → (stored (add x s)).Perm (x :: stored s)) := by
  have hc := contains_iff_stored s h.1 x
  unfold add
  by_cases hm : x ∈ stored s
  · have hn : (!contains s x) = false := by rw [hc.2 hm]; rfl
    rw [hn, if_neg Bool.false_ne_true]
    exact ⟨h, rfl, fun _ => rfl, fun hn => absurd hm hn⟩
  · have : contains s x = false := by
      cases hcx : contains s x with
      | false => rfl
      | true => exact absurd (hc.1 hcx) hm
    have hn : (!contains s x) = true := by rw [this]; rfl
    rw [hn, if_pos rfl]
    obtain ⟨⟨hlen, hpos, hpl⟩, hnd, hsz⟩ := h
    have hidx : s.hashFunction x % s.capacity < s.hashTable.length := by
      rw [hlen]; exact Nat.mod_lt _ hpos
    have hperm := flatten_appendAt x (s.hashFunction x % s.capacity) s.hashTable hidx
    have hw1 : WF { s with
        hashTable := appendAt x (s.hashFunction x % s.capacity) s.hashTable,
        sz := s.sz + 1 } := by
      refine ⟨⟨?_, hpos, ?_⟩, ?_, ?_⟩
      · exact (appendAt_length _ _ _).trans hlen
      · intro i e he
        simp only at he
        rw [appendAt_getD x _ i s.hashTable hidx] at he
        by_cases hi : i = s.hashFunction x % s.capacity
        · rw [if_pos hi] at he
          rcases List.mem_append.1 he with he | he
          · exact hpl i e (hi ▸ he)
          · simp only [List.mem_singleton] at he
            rw [he]; exact hi.symm
        · rw [if_neg hi] at he
          exact hpl i e he
      · exact hperm.nodup_iff.2 (List.nodup_cons.2 ⟨hm, hnd⟩)
      · show s.sz + 1 = (appendAt x (s.hashFunction x % s.capacity) s.hashTable).flatten.length
        rw [hsz, hperm.length_eq]
        rfl
    dsimp only
    by_cases hg : 4 * s.capacity ≤ 5 * (s.sz + 1)
    · rw [if_pos hg]
      obtain ⟨-, -, h3⟩ := rehash_spec _ hw1.1.1
      exact ⟨wf_rehash _ hw1, rfl, fun hx => absurd hx hm, fun _ => h3.trans hperm⟩
    · rw [if_neg hg]
      exact ⟨hw1, rfl, fun hx => absurd hx hm, fun _ => hperm⟩

/-- A run of `add` calls on a well-formed table. -/
theorem hash_addAll_spec (xs : List α) (s : HashSet α) (h : WF s) :
    WF (addAll xs s) ∧ (addAll xs s).hashFunction = s.hashFunction ∧
      ∀ e, e ∈ stored (addAll xs s) ↔ e ∈ xs ∨ e ∈ stored s := by
  induction xs generalizing s with
  | nil => exact ⟨h, rfl, fun e => by simp [addAll]⟩
  | cons x xs ih =>
    obtain ⟨hw1, hf1, hin, hout⟩ := hash_add_spec x s h
    obtain ⟨hw2, hf2, hm⟩ := ih (add x s) hw1
    refine ⟨hw2, hf2.trans hf1, ?_⟩
    intro e
    show e ∈ stored (addAll xs (add x s)) ↔ _
    rw [hm e]
    by_cases hx : x ∈ stored s
    · rw [hin hx]
      simp only [List.mem_cons]
      constructor
      · rintro (h | h)
        · exact Or.inl (Or.inr h)
        · exact Or.inr h
      · rintro ((h | h) | h)
        · exact Or.inr (h ▸ hx)
        · exact Or.inl h
        · exact Or.inr h
    · rw [(hout hx).mem_iff]
      simp only [List.mem_cons]
      tauto

/-- Every run of `add` calls on a new HashSet ends in a well-formed table
that stores exactly the values added. -/
theorem addAll_new (hashFunction : α → Nat) (xs : List α) :
    WF (addAll xs (new hashFunction)) ∧
      (addAll xs (new hashFunction)).hashFunction = hashFunction ∧
      ∀ e, e ∈ stored (addAll xs (new hashFunction)) ↔ e ∈ xs := by
  obtain ⟨h1, h2, h3⟩ := hash_addAll_spec xs (new hashFunction) (wf_new hashFunction)
  refine ⟨h1, h2, fun e => ?_⟩
  rw [h3 e]
  simp [stored, new]

theorem addAll_snoc (xs : List α) (y : α) (s : HashSet α) :
    addAll (xs ++ [y]) s = add y (addAll xs s) := by
  induction xs generalizing s with
  | nil => rfl
  | cons x xs ih => exact ih (add x s)

theorem size_addAll_new (hashFunction : α → Nat) (xs : List α) :
    (addAll xs (new hashFunction)).sz = xs.dedup.length := by
  obtain ⟨hw, -, hm⟩ := addAll_new hashFunction xs
  rw [hw.2.2]
  apply List.Perm.length_eq
  exact (List.perm_ext_iff_of_nodup hw.2.1 (List.nodup_dedup xs)).2
    (fun y => (hm y).trans List.mem_dedup.symm)

end HashSet

namespace HashSet

variable {α : Type} [DecidableEq α]

/-- What one `add` does to `sz` and `capacity`, on any state. -/
theorem add_counters (e : α) (s : HashSet α) :
    (add e s).sz = (if contains s e = true then s.sz else s.sz + 1) ∧
      (add e s).capacity = (if contains s e = true then s.capacity
        else if 4 * s.capacity ≤ 5 * (s.sz + 1) then s.capacity * 2 + 1 else s.capacity) := by
  unfold add
  by_cases hc : contains s e = true
  · have hn : (!contains s e) = false := by rw [hc]; rfl
    rw [hn, if_neg Bool.false_ne_true, if_pos hc, if_pos hc]
    exact ⟨rfl, rfl⟩
  · have hn : (!contains s e) = true := by
      cases h : contains s e with
      | false => rfl
      | true => exact absurd h hc
    rw [hn, if_pos rfl, if_neg hc, if_neg hc]
    dsimp only
    by_cases hg : 4 * s.capacity ≤ 5 * (s.sz + 1)
    · rw [if_pos hg, if_pos hg]; exact ⟨rfl, rfl⟩
    · rw [if_neg hg, if_neg hg]; exact ⟨rfl, rfl⟩

/-- The comparison of the quotient with `0.8`, in integers. -/
theorem four_fifths_le_iff (n c : Nat) (hc : 0 < c) :
    (4 : ℚ) / 5 ≤ ((n : ℚ) + 1) / (c : ℚ) ↔ 4 * c ≤ 5 * (n + 1) := by
  have hc2 : (0 : ℚ) < (c : ℚ) := by exact_mod_cast hc
  rw [div_le_div_iff₀ (by norm_num) hc2]
  constructor
  · intro h
    have h2 : ((4 * c : Nat) : ℚ) ≤ ((5 * (n + 1) : Nat) : ℚ) := by
      push_cast; linarith
    exact_mod_cast h2
  · intro h
    have h2 : ((4 * c : Nat) : ℚ) ≤ ((5 * (n + 1) : Nat) : ℚ) := by exact_mod_cast h
    push_cast at h2; linarith

/-- Up to eight stored values the capacity is a function of `sz`. -/
theorem capacity_upto_eight (xs : List α) (s : HashSet α)
    (h : (s.sz ≤ 7 → s.capacity = 10) ∧ (s.sz = 8 → s.capacity = 21)) :
    ((addAll xs s).sz ≤ 7 → (addAll xs s).capacity = 10) ∧
      ((addAll xs s).sz = 8 → (addAll xs s).capacity = 21) := by
  induction xs generalizing s with
  | nil => exact h
  | cons x xs ih =>
    apply ih (add x s)
    obtain ⟨h1, h2⟩ := add_counters x s
    rw [h1, h2]
    by_cases hc : contains s x = true
    · rw [if_pos hc, if_pos hc]; exact h
    · rw [if_neg hc, if_neg hc]
      constructor
      · intro h7
        have hcap := h.1 (by omega)
        rw [hcap, if_neg (by omega)]
      · intro h8
        have hcap := h.1 (by omega)
        rw [hcap, if_pos (by omega)]

end HashSet

/-! ## The claims on HashSet, continued -/

namespace HashSet

variable {α : Type} [DecidableEq α]

/-- C11: on a HashSet reached by `add` calls, with capacity `c` and size `s`,
`add(e)` of a value that is not contained leaves the capacity `2 * c + 1` when
`(s + 1) / c ≥ 0.8` and `c` otherwise; `add` of a contained value leaves the
capacity `c`. -/
theorem hashset_add_capacity_rule (hashFunction : α → Nat) (xs : List α) (e : α) :
    (add e (addAll xs (new hashFunction))).capacity =
      (if contains (addAll xs (new hashFunction)) e = true then
        (addAll xs (new hashFunction)).capacity
      else if (4 : ℚ) / 5 ≤ ((size (addAll xs (new hashFunction)) : ℚ) + 1) /
          ((addAll xs (new hashFunction)).capacity : ℚ) then
        2 * (addAll xs (new hashFunction)).capacity + 1
      else (addAll xs (new hashFunction)).capacity) := by
  obtain ⟨hw, -, -⟩ := addAll_new hashFunction xs
  rw [(add_counters e _).2]
  by_cases hc : contains (addAll xs (new hashFunction)) e = true
  · rw [if_pos hc, if_pos hc]
  · rw [if_neg hc, if_neg hc]
    have := four_fifths_le_iff (addAll xs (new hashFunction)).sz
      (addAll xs (new hashFunction)).capacity hw.1.2.1
    unfold size
    by_cases hg : 4 * (addAll xs (new hashFunction)).capacity ≤
        5 * ((addAll xs (new hashFunction)).sz + 1)
    · rw [if_pos hg, if_pos (this.2 hg)]; omega
    · rw [if_neg hg, if_neg (fun h => hg (this.1 h))]

/-- C12: for every hash function, adding 8 pairwise distinct values to a new
HashSet rehashes once: the capacity is 10 after each of the first 7 `add`
calls (and before them) and 21 after the 8th. -/
theorem hashset_eight_adds_one_rehash (hashFunction : α → Nat) (xs : List α)
    (hnd : xs.Nodup) (hlen : xs.length = 8) :
    (∀ k, k ≤ 7 → (addAll (xs.take k) (new hashFunction)).capacity = 10) ∧
      (addAll xs (new hashFunction)).capacity = 21 := by
  have hcap : ∀ ys : List α, ys.Nodup →
      ((ys.length ≤ 7 → (addAll ys (new hashFunction)).capacity = 10) ∧
        (ys.length = 8 → (addAll ys (new hashFunction)).capacity = 21)) := by
    intro ys hys
    have h1 := capacity_upto_eight ys (new hashFunction)
      ⟨fun _ => rfl, fun h => by simp [new] at h⟩
    have h2 := size_addAll_new hashFunction ys
    rw [hys.dedup] at h2
    rw [h2] at h1
    exact h1
  constructor
  · intro k hk
    have hsub : (xs.take k).Nodup := (List.take_sublist k xs).nodup hnd
    refine (hcap (xs.take k) hsub).1 ?_
    rw [List.length_take]
    omega
  · exact (hcap xs hnd).2 hlen

/-- Witness for C12: the values 0 to 7 under the identity hash. -/
theorem hashset_eight_adds_one_rehash_witness :
    (∀ k, k ≤ 7 →
        (addAll (([0, 1, 2, 3, 4, 5, 6, 7] : List Nat).take k) (new fun n => n)).capacity = 10) ∧
      (addAll ([0, 1, 2, 3, 4, 5, 6, 7] : List Nat) (new fun n => n)).capacity = 21 :=
  hashset_eight_adds_one_rehash (fun n => n) [0, 1, 2, 3, 4, 5, 6, 7] (by decide) (by decide)

/-- C13: on every HashSet reached by `add` calls a value occurs in the chain
of bucket `i` once if it is contained and `i` is its hash modulo `capacity`,
and not at all otherwise; so `isElementAtIndex(e, i)` is true exactly when
`contains(e)` is true and `i = hash(e) % capacity`. -/
theorem hashset_one_bucket_per_value (hashFunction : α → Nat) (xs : List α) (e : α) (i : Nat) :
    ((addAll xs (new hashFunction)).hashTable.getD i []).count e =
        (if contains (addAll xs (new hashFunction)) e = true ∧
            i = hashFunction e % (addAll xs (new hashFunction)).capacity then 1 else 0) ∧
      (isElementAtIndex (addAll xs (new hashFunction)) e i = true ↔
        contains (addAll xs (new hashFunction)) e = true ∧
          i = hashFunction e % (addAll xs (new hashFunction)).capacity) := by
  obtain ⟨⟨⟨hlen, hpos, hpl⟩, hnd, -⟩, hf, -⟩ := addAll_new hashFunction xs
  generalize addAll xs (new hashFunction) = s at *
  subst hf
  have hmem : e ∈ s.hashTable.getD i [] ↔
      (contains s e = true ∧ i = s.hashFunction e % s.capacity) := by
    constructor
    · intro he
      have hi := hpl i e he
      refine ⟨?_, hi.symm⟩
      unfold contains
      rw [decide_eq_true_iff, hi]
      exact he
    · rintro ⟨hc, hi⟩
      unfold contains at hc
      rw [decide_eq_true_iff] at hc
      rw [hi]; exact hc
  have hchain : (s.hashTable.getD i []).Nodup := by
    by_cases hi : i < s.hashTable.length
    · have : s.hashTable.getD i [] ∈ s.hashTable := by
        rw [List.getD_eq_getElem?_getD, List.getElem?_eq_getElem hi]
        exact List.getElem_mem hi
      exact (List.sublist_flatten_of_mem this).nodup hnd
    · rw [getD_eq_nil_of_le _ _ (by omega)]
      exact List.nodup_nil
  constructor
  · by_cases h : contains s e = true ∧ i = s.hashFunction e % s.capacity
    · rw [if_pos h]
      exact List.count_eq_one_of_mem hchain (hmem.2 h)
    · rw [if_neg h]
      exact List.count_eq_zero_of_not_mem (fun hm => h (hmem.1 hm))
  · unfold isElementAtIndex
    by_cases hi : i ≥ s.capacity
    · rw [if_pos hi]
      constructor
      · intro h; exact absurd h Bool.false_ne_true
      · rintro ⟨-, h2⟩
        have := Nat.mod_lt (s.hashFunction e) hpos
        omega
    · rw [if_neg hi, decide_eq_true_iff]
      exact hmem

/-- C14: after any run of `add` calls on a new HashSet, whatever the hash
function and however many rehashes the run crossed, `contains(x)` is true
exactly when `x` is one of the values added. -/
theorem hashset_contains_iff_added (hashFunction : α → Nat) (xs : List α) (x : α) :
    contains (addAll xs (new hashFunction)) x = true ↔ x ∈ xs := by
  obtain ⟨hw, -, hm⟩ := addAll_new hashFunction xs
  exact (contains_iff_stored _ hw.1 x).trans (hm x)

/-- C15: after any run of `add` calls on a new HashSet `size()` is the number
of distinct values of the run; one more `add` leaves it unchanged when the
value was added before and raises it by one otherwise. -/
theorem hashset_size_counts_distinct (hashFunction : α → Nat) (xs : List α) (x : α) :
    size (addAll xs (new hashFunction)) = xs.dedup.length ∧
      size (add x (addAll xs (new hashFunction))) =
        (if x ∈ xs then size (addAll xs (new hashFunction))
         else size (addAll xs (new hashFunction)) + 1) := by
  refine ⟨size_addAll_new hashFunction xs, ?_⟩
  have hc := hashset_contains_iff_added hashFunction xs x
  unfold size
  rw [(add_counters x _).1]
  by_cases hx : x ∈ xs
  · rw [if_pos (hc.2 hx), if_pos hx]
  · rw [if_neg (fun h => hx (hc.1 h)), if_neg hx]

/-- C16: on a HashSet reached by `add` calls an index `i ≥ capacity` gives
`elementsAtIndex(i) = 0` and `isElementAtIndex(e, i) = false`; both are
reads of the state. -/
theorem hashset_index_out_of_range (hashFunction : α → Nat) (xs : List α) (e : α) (i : Nat)
    (hi : (addAll xs (new hashFunction)).capacity ≤ i) :
    elementsAtIndex (addAll xs (new hashFunction)) i = 0 ∧
      isElementAtIndex (addAll xs (new hashFunction)) e i = false := by
  unfold elementsAtIndex isElementAtIndex
  rw [if_pos hi, if_pos hi]
  exact ⟨rfl, rfl⟩

/-- Witness for C16: index 10 of the HashSet holding 3 under the identity hash. -/
theorem hashset_index_out_of_range_witness :
    elementsAtIndex (addAll ([3] : List Nat) (new fun n => n)) 10 = 0 ∧
      isElementAtIndex (addAll ([3] : List Nat) (new fun n => n)) 3 10 = false :=
  hashset_index_out_of_range (fun n => n) [3] 3 10 (by decide)

/-- C17: on a state with the bucket-placement invariant `rehash` keeps `sz`
and the answers of `contains`, takes the capacity to `2 * capacity + 1`, and
leaves the placement invariant for the new capacity: a value is in bucket `i`
of the new table only if `i` is its hash modulo the new capacity, and every
contained value is in that bucket. -/
theorem hashset_rehash_replaces_all (s : HashSet α) (h : Placed s) :
    (rehash s).sz = s.sz ∧ (rehash s).capacity = 2 * s.capacity + 1 ∧
      (∀ x, contains (rehash s) x = contains s x) ∧
      (∀ e i, isElementAtIndex (rehash s) e i = true →
        i = s.hashFunction e % (2 * s.capacity + 1)) ∧
      (∀ e, contains s e = true →
        isElementAtIndex (rehash s) e (s.hashFunction e % (2 * s.capacity + 1)) = true) := by
  have hp := placed_rehash s h
  obtain ⟨h1, h2, h3⟩ := rehash_spec s h.1
  have hcap : (rehash s).capacity = 2 * s.capacity + 1 := by
    show s.capacity * 2 + 1 = _
    omega
  have hcont : ∀ x, contains (rehash s) x = contains s x := by
    intro x
    have e1 := contains_iff_stored (rehash s) hp x
    have e2 := contains_iff_stored s h x
    have e3 : contains (rehash s) x = true ↔ contains s x = true :=
      e1.trans ((h3.mem_iff).trans e2.symm)
    cases hx : contains s x with
    | true => exact e3.2 hx
    | false =>
      cases hy : contains (rehash s) x with
      | false => rfl
      | true => rw [e3.1 hy] at hx; exact absurd hx (by simp)
  refine ⟨rfl, hcap, hcont, ?_, ?_⟩
  · intro e i he
    unfold isElementAtIndex at he
    by_cases hi : i ≥ (rehash s).capacity
    · rw [if_pos hi] at he; exact absurd he Bool.false_ne_true
    · rw [if_neg hi, decide_eq_true_iff] at he
      have := hp.2.2 i e he
      rw [hcap] at this
      exact this.symm
  · intro e he
    have hc2 : contains (rehash s) e = true := by rw [hcont e]; exact he
    unfold isElementAtIndex
    have hlt : ¬ (s.hashFunction e % (2 * s.capacity + 1) ≥ (rehash s).capacity) := by
      rw [hcap]
      have hpos : 0 < 2 * s.capacity + 1 := Nat.succ_pos _
      have := Nat.mod_lt (s.hashFunction e) hpos
      omega
    rw [if_neg hlt, decide_eq_true_iff]
    unfold contains at hc2
    rw [decide_eq_true_iff, hcap] at hc2
    exact hc2

/-- Witness for C17: the table holding 3 and 13 under the identity hash. -/
theorem hashset_rehash_replaces_all_witness :
    (rehash (addAll ([3, 13] : List Nat) (new fun n => n))).sz =
        (addAll ([3, 13] : List Nat) (new fun n => n)).sz ∧
      (rehash (addAll ([3, 13] : List Nat) (new fun n => n))).capacity =
        2 * (addAll ([3, 13] : List Nat) (new fun n => n)).capacity + 1 ∧
      (∀ x, contains (rehash (addAll ([3, 13] : List Nat) (new fun n => n))) x =
        contains (addAll ([3, 13] : List Nat) (new fun n => n)) x) ∧
      (∀ e i, isElementAtIndex (rehash (addAll ([3, 13] : List Nat) (new fun n => n))) e i = true →
        i = (addAll ([3, 13] : List Nat) (new fun n => n)).hashFunction e %
          (2 * (addAll ([3, 13] : List Nat) (new fun n => n)).capacity + 1)) ∧
      (∀ e, contains (addAll ([3, 13] : List Nat) (new fun n => n)) e = true →
        isElementAtIndex (rehash (addAll ([3, 13] : List Nat) (new fun n => n))) e
          ((addAll ([3, 13] : List Nat) (new fun n => n)).hashFunction e %
            (2 * (addAll ([3, 13] : List Nat) (new fun n => n)).capacity + 1)) = true) :=
  hashset_rehash_replaces_all _ (addAll_new (fun n => n) [3, 13]).1.1

/-- C18, at the failing input: seven values in a new HashSet leave size 7 and
capacity 10; the eighth `add` makes the size 8, so that size / capacity is
exactly 0.8 and does not exceed it, and the capacity becomes 21. -/
theorem hashset_rehash_at_exactly_four_fifths :
    ((addAll ([0, 1, 2, 3, 4, 5, 6] : List Nat) (new fun n => n)).sz,
      (addAll ([0, 1, 2, 3, 4, 5, 6] : List Nat) (new fun n => n)).capacity,
      (add 7 (addAll ([0, 1, 2, 3, 4, 5, 6] : List Nat) (new fun n => n))).sz,
      (add 7 (addAll ([0, 1, 2, 3, 4, 5, 6] : List Nat) (new fun n => n))).capacity) =
        (7, 10, 8, 21) := by
  decide!

end HashSet

/-! ## Lemmas on SkipListSet -/

namespace SkipListSet

variable {α : Type}

theorem laneAt_map_insertAfter (a : Nat) (n : Node α) (nl : List (Slot α)) (i : Nat) :
    laneAt (nl.map (Slot.insertAfter a n)) i = insertAfter a n (laneAt nl i) := by
  unfold laneAt
  induction nl generalizing i with
  | nil => simp [Slot.lane, insertAfter]
  | cons sl rest ih =>
    cases i with
    | zero =>
      cases sl <;> simp [Slot.insertAfter, Slot.lane, insertAfter]
    | succ i => simpa using ih i

theorem get?_map_insertAfter (a : Nat) (n : Node α) (nl : List (Slot α)) (i : Nat)
    (l : List (Node α)) (h : nl.get? i = some (.ptr l)) :
    (nl.map (Slot.insertAfter a n)).get? i = some (.ptr (insertAfter a n l)) := by
  simp only [List.get?_eq_getElem?] at h ⊢
  rw [List.getElem?_map, h]
  rfl

theorem laneAt_of_get? (nl : List (Slot α)) (i : Nat) (l : List (Node α))
    (h : nl.get? i = some (.ptr l)) : laneAt nl i = l := by
  unfold laneAt
  simp only [List.get?_eq_getElem?] at h
  simp [List.getD_eq_getElem?_getD, h, Slot.lane]

theorem laneAt_set (nl : List (Slot α)) (j i : Nat) (l : List (Node α)) (hj : j < nl.length) :
    laneAt (nl.set j (.ptr l)) i = if i = j then l else laneAt nl i := by
  unfold laneAt
  simp only [List.getD_eq_getElem?_getD, List.getElem?_set]
  by_cases h : j = i
  · subst h; simp [hj, Slot.lane]
  · have h2 : ¬ i = j := fun e => h e.symm
    simp [h, h2]

theorem get?_set_ptr (nl : List (Slot α)) (j i : Nat) (l : List (Node α)) (hj : j < nl.length) :
    (nl.set j (.ptr l)).get? i = if i = j then some (.ptr l) else nl.get? i := by
  simp only [List.get?_eq_getElem?, List.getElem?_set]
  by_cases h : j = i
  · subst h; simp [hj]
  · have h2 : ¬ i = j := fun e => h e.symm
    simp [h, h2]

theorem laneAt_resize (nl : List (Slot α)) (lv k i : Nat) (h : lv ≤ nl.length) :
    laneAt (nl.take lv ++ List.replicate k Slot.uninit) i = if i < lv then laneAt nl i else [] := by
  unfold laneAt
  simp only [List.getD_eq_getElem?_getD]
  by_cases hi : i < lv
  · rw [if_pos hi, List.getElem?_append_left (by simp; omega), List.getElem?_take_of_lt hi]
  · rw [if_neg hi, List.getElem?_append_right (by simp; omega)]
    rw [List.getElem?_replicate]
    split <;> rfl

theorem get?_resize (nl : List (Slot α)) (lv k i : Nat) (h : lv ≤ nl.length) (hi : i < lv) :
    (nl.take lv ++ List.replicate k Slot.uninit).get? i = nl.get? i := by
  simp only [List.get?_eq_getElem?]
  rw [List.getElem?_append_left (by simp; omega), List.getElem?_take_of_lt hi]

theorem insertAfter_of_not_mem (a : Nat) (n : Node α) (lane : List (Node α))
    (h : a ∉ lane.map Node.addr) : insertAfter a n lane = lane := by
  induction lane with
  | nil => rfl
  | cons c rest ih =>
    simp only [List.map_cons, List.mem_cons, not_or] at h
    have hne : ¬ c.addr = a := fun e => h.1 e.symm
    simp [insertAfter, hne, ih h.2]

/-- In a lane of distinct addresses the writes at the node `c` put `n` right
after `c`. -/
theorem insertAfter_mem (n c : Node α) (lane : List (Node α))
    (hnd : (lane.map Node.addr).Nodup) (hc : c ∈ lane) :
    ∃ A B, lane = A ++ c :: B ∧ insertAfter c.addr n lane = A ++ c :: n :: B := by
  induction lane with
  | nil => simp at hc
  | cons d rest ih =>
    simp only [List.map_cons, List.nodup_cons] at hnd
    rcases List.mem_cons.1 hc with e | e
    · subst e
      exact ⟨[], rest, rfl, by simp [insertAfter]⟩
    · have hne : ¬ d.addr = c.addr := fun h => hnd.1 (h ▸ List.mem_map_of_mem _ e)
      obtain ⟨A, B, h1, h2⟩ := ih hnd.2 e
      exact ⟨d :: A, B, by rw [h1]; rfl, by simp [insertAfter, hne, h2]⟩

theorem findIn_eq_nil (b : Nat) (lane : List (Node α)) (h : b ∉ lane.map Node.addr) :
    findIn b lane = [] := by
  induction lane with
  | nil => rfl
  | cons c rest ih =>
    simp only [List.map_cons, List.mem_cons, not_or] at h
    have hne : ¬ c.addr = b := fun e => h.1 e.symm
    simp [findIn, hne, ih h.2]

/-- In a lane of distinct addresses the node stored at the address of `c` is
`c`, followed by what follows `c`. -/
theorem findIn_mem (c : Node α) (lane : List (Node α))
    (hnd : (lane.map Node.addr).Nodup) (hc : c ∈ lane) :
    ∃ A B, lane = A ++ c :: B ∧ findIn c.addr lane = c :: B := by
  induction lane with
  | nil => simp at hc
  | cons d rest ih =>
    simp only [List.map_cons, List.nodup_cons] at hnd
    rcases List.mem_cons.1 hc with e | e
    · subst e
      exact ⟨[], rest, rfl, by simp [findIn]⟩
    · have hne : ¬ d.addr = c.addr := fun h => hnd.1 (h ▸ List.mem_map_of_mem _ e)
      obtain ⟨A, B, h1, h2⟩ := ih hnd.2 e
      exact ⟨d :: A, B, by rw [h1]; rfl, by simp [findIn, hne, h2]⟩

/-- A pointer to a node of lane `i` whose address occurs in no earlier entry
leads to that node. -/
theorem deref_eq_findIn (b : Nat) (nl : List (Slot α)) (i : Nat)
    (hb : b ∈ (laneAt nl i).map Node.addr)
    (hk : ∀ k, k < i → b ∉ (laneAt nl k).map Node.addr) :
    deref b nl = findIn b (laneAt nl i) := by
  induction nl generalizing i with
  | nil => simp [laneAt, Slot.lane] at hb
  | cons sl rest ih =>
    cases i with
    | zero =>
      have hl : laneAt (sl :: rest) 0 = sl.lane := by simp [laneAt]
      rw [hl] at hb ⊢
      unfold deref
      cases hf : findIn b sl.lane with
      | nil =>
        exfalso
        clear ih hk hl
        generalize sl.lane = lane at hb hf
        induction lane with
        | nil => simp at hb
        | cons c more ih2 =>
          by_cases hcb : c.addr = b
          · simp [findIn, hcb] at hf
          · simp only [findIn, hcb, if_false] at hf
            simp only [List.map_cons, List.mem_cons] at hb
            rcases hb with e | e
            · exact hcb e.symm
            · exact ih2 e hf
      | cons c more => rfl
    | succ i =>
      have h0 := hk 0 (Nat.succ_pos i)
      have hl0 : laneAt (sl :: rest) 0 = sl.lane := by simp [laneAt]
      rw [hl0] at h0
      have hl : ∀ k, laneAt (sl :: rest) (k + 1) = laneAt rest k := by
        intro k; simp [laneAt]
      rw [hl i] at hb ⊢
      unfold deref
      rw [findIn_eq_nil b sl.lane h0]
      exact ih i hb (fun k hki => by
        have := hk (k + 1) (by omega)
        rw [hl k] at this
        exact this)

theorem endsPos_suffix (A cur : List (Node α)) (h : EndsPos (A ++ cur)) (hne : cur ≠ []) :
    EndsPos cur := by
  obtain ⟨front, t, e, ht⟩ := h
  obtain ⟨cur0, x, rfl⟩ : ∃ cur0 x, cur = cur0 ++ [x] :=
    ⟨cur.dropLast, cur.getLast hne, (List.dropLast_append_getLast hne).symm⟩
  rw [← List.append_assoc] at e
  have := List.append_inj_right' e (by simp)
  simp only [List.cons.injEq, and_true] at this
  exact ⟨cur0, x, rfl, this ▸ ht⟩

end SkipListSet

namespace SkipListSet

variable {α : Type} [LinearOrder α]

theorem not_endsPos_single (c : Node α) (e : α) (hc : c.key.ltElem e = true) : ¬ EndsPos [c] := by
  rintro ⟨front, t, h, ht⟩
  have hlen := congrArg List.length h
  simp only [List.length_singleton, List.length_append] at hlen
  have hf : front = [] := List.length_eq_zero.1 (by omega)
  subst hf
  simp only [List.nil_append, List.cons.injEq, and_true] at h
  subst h
  rw [ht] at hc
  simp [SkipListKey.ltElem] at hc

/-- The walk to the right, started at a node with `key < element` in a lane
that ends with a positive-infinity sentinel, stops at a node of the lane
with `key < element`. -/
theorem walk_spec (e : α) (cur : List (Node α)) (hend : EndsPos cur)
    (hhead : ∃ c0 rest, cur = c0 :: rest ∧ c0.key.ltElem e = true) :
    ∃ c, walk e cur = some c ∧ c ∈ cur ∧ c.key.ltElem e = true := by
  induction cur with
  | nil =>
    obtain ⟨c0, rest, h, -⟩ := hhead
    simp at h
  | cons c rest ih =>
    obtain ⟨c0, rest0, h, hc0⟩ := hhead
    simp only [List.cons.injEq] at h
    obtain ⟨h1, h2⟩ := h
    subst h1; subst h2
    cases rest with
    | nil => exact absurd hend (not_endsPos_single c e hc0)
    | cons r more =>
      unfold walk
      rw [if_pos hc0]
      simp only
      by_cases hr : r.key.ltElem e = true
      · have hn : (!r.key.ltElem e) = false := by rw [hr]; rfl
        rw [hn, if_neg Bool.false_ne_true]
        obtain ⟨c1, e1, m1, k1⟩ := ih (endsPos_suffix [c] (r :: more) hend (by simp))
          ⟨r, more, rfl, hr⟩
        exact ⟨c1, e1, List.mem_cons_of_mem _ m1, k1⟩
      · have hn : (!r.key.ltElem e) = true := by
          cases h : r.key.ltElem e with
          | false => rfl
          | true => exact absurd h hr
        rw [hn, if_pos rfl]
        exact ⟨c, rfl, List.mem_cons_self _ _, hc0⟩

/-- The loop of `contains` within one lane never reads through `nullptr`
when the lane ends with a positive-infinity sentinel. -/
theorem containsLane_spec (e : α) (cur : List (Node α)) (hend : cur = [] ∨ EndsPos cur) :
    ∃ st, containsLane e cur = some st ∧
      ∀ b, st = .down (some b) → ∃ c ∈ cur, c.below = some b := by
  induction cur with
  | nil => exact ⟨.answer false, rfl, fun b h => by simp at h⟩
  | cons c rest ih =>
    have hcur : EndsPos (c :: rest) := by
      rcases hend with h | h
      · simp at h
      · exact h
    have hrest : rest = [] ∨ EndsPos rest := by
      by_cases hr : rest = []
      · exact Or.inl hr
      · exact Or.inr (endsPos_suffix [c] rest hcur hr)
    unfold containsLane
    by_cases heq : c.key.eqElem e = true
    · rw [if_pos heq]
      exact ⟨.answer true, rfl, fun b h => by simp at h⟩
    · rw [if_neg heq]
      by_cases hlt : c.key.ltElem e = true
      · rw [if_pos hlt]
        cases rest with
        | nil => exact absurd hcur (not_endsPos_single c e hlt)
        | cons r more =>
          simp only
          by_cases hk : (SkipListKey.normal e).ltKey r.key = true
          · rw [if_pos hk]
            refine ⟨.down c.below, rfl, fun b h => ?_⟩
            simp only [Step.down.injEq] at h
            exact ⟨c, List.mem_cons_self _ _, h⟩
          · rw [if_neg hk]
            obtain ⟨st, e1, h1⟩ := ih hrest
            refine ⟨st, e1, fun b h => ?_⟩
            obtain ⟨c1, m1, k1⟩ := h1 b h
            exact ⟨c1, List.mem_cons_of_mem _ m1, k1⟩
      · rw [if_neg hlt]
        obtain ⟨st, e1, h1⟩ := ih hrest
        refine ⟨st, e1, fun b h => ?_⟩
        obtain ⟨c1, m1, k1⟩ := h1 b h
        exact ⟨c1, List.mem_cons_of_mem _ m1, k1⟩

end SkipListSet

namespace SkipListSet

variable {α : Type}

/-- In a well-formed state a pointer to a node of lane `k` leads to that node. -/
theorem deref_node (s : SkipListSet α) (hinv : Inv s) (k : Nat) (m : Node α)
    (hm : m ∈ laneAt s.nodeList k) :
    ∃ A B, laneAt s.nodeList k = A ++ m :: B ∧ deref m.addr s.nodeList = m :: B := by
  obtain ⟨A, B, h1, h2⟩ := findIn_mem m _ (hinv.nodup k) hm
  refine ⟨A, B, h1, ?_⟩
  rw [deref_eq_findIn m.addr s.nodeList k (List.mem_map_of_mem _ hm), h2]
  intro j hj hmem
  obtain ⟨x, hx, hxa⟩ := List.mem_map.1 hmem
  have := hinv.apart j k x hx m hm hxa
  omega

theorem readSlot_written (s : SkipListSet α) (hinv : Inv s) (i : Nat) (hi : i < s.lv) :
    readSlot i s = some (laneAt s.nodeList i) := by
  obtain ⟨l, hl⟩ := hinv.written i hi
  unfold readSlot
  rw [hl, laneAt_of_get? _ _ _ hl]

theorem framed_lanes (s : SkipListSet α) (hinv : Inv s) (hne : laneAt s.nodeList 0 ≠ []) :
    ∀ i, i < s.lv → Framed (laneAt s.nodeList i) := by
  rcases hinv.framed with h | h
  · exact absurd h.1 hne
  · exact h

end SkipListSet

namespace SkipListSet

variable {α : Type} [LinearOrder α]

/-- The search of `add` ends at a node of lane 0 with `key < element`. -/
theorem search_spec (e : α) (s : SkipListSet α) (hinv : Inv s)
    (hfr : ∀ i, i < s.lv → Framed (laneAt s.nodeList i)) (i : Nat) :
    i < s.lv → ∀ fuel, i + 1 ≤ fuel → ∀ A cur, laneAt s.nodeList i = A ++ cur →
      (∃ c0 rest, cur = c0 :: rest ∧ c0.key.ltElem e = true) →
      ∃ c, search e s.nodeList fuel cur = some c ∧ c ∈ laneAt s.nodeList 0 ∧
        c.key.ltElem e = true := by
  induction i with
  | zero =>
    intro hi fuel hfuel A cur hcur hhead
    obtain ⟨f, rfl⟩ : ∃ f, fuel = f + 1 := ⟨fuel - 1, by omega⟩
    have hne : cur ≠ [] := by
      obtain ⟨c0, rest, h, -⟩ := hhead
      rw [h]; simp
    have hend : EndsPos cur := endsPos_suffix A cur (hcur ▸ (hfr 0 hi).2) hne
    obtain ⟨c, e1, m1, k1⟩ := walk_spec e cur hend hhead
    have hc0 : c ∈ laneAt s.nodeList 0 := by rw [hcur]; exact List.mem_append_right _ m1
    refine ⟨c, ?_, hc0, k1⟩
    unfold search
    rw [e1]
    simp only
    rw [hinv.ground c hc0]
  | succ k ih =>
    intro hi fuel hfuel A cur hcur hhead
    obtain ⟨f, rfl⟩ : ∃ f, fuel = f + 1 := ⟨fuel - 1, by omega⟩
    have hne : cur ≠ [] := by
      obtain ⟨c0, rest, h, -⟩ := hhead
      rw [h]; simp
    have hend : EndsPos cur := endsPos_suffix A cur (hcur ▸ (hfr (k + 1) hi).2) hne
    obtain ⟨c, e1, m1, k1⟩ := walk_spec e cur hend hhead
    have hc : c ∈ laneAt s.nodeList (k + 1) := by rw [hcur]; exact List.mem_append_right _ m1
    obtain ⟨m, hm, hb, hkey⟩ := hinv.linked k hi c hc
    obtain ⟨A2, B2, h1, h2⟩ := deref_node s hinv k m hm
    obtain ⟨c2, e2, m2, k2⟩ := ih (by omega) f (by omega) A2 (m :: B2) h1
      ⟨m, B2, rfl, by rw [hkey]; exact k1⟩
    refine ⟨c2, ?_, m2, k2⟩
    unfold search
    rw [e1]
    simp only
    rw [hb]
    simp only
    rw [h2]
    exact e2

/-- The loop of `contains` returns. -/
theorem containsFrom_total (e : α) (s : SkipListSet α) (hinv : Inv s) (i : Nat) :
    i < s.lv → ∀ fuel, i + 1 ≤ fuel → ∀ A cur, laneAt s.nodeList i = A ++ cur →
      (cur = [] ∨ EndsPos cur) →
      ∃ b, containsFrom e s.nodeList fuel cur = some b := by
  induction i with
  | zero =>
    intro hi fuel hfuel A cur hcur hend
    obtain ⟨f, rfl⟩ : ∃ f, fuel = f + 1 := ⟨fuel - 1, by omega⟩
    obtain ⟨st, e1, h1⟩ := containsLane_spec e cur hend
    unfold containsFrom
    rw [e1]
    cases st with
    | answer b => exact ⟨b, rfl⟩
    | down below =>
      cases below with
      | none => exact ⟨false, rfl⟩
      | some b =>
        exfalso
        obtain ⟨c, hc, hb⟩ := h1 b rfl
        have := hinv.ground c (by rw [hcur]; exact List.mem_append_right _ hc)
        rw [this] at hb
        simp at hb
  | succ k ih =>
    intro hi fuel hfuel A cur hcur hend
    obtain ⟨f, rfl⟩ : ∃ f, fuel = f + 1 := ⟨fuel - 1, by omega⟩
    obtain ⟨st, e1, h1⟩ := containsLane_spec e cur hend
    unfold containsFrom
    rw [e1]
    cases st with
    | answer b => exact ⟨b, rfl⟩
    | down below =>
      cases below with
      | none => exact ⟨false, rfl⟩
      | some b =>
        obtain ⟨c, hc, hb⟩ := h1 b rfl
        have hc2 : c ∈ laneAt s.nodeList (k + 1) := by
          rw [hcur]; exact List.mem_append_right _ hc
        obtain ⟨m, hm, hb2, -⟩ := hinv.linked k hi c hc2
        obtain ⟨A2, B2, h2, h3⟩ := deref_node s hinv k m hm
        have hbm : b = m.addr := by
          rw [hb] at hb2
          simpa using hb2
        have hfr : Framed (laneAt s.nodeList k) := by
          rcases hinv.framed with h | h
          · omega
          · exact h k (by omega)
        have hend2 : EndsPos (m :: B2) := endsPos_suffix A2 (m :: B2) (h2 ▸ hfr.2) (by simp)
        simp only
        rw [hbm, h3]
        exact ih (by omega) f (by omega) A2 (m :: B2) h2 (Or.inr hend2)

theorem contains_total (e : α) (s : SkipListSet α) (hinv : Inv s) :
    ∃ b, contains s e = some b := by
  unfold contains
  rw [readSlot_written s hinv (s.lv - 1) (by have := hinv.lv_pos; omega)]
  simp only [Option.bind]
  apply containsFrom_total e s hinv (s.lv - 1) (by have := hinv.lv_pos; omega) s.lv
    (by have := hinv.lv_pos; omega) [] _ rfl
  rcases hinv.framed with h | h
  · left
    have : s.lv - 1 = 0 := by omega
    rw [this]; exact h.1
  · right
    exact (h (s.lv - 1) (by have := hinv.lv_pos; omega)).2

end SkipListSet

namespace SkipListSet

variable {α : Type}

theorem framed_insert (A B : List (Node α)) (c n : Node α) (h : Framed (A ++ c :: B))
    (hc : c.key ≠ .posInf) : Framed (A ++ c :: n :: B) := by
  obtain ⟨⟨h0, rest, e0, k0⟩, hend⟩ := h
  have hB : B ≠ [] := by
    rintro rfl
    obtain ⟨front, t, e1, kt⟩ := hend
    have : A ++ [c] = front ++ [t] := e1
    have := List.append_inj_right' this rfl
    simp only [List.cons.injEq, and_true] at this
    exact hc (this ▸ kt)
  constructor
  · cases A with
    | nil =>
      simp only [List.nil_append, List.cons.injEq] at e0
      exact ⟨c, n :: B, rfl, e0.1 ▸ k0⟩
    | cons a A2 =>
      simp only [List.cons_append, List.cons.injEq] at e0
      exact ⟨a, A2 ++ c :: n :: B, rfl, e0.1 ▸ k0⟩
  · have hendB : EndsPos B := endsPos_suffix (A ++ [c]) B (by simpa using hend) hB
    obtain ⟨front, t, e1, kt⟩ := hendB
    exact ⟨A ++ c :: n :: front, t, by rw [e1]; simp, kt⟩

/-- Putting the new node `n` after the node `c` of lane `j`, with its `below`
at a node of the lane beneath that has its key, keeps the state well-formed. -/
theorem inv_insert (s : SkipListSet α) (hinv : Inv s)
    (hfr : ∀ i, i < s.lv → Framed (laneAt s.nodeList i))
    (j : Nat) (hj : j < s.lv) (c : Node α) (hc : c ∈ laneAt s.nodeList j)
    (hcp : c.key ≠ .posInf) (n : Node α) (hn : n.addr = s.fresh)
    (hb : (j = 0 ∧ n.below = none) ∨
      ∃ k, j = k + 1 ∧ ∃ m ∈ laneAt s.nodeList k, n.below = some m.addr ∧ m.key = n.key) :
    Inv { s with nodeList := s.nodeList.map (Slot.insertAfter c.addr n), fresh := s.fresh + 1 } ∧
      (∀ i, i < s.lv →
        Framed (laneAt (s.nodeList.map (Slot.insertAfter c.addr n)) i)) ∧
      n ∈ laneAt (s.nodeList.map (Slot.insertAfter c.addr n)) j ∧
      (∀ i x, x ∈ laneAt s.nodeList i →
        x ∈ laneAt (s.nodeList.map (Slot.insertAfter c.addr n)) i) := by
  obtain ⟨A, B, hAB, hins⟩ := insertAfter_mem n c _ (hinv.nodup j) hc
  have hlane : ∀ i, laneAt (s.nodeList.map (Slot.insertAfter c.addr n)) i =
      if i = j then A ++ c :: n :: B else laneAt s.nodeList i := by
    intro i
    rw [laneAt_map_insertAfter]
    by_cases hij : i = j
    · rw [if_pos hij, hij, hins]
    · rw [if_neg hij]
      apply insertAfter_of_not_mem
      intro hmem
      obtain ⟨x, hx, hxa⟩ := List.mem_map.1 hmem
      exact hij (hinv.apart i j x hx c hc hxa)
  have hmem : ∀ i x, x ∈ laneAt (s.nodeList.map (Slot.insertAfter c.addr n)) i ↔
      (x ∈ laneAt s.nodeList i ∨ (i = j ∧ x = n)) := by
    intro i x
    rw [hlane i]
    by_cases hij : i = j
    · rw [if_pos hij, hij, hAB]
      simp only [List.mem_append, List.mem_cons]
      constructor
      · rintro (h | h | h | h)
        · exact Or.inl (Or.inl h)
        · exact Or.inl (Or.inr (Or.inl h))
        · exact Or.inr ⟨trivial, h⟩
        · exact Or.inl (Or.inr (Or.inr h))
      · rintro ((h | h | h) | ⟨-, h⟩)
        · exact Or.inl h
        · exact Or.inr (Or.inl h)
        · exact Or.inr (Or.inr (Or.inr h))
        · exact Or.inr (Or.inr (Or.inl h))
    · rw [if_neg hij]
      constructor
      · exact fun h => Or.inl h
      · rintro (h | ⟨h, -⟩)
        · exact h
        · exact absurd h hij
  have hold : ∀ i x, x ∈ laneAt s.nodeList i →
      x ∈ laneAt (s.nodeList.map (Slot.insertAfter c.addr n)) i :=
    fun i x hx => (hmem i x).2 (Or.inl hx)
  have hframed : ∀ i, i < s.lv →
      Framed (laneAt (s.nodeList.map (Slot.insertAfter c.addr n)) i) := by
    intro i hi
    rw [hlane i]
    by_cases hij : i = j
    · rw [if_pos hij]
      exact framed_insert A B c n (hAB ▸ hfr j hj) hcp
    · rw [if_neg hij]; exact hfr i hi
  refine ⟨?_, hframed, (hmem j n).2 (Or.inr ⟨rfl, rfl⟩), hold⟩
  constructor
  · show (s.nodeList.map _).length = s.capacity
    rw [List.length_map]; exact hinv.length_eq
  · exact hinv.lv_pos
  · exact hinv.load
  · intro i hi
    obtain ⟨l, hl⟩ := hinv.written i hi
    exact ⟨_, get?_map_insertAfter c.addr n s.nodeList i l hl⟩
  · intro i hi
    show laneAt (s.nodeList.map _) i = []
    rw [laneAt_map_insertAfter, hinv.above i hi]
    rfl
  · exact Or.inr hframed
  · intro x hx
    rcases (hmem 0 x).1 hx with h | ⟨h0, hxn⟩
    · exact hinv.ground x h
    · rcases hb with ⟨-, hb⟩ | ⟨k, hk, -⟩
      · rw [hxn]; exact hb
      · omega
  · intro i hi x hx
    rcases (hmem (i + 1) x).1 hx with h | ⟨h0, hxn⟩
    · obtain ⟨m, hm, h1, h2⟩ := hinv.linked i hi x h
      exact ⟨m, hold i m hm, h1, h2⟩
    · rcases hb with ⟨hj0, -⟩ | ⟨k, hk, m, hm, h1, h2⟩
      · omega
      · have hik : i = k := by omega
        subst hik
        rw [hxn]
        exact ⟨m, hold i m hm, h1, h2⟩
  · intro i
    show ((laneAt (s.nodeList.map _) i).map Node.addr).Nodup
    rw [hlane i]
    by_cases hij : i = j
    · rw [if_pos hij]
      have hnd := hinv.nodup j
      rw [hAB] at hnd
      have hfresh : ∀ x ∈ A ++ c :: B, x.addr ≠ n.addr := by
        intro x hx
        have := hinv.below_fresh j x (hAB ▸ hx)
        omega
      simp only [List.map_append, List.map_cons] at hnd ⊢
      have hperm : (List.map Node.addr A ++ c.addr :: n.addr :: List.map Node.addr B).Perm
          (n.addr :: (List.map Node.addr A ++ c.addr :: List.map Node.addr B)) := by
        have := @List.perm_middle _ n.addr (List.map Node.addr A ++ [c.addr]) (List.map Node.addr B)
        simpa using this
      rw [hperm.nodup_iff]
      refine List.nodup_cons.2 ⟨?_, hnd⟩
      intro hmem2
      have : n.addr ∈ (A ++ c :: B).map Node.addr := by simpa using hmem2
      obtain ⟨x, hx, hxa⟩ := List.mem_map.1 this
      exact hfresh x hx hxa
    · rw [if_neg hij]; exact hinv.nodup i
  · intro i i2 x hx y hy hxy
    rcases (hmem i x).1 hx with h | ⟨h0, hxn⟩
    · rcases (hmem i2 y).1 hy with h2 | ⟨h3, hyn⟩
      · exact hinv.apart i i2 x h y h2 hxy
      · have := hinv.below_fresh i x h
        rw [hyn] at hxy
        omega
    · rcases (hmem i2 y).1 hy with h2 | ⟨h3, hyn⟩
      · have := hinv.below_fresh i2 y h2
        rw [hxn] at hxy
        omega
      · omega
  · intro i x hx
    show x.addr < s.fresh + 1
    rcases (hmem i x).1 hx with h | ⟨h0, hxn⟩
    · have := hinv.below_fresh i x h; omega
    · rw [hxn]; omega

end SkipListSet

namespace SkipListSet

variable {α : Type}

/-- Writing a new top lane of two sentinels over the top lane of a well-formed
state. `nl` is the array after the possible `resize`. -/
theorem inv_newLane (s : SkipListSet α) (hinv : Inv s)
    (hfr : ∀ i, i < s.lv → Framed (laneAt s.nodeList i))
    (nl : List (Slot α)) (cap : Nat) (hlen : nl.length = cap)
    (hload : 5 * (s.lv + 1) < 4 * cap)
    (hget : ∀ i, i < s.lv → nl.get? i = s.nodeList.get? i)
    (hlane : ∀ i, laneAt nl i = laneAt s.nodeList i)
    (h t : Node α) (hh : h ∈ laneAt s.nodeList (s.lv - 1)) (hhk : h.key = .negInf)
    (ht : t ∈ laneAt s.nodeList (s.lv - 1)) (htk : t.key = .posInf) :
    Inv { s with
        nodeList := nl.set s.lv (.ptr [⟨s.fresh, .negInf, some h.addr⟩,
          ⟨s.fresh + 1, .posInf, some t.addr⟩]),
        lv := s.lv + 1, capacity := cap, fresh := s.fresh + 2 } ∧
      (∀ i, i < s.lv + 1 → Framed (laneAt (nl.set s.lv (.ptr [⟨s.fresh, .negInf, some h.addr⟩,
        ⟨s.fresh + 1, .posInf, some t.addr⟩])) i)) ∧
      (∀ i, i < s.lv → laneAt (nl.set s.lv (.ptr [⟨s.fresh, .negInf, some h.addr⟩,
        ⟨s.fresh + 1, .posInf, some t.addr⟩])) i = laneAt s.nodeList i) := by
  have hlv : s.lv < nl.length := by omega
  have hl : ∀ i, laneAt (nl.set s.lv (.ptr [⟨s.fresh, .negInf, some h.addr⟩,
      ⟨s.fresh + 1, .posInf, some t.addr⟩])) i =
      if i = s.lv then [⟨s.fresh, .negInf, some h.addr⟩, ⟨s.fresh + 1, .posInf, some t.addr⟩]
      else laneAt s.nodeList i := by
    intro i
    rw [laneAt_set _ _ _ _ hlv, hlane i]
  have hold : ∀ i, i < s.lv → laneAt (nl.set s.lv (.ptr [⟨s.fresh, .negInf, some h.addr⟩,
      ⟨s.fresh + 1, .posInf, some t.addr⟩])) i = laneAt s.nodeList i := by
    intro i hi
    rw [hl i, if_neg (by omega)]
  have hmem : ∀ i x, x ∈ laneAt (nl.set s.lv (.ptr [⟨s.fresh, .negInf, some h.addr⟩,
      ⟨s.fresh + 1, .posInf, some t.addr⟩])) i →
      (x ∈ laneAt s.nodeList i ∧ i ≠ s.lv) ∨
        (i = s.lv ∧ (x = ⟨s.fresh, .negInf, some h.addr⟩ ∨
          x = ⟨s.fresh + 1, .posInf, some t.addr⟩)) := by
    intro i x hx
    rw [hl i] at hx
    by_cases hi : i = s.lv
    · rw [if_pos hi] at hx
      simp only [List.mem_cons, List.mem_singleton, List.not_mem_nil, or_false] at hx
      exact Or.inr ⟨hi, hx⟩
    · rw [if_neg hi] at hx
      exact Or.inl ⟨hx, hi⟩
  have hframed : ∀ i, i < s.lv + 1 → Framed (laneAt (nl.set s.lv
      (.ptr [⟨s.fresh, .negInf, some h.addr⟩, ⟨s.fresh + 1, .posInf, some t.addr⟩])) i) := by
    intro i hi
    rw [hl i]
    by_cases hi2 : i = s.lv
    · rw [if_pos hi2]
      exact ⟨⟨_, _, rfl, rfl⟩, ⟨[⟨s.fresh, .negInf, some h.addr⟩],
        ⟨s.fresh + 1, .posInf, some t.addr⟩, rfl, rfl⟩⟩
    · rw [if_neg hi2]; exact hfr i (by omega)
  refine ⟨?_, hframed, hold⟩
  have hpos := hinv.lv_pos
  constructor
  · show (nl.set _ _).length = cap
    rw [List.length_set]; exact hlen
  · show 1 ≤ s.lv + 1
    omega
  · exact hload
  · intro i hi
    show ∃ l, (nl.set _ _).get? i = some (.ptr l)
    rw [get?_set_ptr _ _ _ _ hlv]
    by_cases hi2 : i = s.lv
    · rw [if_pos hi2]; exact ⟨_, rfl⟩
    · rw [if_neg hi2, hget i (by have : i < s.lv + 1 := hi; omega)]
      exact hinv.written i (by have : i < s.lv + 1 := hi; omega)
  · intro i hi
    show laneAt (nl.set _ _) i = []
    have hi1 : s.lv + 1 ≤ i := hi
    rw [hl i, if_neg (by omega)]
    exact hinv.above i (by omega)
  · exact Or.inr hframed
  · intro x hx
    rcases hmem 0 x hx with ⟨h1, -⟩ | ⟨h1, -⟩
    · exact hinv.ground x h1
    · omega
  · intro i hi x hx
    have hi1 : i + 1 < s.lv + 1 := hi
    rcases hmem (i + 1) x hx with ⟨h1, h2⟩ | ⟨h1, h2⟩
    · obtain ⟨m, hm, e1, e2⟩ := hinv.linked i (by omega) x h1
      exact ⟨m, by rw [hold i (by omega)]; exact hm, e1, e2⟩
    · have hi2 : i = s.lv - 1 := by omega
      rcases h2 with h2 | h2
      · exact ⟨h, by rw [hold i (by omega), hi2]; exact hh, by rw [h2], by rw [h2, hhk]⟩
      · exact ⟨t, by rw [hold i (by omega), hi2]; exact ht, by rw [h2], by rw [h2, htk]⟩
  · intro i
    show ((laneAt (nl.set _ _) i).map Node.addr).Nodup
    rw [hl i]
    by_cases hi2 : i = s.lv
    · rw [if_pos hi2]
      simp
    · rw [if_neg hi2]; exact hinv.nodup i
  · intro i i2 x hx y hy hxy
    rcases hmem i x hx with ⟨h1, h2⟩ | ⟨h1, h2⟩
    · rcases hmem i2 y hy with ⟨h3, h4⟩ | ⟨h3, h4⟩
      · exact hinv.apart i i2 x h1 y h3 hxy
      · have := hinv.below_fresh i x h1
        rcases h4 with h4 | h4 <;> rw [h4] at hxy <;> simp only at hxy <;> omega
    · rcases hmem i2 y hy with ⟨h3, h4⟩ | ⟨h3, h4⟩
      · have := hinv.below_fresh i2 y h3
        rcases h2 with h2 | h2 <;> rw [h2] at hxy <;> simp only at hxy <;> omega
      · omega
  · intro i x hx
    show x.addr < s.fresh + 2
    rcases hmem i x hx with ⟨h1, -⟩ | ⟨-, h2⟩
    · have := hinv.below_fresh i x h1; omega
    · rcases h2 with h2 | h2 <;> rw [h2] <;> simp only <;> omega

/-- Lines 550-567 return, in a well-formed state with `insertLevel ≤ lv`
that keeps the lanes it had. -/
theorem newLevel_spec (s : SkipListSet α) (hinv : Inv s)
    (hfr : ∀ i, i < s.lv → Framed (laneAt s.nodeList i)) (L : Nat) (hL : L ≤ s.lv + 1) :
    ∃ s1, newLevel L s = some s1 ∧ Inv s1 ∧
      (∀ i, i < s1.lv → Framed (laneAt s1.nodeList i)) ∧ L ≤ s1.lv ∧
      (∀ i, i < s.lv → laneAt s1.nodeList i = laneAt s.nodeList i) ∧
      s1.sz = s.sz ∧ s1.levelTester = s.levelTester := by
  unfold newLevel
  by_cases hgt : L > s.lv
  · rw [if_pos hgt]
    have hLeq : L = s.lv + 1 := by omega
    subst hLeq
    have hpos := hinv.lv_pos
    have hcap := hinv.length_eq
    have hload := hinv.load
    obtain ⟨⟨h, rest, eh, hhk⟩, ⟨front, t, et, htk⟩⟩ := hfr (s.lv - 1) (by omega)
    have hh : h ∈ laneAt s.nodeList (s.lv - 1) := by rw [eh]; exact List.mem_cons_self _ _
    have ht : t ∈ laneAt s.nodeList (s.lv - 1) := by rw [et]; simp
    have hhead : (laneAt s.nodeList (s.lv - 1)).head? = some h := by rw [eh]; rfl
    have hlast : (laneAt s.nodeList (s.lv - 1)).getLast? = some t := by
      rw [et]; simp
    -- the array after the possible resize
    have key : ∀ (nl : List (Slot α)) (cap : Nat), nl.length = cap →
        5 * (s.lv + 1) < 4 * cap → (∀ i, i < s.lv → nl.get? i = s.nodeList.get? i) →
        (∀ i, laneAt nl i = laneAt s.nodeList i) →
        ∃ s1, ((readSlot (s.lv + 1 - 2)
            ({ s with lv := s.lv + 1, nodeList := nl, capacity := cap } : SkipListSet α)).bind
          fun lower =>
            match lower.getLast? with
            | none => none
            | some testNode =>
              writeSlot (s.lv + 1 - 1)
                [⟨s.fresh, .negInf, lower.head?.map Node.addr⟩,
                  ⟨s.fresh + 1, .posInf, some testNode.addr⟩]
                { s with lv := s.lv + 1, nodeList := nl, capacity := cap,
                         fresh := s.fresh + 2 }) = some s1 ∧ Inv s1 ∧
          (∀ i, i < s1.lv → Framed (laneAt s1.nodeList i)) ∧ s.lv + 1 ≤ s1.lv ∧
          (∀ i, i < s.lv → laneAt s1.nodeList i = laneAt s.nodeList i) ∧
          s1.sz = s.sz ∧ s1.levelTester = s.levelTester := by
      intro nl cap hlen hld hget hlane
      obtain ⟨l, hl⟩ := hinv.written (s.lv - 1) (by omega)
      have hl2 : nl.get? (s.lv - 1) = some (.ptr l) := by
        rw [hget (s.lv - 1) (by omega)]; exact hl
      have hll : l = laneAt s.nodeList (s.lv - 1) := (laneAt_of_get? _ _ _ hl).symm
      have hrd : readSlot (s.lv + 1 - 2)
          ({ s with lv := s.lv + 1, nodeList := nl, capacity := cap } : SkipListSet α) =
          some (laneAt s.nodeList (s.lv - 1)) := by
        unfold readSlot
        have : s.lv + 1 - 2 = s.lv - 1 := by omega
        rw [this]
        simp only
        rw [hl2, hll]
      obtain ⟨hi1, hi2, hi3⟩ := inv_newLane s hinv hfr nl cap hlen hld hget hlane h t hh hhk ht htk
      refine ⟨_, ?_, hi1, hi2, Nat.le_refl _, hi3, rfl, rfl⟩
      rw [hrd]
      simp only [Option.bind, hlast, hhead, Option.map]
      unfold writeSlot
      have : s.lv + 1 - 1 = s.lv := by omega
      rw [this]
      have hlt : s.lv < nl.length := by omega
      simp only [hlt, if_true]
    dsimp only
    by_cases hg : 4 * s.capacity ≤ 5 * (s.lv + 1)
    · rw [if_pos hg]
      unfold resize
      have hle : s.lv + 1 ≤ s.nodeList.length := by omega
      simp only [hle, if_true, Option.bind]
      have hk := key (s.nodeList.take (s.lv + 1) ++
          List.replicate (s.capacity * 2 + 1 - (s.lv + 1)) Slot.uninit) (s.capacity * 2 + 1)
        (by simp; omega) (by omega)
        (fun i hi => get?_resize _ _ _ _ hle (by omega))
        (fun i => by
          rw [laneAt_resize _ _ _ _ hle]
          by_cases hi : i < s.lv + 1
          · rw [if_pos hi]
          · rw [if_neg hi]; exact (hinv.above i (by omega)).symm)
      exact hk
    · rw [if_neg hg]
      simp only [Option.bind]
      have hk := key s.nodeList s.capacity hcap (by omega) (fun i _ => rfl) (fun i => rfl)
      exact hk
  · rw [if_neg hgt]
    exact ⟨s, rfl, hinv, hfr, by omega, fun i _ => rfl, rfl, rfl⟩

end SkipListSet

namespace SkipListSet

variable {α : Type}

theorem inv_new (levelTester : List Bool) : Inv (new levelTester : SkipListSet α) := by
  have hl : ∀ i, laneAt (List.replicate INITIAL_CAPACITY (Slot.ptr ([] : List (Node α)))) i = [] := by
    intro i
    unfold laneAt
    simp only [List.getD_eq_getElem?_getD, List.getElem?_replicate]
    split <;> rfl
  constructor
  · simp [new]
  · simp [new]
  · simp [new, INITIAL_CAPACITY]
  · intro i hi
    have hi0 : i = 0 := by
      have : i < 1 := hi
      omega
    subst hi0
    exact ⟨[], rfl⟩
  · intro i _; exact hl i
  · exact Or.inl ⟨hl 0, rfl⟩
  · intro n hn
    have : n ∈ laneAt (List.replicate INITIAL_CAPACITY (Slot.ptr ([] : List (Node α)))) 0 := hn
    rw [hl 0] at this
    simp at this
  · intro i hi
    have : i + 1 < 1 := hi
    omega
  · intro i
    show ((laneAt (List.replicate INITIAL_CAPACITY (Slot.ptr ([] : List (Node α)))) i).map
      Node.addr).Nodup
    rw [hl i]
    simp
  · intro i j n hn
    have : n ∈ laneAt (List.replicate INITIAL_CAPACITY (Slot.ptr ([] : List (Node α)))) i := hn
    rw [hl i] at this
    simp at this
  · intro i n hn
    have : n ∈ laneAt (List.replicate INITIAL_CAPACITY (Slot.ptr ([] : List (Node α)))) i := hn
    rw [hl i] at this
    simp at this

/-- The first `add` on an empty set builds lane 0. -/
theorem inv_first (e : α) (s : SkipListSet α) (hinv : Inv s) (h0 : laneAt s.nodeList 0 = []) :
    ∃ s1, writeSlot 0
        [⟨s.fresh, .negInf, none⟩, ⟨s.fresh + 1, .normal e, none⟩, ⟨s.fresh + 2, .posInf, none⟩]
        { s with sz := s.sz + 1, fresh := s.fresh + 3 } = some s1 ∧ Inv s1 := by
  have hlv : s.lv = 1 := by
    rcases hinv.framed with h | h
    · exact h.2
    · have := (h 0 (by have := hinv.lv_pos; omega)).1
      rw [h0] at this
      obtain ⟨_, _, e1, _⟩ := this
      simp at e1
  have hlen : 0 < s.nodeList.length := by
    have := hinv.length_eq
    have := hinv.load
    omega
  unfold writeSlot
  simp only [hlen, if_true]
  refine ⟨_, rfl, ?_⟩
  have hl : ∀ i, laneAt (s.nodeList.set 0 (.ptr [⟨s.fresh, .negInf, none⟩,
      ⟨s.fresh + 1, .normal e, none⟩, ⟨s.fresh + 2, .posInf, none⟩])) i =
      if i = 0 then [⟨s.fresh, .negInf, none⟩, ⟨s.fresh + 1, .normal e, none⟩,
        ⟨s.fresh + 2, .posInf, none⟩] else [] := by
    intro i
    rw [laneAt_set _ _ _ _ hlen]
    by_cases hi : i = 0
    · rw [if_pos hi, if_pos hi]
    · rw [if_neg hi, if_neg hi]
      exact hinv.above i (by omega)
  have hmem : ∀ i x, x ∈ laneAt (s.nodeList.set 0 (.ptr [⟨s.fresh, .negInf, none⟩,
      ⟨s.fresh + 1, .normal e, none⟩, ⟨s.fresh + 2, .posInf, none⟩])) i →
      i = 0 ∧ (x = ⟨s.fresh, .negInf, none⟩ ∨ x = ⟨s.fresh + 1, .normal e, none⟩ ∨
        x = ⟨s.fresh + 2, .posInf, none⟩) := by
    intro i x hx
    rw [hl i] at hx
    by_cases hi : i = 0
    · rw [if_pos hi] at hx
      simp only [List.mem_cons, List.mem_singleton, List.not_mem_nil, or_false] at hx
      exact ⟨hi, hx⟩
    · rw [if_neg hi] at hx
      simp at hx
  constructor
  · show (s.nodeList.set _ _).length = s.capacity
    rw [List.length_set]; exact hinv.length_eq
  · exact hinv.lv_pos
  · exact hinv.load
  · intro i hi
    show ∃ l, (s.nodeList.set _ _).get? i = some (.ptr l)
    have hi0 : i = 0 := by
      have : i < s.lv := hi
      omega
    rw [get?_set_ptr _ _ _ _ hlen, if_pos hi0]
    exact ⟨_, rfl⟩
  · intro i hi
    show laneAt (s.nodeList.set _ _) i = []
    have : s.lv ≤ i := hi
    rw [hl i, if_neg (by omega)]
  · right
    intro i hi
    have hi0 : i = 0 := by
      have : i < s.lv := hi
      omega
    show Framed (laneAt (s.nodeList.set _ _) i)
    rw [hl i, if_pos hi0]
    exact ⟨⟨_, _, rfl, rfl⟩, ⟨[⟨s.fresh, .negInf, none⟩, ⟨s.fresh + 1, .normal e, none⟩],
      ⟨s.fresh + 2, .posInf, none⟩, rfl, rfl⟩⟩
  · intro x hx
    rcases (hmem 0 x hx).2 with h | h | h <;> rw [h]
  · intro i hi
    have : i + 1 < s.lv := hi
    omega
  · intro i
    show ((laneAt (s.nodeList.set _ _) i).map Node.addr).Nodup
    rw [hl i]
    by_cases hi : i = 0
    · rw [if_pos hi]; simp
    · rw [if_neg hi]; simp
  · intro i j x hx y hy _
    rw [(hmem i x hx).1, (hmem j y hy).1]
  · intro i x hx
    show x.addr < s.fresh + 3
    rcases (hmem i x hx).2 with h | h | h <;> rw [h] <;> simp only <;> omega

/-- A key of lane `K + d` is a key of lane `K`. -/
theorem key_down (s : SkipListSet α) (hinv : Inv s) (K d : Nat) (n : Node α) :
    K + d < s.lv → n ∈ laneAt s.nodeList (K + d) →
      ∃ m ∈ laneAt s.nodeList K, m.key = n.key := by
  induction d generalizing n with
  | zero => intro _ hn; exact ⟨n, hn, rfl⟩
  | succ d ih =>
    intro hlt hn
    obtain ⟨m, hm, -, hk⟩ := hinv.linked (K + d) (by omega) n hn
    obtain ⟨m2, hm2, hk2⟩ := ih m (by omega) hm
    exact ⟨m2, hm2, hk2.trans hk⟩

end SkipListSet

namespace SkipListSet

variable {α : Type} [LinearOrder α]

theorem ltElem_ne_posInf (c : Node α) (e : α) (h : c.key.ltElem e = true) :
    c.key ≠ .posInf := by
  intro hk
  rw [hk] at h
  simp [SkipListKey.ltElem] at h

/-- The promotion loop of `add` returns, in a well-formed state. -/
theorem promote_spec (e : α) (tester : List Bool) :
    ∀ (L p : Nat) (s : SkipListSet α), Inv s →
      (∀ i, i < s.lv → Framed (laneAt s.nodeList i)) → 1 ≤ L → L ≤ s.lv →
      (∃ q ∈ laneAt s.nodeList (L - 1), q.addr = p ∧ q.key = .normal e) →
      ∃ s1, promote e tester L p s = some s1 ∧ Inv s1 ∧
        (∀ i, i < s1.lv → Framed (laneAt s1.nodeList i)) := by
  induction tester with
  | nil =>
    intro L p s hinv hfr _ _ _
    exact ⟨_, rfl, ⟨hinv.length_eq, hinv.lv_pos, hinv.load, hinv.written, hinv.above,
      hinv.framed, hinv.ground, hinv.linked, hinv.nodup, hinv.apart, hinv.below_fresh⟩, hfr⟩
  | cons b rest ih =>
    intro L p s hinv hfr hL1 hL2 hq
    cases b with
    | false =>
      exact ⟨_, rfl, ⟨hinv.length_eq, hinv.lv_pos, hinv.load, hinv.written, hinv.above,
        hinv.framed, hinv.ground, hinv.linked, hinv.nodup, hinv.apart, hinv.below_fresh⟩, hfr⟩
    | true =>
      obtain ⟨s1, e1, hinv1, hfr1, hL3, hsame, -, -⟩ := newLevel_spec s hinv hfr (L + 1) (by omega)
      have hrd := readSlot_written s1 hinv1 L (by omega)
      obtain ⟨⟨h0, rest0, eh, hk0⟩, hend⟩ := hfr1 L (by omega)
      obtain ⟨c, ec, hc, hck⟩ := walk_spec e (laneAt s1.nodeList L) hend
        ⟨h0, rest0, eh, by rw [hk0]; rfl⟩
      obtain ⟨q, hq1, hq2, hq3⟩ := hq
      have hq1b : q ∈ laneAt s1.nodeList (L - 1) := by
        rw [hsame (L - 1) (by omega)]; exact hq1
      obtain ⟨k, hk⟩ : ∃ k, L = k + 1 := ⟨L - 1, by omega⟩
      have hins := inv_insert s1 hinv1 hfr1 L (by omega) c hc (ltElem_ne_posInf c e hck)
        ⟨s1.fresh, .normal e, some p⟩ rfl
        (Or.inr ⟨k, hk, q, by
          have : L - 1 = k := by omega
          rw [← this]; exact hq1b, by rw [hq2], hq3⟩)
      obtain ⟨hinv2, hfr2, hn2, -⟩ := hins
      obtain ⟨s3, e3, hinv3, hfr3⟩ := ih (L + 1) s1.fresh
        { s1 with
          nodeList := s1.nodeList.map (Slot.insertAfter c.addr ⟨s1.fresh, .normal e, some p⟩),
          fresh := s1.fresh + 1 }
        hinv2 hfr2 (by omega) hL3
        ⟨⟨s1.fresh, .normal e, some p⟩, by simpa using hn2, rfl, rfl⟩
      refine ⟨s3, ?_, hinv3, hfr3⟩
      unfold promote
      rw [e1]
      simp only [Option.bind, Nat.add_sub_cancel]
      rw [hrd]
      simp only
      rw [ec]
      exact e3

/-- One call of `add` on a well-formed state returns a well-formed state. -/
theorem add_inv (e : α) (s : SkipListSet α) (hinv : Inv s) :
    ∃ s1, add e s = some s1 ∧ Inv s1 := by
  have hpos := hinv.lv_pos
  unfold add
  rw [readSlot_written s hinv 0 (by omega)]
  cases h0 : laneAt s.nodeList 0 with
  | nil => exact inv_first e s hinv h0
  | cons c0 rest0 =>
    simp only
    have hne : laneAt s.nodeList 0 ≠ [] := by rw [h0]; simp
    have hfr := framed_lanes s hinv hne
    obtain ⟨found, hfound⟩ := contains_total e s hinv
    rw [hfound]
    simp only [Option.bind]
    cases found with
    | true => exact ⟨s, rfl, hinv⟩
    | false =>
      simp only [Bool.not_false, if_true]
      rw [readSlot_written s hinv (s.lv - 1) (by omega)]
      simp only
      obtain ⟨⟨h, rest, eh, hk⟩, -⟩ := hfr (s.lv - 1) (by omega)
      obtain ⟨c, ec, hc, hck⟩ := search_spec e s hinv hfr (s.lv - 1) (by omega) s.lv (by omega)
        [] (laneAt s.nodeList (s.lv - 1)) rfl ⟨h, rest, eh, by rw [hk]; rfl⟩
      rw [ec]
      simp only
      obtain ⟨hinv1, hfr1, hn1, -⟩ := inv_insert s hinv hfr 0 (by omega) c hc
        (ltElem_ne_posInf c e hck) ⟨s.fresh, .normal e, none⟩ rfl (Or.inl ⟨rfl, rfl⟩)
      obtain ⟨s2, e2, hinv2, -⟩ := promote_spec e s.levelTester 1 s.fresh
        { s with
          nodeList := s.nodeList.map (Slot.insertAfter c.addr ⟨s.fresh, .normal e, none⟩),
          fresh := s.fresh + 1 }
        hinv1 hfr1 (Nat.le_refl 1) hpos ⟨⟨s.fresh, .normal e, none⟩, by simpa using hn1, rfl, rfl⟩
      rw [e2]
      exact ⟨_, rfl, ⟨hinv2.length_eq, hinv2.lv_pos, hinv2.load, hinv2.written, hinv2.above,
        hinv2.framed, hinv2.ground, hinv2.linked, hinv2.nodup, hinv2.apart, hinv2.below_fresh⟩⟩

/-- Every run of `add` calls on a new SkipListSet returns, in a well-formed
state. -/
theorem addAll_inv (xs : List α) (s : SkipListSet α) (hinv : Inv s) :
    ∃ s1, addAll xs s = some s1 ∧ Inv s1 := by
  induction xs generalizing s with
  | nil => exact ⟨s, rfl, hinv⟩
  | cons x xs ih =>
    obtain ⟨s1, e1, h1⟩ := add_inv x s hinv
    obtain ⟨s2, e2, h2⟩ := ih s1 h1
    exact ⟨s2, by simp [addAll, e1, e2], h2⟩

theorem isElementOnLevel_iff (s : SkipListSet α) (hinv : Inv s) (e : α) (L : Nat) :
    isElementOnLevel s e L = some true ↔
      L < s.lv ∧ ∃ n ∈ laneAt s.nodeList L, n.key.eqElem e = true := by
  unfold isElementOnLevel
  by_cases hL : L ≥ s.lv
  · rw [if_pos hL]
    constructor
    · intro h; simp at h
    · rintro ⟨h, -⟩; omega
  · rw [if_neg hL, readSlot_written s hinv L (by omega)]
    simp only [Option.map, Option.some.injEq, List.any_eq_true]
    constructor
    · intro h; exact ⟨by omega, h⟩
    · rintro ⟨-, h⟩; exact h

end SkipListSet

/-! ## The claims on SkipListSet -/

namespace SkipListSet

variable {α : Type} [LinearOrder α]

/-- C19: for every level tester and every run of `add` calls on a new
SkipListSet the run returns, and in the state it leaves a value that
`isElementOnLevel` finds on a level `L` is found on every level `K < L`. -/
theorem skiplist_levels_nested (levelTester : List Bool) (xs : List α) :
    ∃ s, addAll xs (new levelTester) = some s ∧
      ∀ e L K, K < L → isElementOnLevel s e L = some true →
        isElementOnLevel s e K = some true := by
  obtain ⟨s, es, hinv⟩ := addAll_inv xs (new levelTester) (inv_new levelTester)
  refine ⟨s, es, ?_⟩
  intro e L K hKL hL
  obtain ⟨hlt, n, hn, hk⟩ := (isElementOnLevel_iff s hinv e L).1 hL
  obtain ⟨d, hd⟩ : ∃ d, L = K + d := ⟨L - K, by omega⟩
  subst hd
  obtain ⟨m, hm, hmk⟩ := key_down s hinv K d n hlt hn
  exact (isElementOnLevel_iff s hinv e K).2 ⟨by omega, m, hm, by rw [hmk]; exact hk⟩

/-- C20, at the failing input: on a newly constructed SkipListSet `size()` is
0 and `elementsOnLevel(0)` returns 4294967294, the `int` counter `-2` read as
`unsigned int`: lane 0 has no sentinels yet. -/
theorem skiplist_empty_level_count :
    (size (new [] : SkipListSet Nat), elementsOnLevel (new [] : SkipListSet Nat) 0) =
      (0, some 4294967294) := by
  decide!

end SkipListSet

/-! ## Lemmas on SkipListSet, continued -/

namespace SkipListKey

variable {α : Type} [LinearOrder α]

theorem ltElem_eq_ltKey (k : SkipListKey α) (e : α) : k.ltElem e = k.ltKey (normal e) := by
  cases k <;> rfl

theorem eqElem_iff (k : SkipListKey α) (e : α) : k.eqElem e = true ↔ k = normal e := by
  cases k <;> simp [eqElem]

theorem ltKey_irrefl (k : SkipListKey α) : k.ltKey k = false := by
  cases k <;> simp [ltKey]

theorem ltKey_trans {a b c : SkipListKey α} (h1 : a.ltKey b = true) (h2 : b.ltKey c = true) :
    a.ltKey c = true := by
  cases a <;> cases b <;> cases c <;> simp_all [ltKey]
  exact lt_trans h1 h2

theorem ltKey_asymm {a b : SkipListKey α} (h : a.ltKey b = true) : b.ltKey a = false := by
  cases a <;> cases b <;> simp_all [ltKey]
  exact le_of_lt h

theorem ltKey_total (a b : SkipListKey α) : a.ltKey b = true ∨ a = b ∨ b.ltKey a = true := by
  cases a <;> cases b <;> simp [ltKey]
  exact lt_trichotomy _ _

/-- A key that is neither below the element nor equal to it is above it. -/
theorem ltKey_of_not_ltElem (k : SkipListKey α) (e : α) (h1 : k.ltElem e = false)
    (h2 : k ≠ normal e) : (normal e).ltKey k = true := by
  rcases ltKey_total (normal e) k with h | h | h
  · exact h
  · exact absurd h.symm h2
  · rw [← ltElem_eq_ltKey, h1] at h
    exact absurd h Bool.false_ne_true

end SkipListKey

namespace SkipListSet

variable {α : Type}

theorem mem_elements (lane : List (Node α)) (e : α) :
    e ∈ elements lane ↔ ∃ n ∈ lane, n.key = .normal e := by
  unfold elements
  rw [List.mem_filterMap]
  constructor
  · rintro ⟨n, hn, h⟩
    refine ⟨n, hn, ?_⟩
    cases hk : n.key with
    | normal a =>
      rw [hk] at h
      simp only [Option.some.injEq] at h
      rw [h]
    | negInf => rw [hk] at h; simp at h
    | posInf => rw [hk] at h; simp at h
  · rintro ⟨n, hn, h⟩
    exact ⟨n, hn, by rw [h]⟩

end SkipListSet

namespace SkipListSet

variable {α : Type} [LinearOrder α]

/-- Between two neighbours of an ascending lane there is no key of the lane. -/
theorem ascending_gap (P Y : List (Node α)) (c r : Node α) (k : SkipListKey α)
    (hasc : Ascending (P ++ c :: r :: Y)) (h1 : c.key.ltKey k = true)
    (h2 : k.ltKey r.key = true) : ∀ n ∈ P ++ c :: r :: Y, n.key ≠ k := by
  unfold Ascending at hasc
  rw [List.pairwise_append, List.pairwise_cons, List.pairwise_cons] at hasc
  obtain ⟨-, ⟨hc, hr, -⟩, hP⟩ := hasc
  intro n hn hk
  rw [List.mem_append, List.mem_cons, List.mem_cons] at hn
  rcases hn with h | h | h | h
  · have := hP n h c (List.mem_cons_self _ _)
    rw [hk, SkipListKey.ltKey_asymm h1] at this
    exact Bool.false_ne_true this
  · rw [← hk, h, SkipListKey.ltKey_irrefl] at h1
    exact Bool.false_ne_true h1
  · rw [← hk, h, SkipListKey.ltKey_irrefl] at h2
    exact Bool.false_ne_true h2
  · have := hr n h
    rw [hk, SkipListKey.ltKey_asymm h2] at this
    exact Bool.false_ne_true this

theorem containsLane_true (e : α) (cur : List (Node α)) :
    containsLane e cur = some (.answer true) → ∃ n ∈ cur, n.key = .normal e := by
  induction cur with
  | nil => intro h; simp [containsLane] at h
  | cons c rest ih =>
    intro h
    unfold containsLane at h
    by_cases heq : c.key.eqElem e = true
    · exact ⟨c, List.mem_cons_self _ _, (SkipListKey.eqElem_iff _ _).1 heq⟩
    · rw [if_neg heq] at h
      by_cases hlt : c.key.ltElem e = true
      · rw [if_pos hlt] at h
        cases rest with
        | nil => simp at h
        | cons r more =>
          simp only at h
          by_cases hk : (SkipListKey.normal e).ltKey r.key = true
          · rw [if_pos hk] at h; simp at h
          · rw [if_neg hk] at h
            obtain ⟨n, hn, hnk⟩ := ih h
            exact ⟨n, List.mem_cons_of_mem _ hn, hnk⟩
      · rw [if_neg hlt] at h
        obtain ⟨n, hn, hnk⟩ := ih h
        exact ⟨n, List.mem_cons_of_mem _ hn, hnk⟩

/-- The loop of `contains` in one lane, started at a node with `key < element`:
it finds the element or goes down between two neighbours that enclose it. -/
theorem containsLane_head (e : α) (cur : List (Node α)) (hend : EndsPos cur)
    (hhead : ∃ c0 rest, cur = c0 :: rest ∧ c0.key.ltElem e = true) :
    containsLane e cur = some (.answer true) ∨
      ∃ X c r Y, cur = X ++ c :: r :: Y ∧ containsLane e cur = some (.down c.below) ∧
        c.key.ltElem e = true ∧ (SkipListKey.normal e).ltKey r.key = true := by
  induction cur with
  | nil =>
    obtain ⟨c0, rest, h, -⟩ := hhead
    simp at h
  | cons c rest ih =>
    obtain ⟨c0, rest0, h, hc0⟩ := hhead
    simp only [List.cons.injEq] at h
    obtain ⟨h1, h2⟩ := h
    subst h1; subst h2
    have hne : ¬ c.key.eqElem e = true := by
      intro heq
      rw [(SkipListKey.eqElem_iff _ _).1 heq, SkipListKey.ltElem_eq_ltKey,
        SkipListKey.ltKey_irrefl] at hc0
      exact Bool.false_ne_true hc0
    cases rest with
    | nil => exact absurd hend (not_endsPos_single c e hc0)
    | cons r more =>
      have hstep : containsLane e (c :: r :: more) =
          if (SkipListKey.normal e).ltKey r.key then some (.down c.below)
          else containsLane e (r :: more) := by
        conv => lhs; unfold containsLane
        rw [if_neg hne, if_pos hc0]
      rw [hstep]
      by_cases hk : (SkipListKey.normal e).ltKey r.key = true
      · rw [if_pos hk]
        exact Or.inr ⟨[], c, r, more, rfl, rfl, hc0, hk⟩
      · rw [if_neg hk]
        by_cases hre : r.key = .normal e
        · left
          unfold containsLane
          rw [if_pos ((SkipListKey.eqElem_iff _ _).2 hre)]
        · have hr : r.key.ltElem e = true := by
            rcases SkipListKey.ltKey_total (SkipListKey.normal e) r.key with h | h | h
            · exact absurd h hk
            · exact absurd h.symm hre
            · rw [SkipListKey.ltElem_eq_ltKey]; exact h
          rcases ih (endsPos_suffix [c] (r :: more) hend (by simp)) ⟨r, more, rfl, hr⟩ with h | h
          · exact Or.inl h
          · obtain ⟨X, c1, r1, Y, e1, e2, e3, e4⟩ := h
            exact Or.inr ⟨c :: X, c1, r1, Y, by rw [e1]; rfl, e2, e3, e4⟩

end SkipListSet

namespace SkipListSet

variable {α : Type} [LinearOrder α]

/-- When the loop of `contains` answers true, the element is a key of lane 0. -/
theorem containsFrom_sound (e : α) (s : SkipListSet α) (hinv : Inv s) (i : Nat) :
    i < s.lv → ∀ fuel A cur, laneAt s.nodeList i = A ++ cur → (cur = [] ∨ EndsPos cur) →
      containsFrom e s.nodeList fuel cur = some true →
      ∃ n ∈ laneAt s.nodeList 0, n.key = .normal e := by
  induction i with
  | zero =>
    intro hi fuel A cur hcur hend hres
    cases fuel with
    | zero => simp [containsFrom] at hres
    | succ f =>
      obtain ⟨st, e1, h1⟩ := containsLane_spec e cur hend
      unfold containsFrom at hres
      rw [e1] at hres
      cases st with
      | answer b =>
        simp only [Option.some.injEq] at hres
        subst hres
        obtain ⟨n, hn, hk⟩ := containsLane_true e cur e1
        exact ⟨n, by rw [hcur]; exact List.mem_append_right _ hn, hk⟩
      | down below =>
        cases below with
        | none => simp at hres
        | some b =>
          exfalso
          obtain ⟨c, hc, hb⟩ := h1 b rfl
          have := hinv.ground c (by rw [hcur]; exact List.mem_append_right _ hc)
          rw [this] at hb
          simp at hb
  | succ k ih =>
    intro hi fuel A cur hcur hend hres
    cases fuel with
    | zero => simp [containsFrom] at hres
    | succ f =>
      obtain ⟨st, e1, h1⟩ := containsLane_spec e cur hend
      unfold containsFrom at hres
      rw [e1] at hres
      cases st with
      | answer b =>
        simp only [Option.some.injEq] at hres
        subst hres
        obtain ⟨n, hn, hk⟩ := containsLane_true e cur e1
        have hn2 : n ∈ laneAt s.nodeList (0 + (k + 1)) := by
          rw [Nat.zero_add, hcur]; exact List.mem_append_right _ hn
        obtain ⟨m, hm, hmk⟩ := key_down s hinv 0 (k + 1) n (by omega) hn2
        exact ⟨m, hm, hmk.trans hk⟩
      | down below =>
        cases below with
        | none => simp at hres
        | some b =>
          obtain ⟨c, hc, hb⟩ := h1 b rfl
          have hc2 : c ∈ laneAt s.nodeList (k + 1) := by
            rw [hcur]; exact List.mem_append_right _ hc
          obtain ⟨m, hm, hb2, -⟩ := hinv.linked k hi c hc2
          obtain ⟨A2, B2, h2, h3⟩ := deref_node s hinv k m hm
          have hbm : b = m.addr := by
            rw [hb] at hb2
            simpa using hb2
          have hfr : Framed (laneAt s.nodeList k) := by
            rcases hinv.framed with h | h
            · omega
            · exact h k (by omega)
          have hend2 : EndsPos (m :: B2) := endsPos_suffix A2 (m :: B2) (h2 ▸ hfr.2) (by simp)
          simp only at hres
          rw [hbm, h3] at hres
          exact ih (by omega) f A2 (m :: B2) h2 (Or.inr hend2) hres

/-- When the element is a key of the ascending lane 0, the loop of `contains`,
started at a node with `key < element`, answers true. -/
theorem containsFrom_complete (e : α) (s : SkipListSet α) (hinv : Inv s)
    (hfr : ∀ i, i < s.lv → Framed (laneAt s.nodeList i))
    (hasc : Ascending (laneAt s.nodeList 0))
    (hmem : ∃ n ∈ laneAt s.nodeList 0, n.key = .normal e) (i : Nat) :
    i < s.lv → ∀ fuel, i + 1 ≤ fuel → ∀ A cur, laneAt s.nodeList i = A ++ cur →
      (∃ c0 rest, cur = c0 :: rest ∧ c0.key.ltElem e = true) →
      containsFrom e s.nodeList fuel cur = some true := by
  induction i with
  | zero =>
    intro hi fuel hfuel A cur hcur hhead
    obtain ⟨f, rfl⟩ : ∃ f, fuel = f + 1 := ⟨fuel - 1, by omega⟩
    have hne : cur ≠ [] := by
      obtain ⟨c0, rest, h, -⟩ := hhead
      rw [h]; simp
    have hend : EndsPos cur := endsPos_suffix A cur (hcur ▸ (hfr 0 hi).2) hne
    unfold containsFrom
    rcases containsLane_head e cur hend hhead with h | ⟨X, c, r, Y, e1, e2, e3, e4⟩
    · rw [h]
    · exfalso
      obtain ⟨n, hn, hk⟩ := hmem
      have hl : laneAt s.nodeList 0 = (A ++ X) ++ c :: r :: Y := by
        rw [hcur, e1, List.append_assoc]
      rw [hl] at hasc hn
      rw [SkipListKey.ltElem_eq_ltKey] at e3
      exact ascending_gap (A ++ X) Y c r (.normal e) hasc e3 e4 n hn hk
  | succ k ih =>
    intro hi fuel hfuel A cur hcur hhead
    obtain ⟨f, rfl⟩ : ∃ f, fuel = f + 1 := ⟨fuel - 1, by omega⟩
    have hne : cur ≠ [] := by
      obtain ⟨c0, rest, h, -⟩ := hhead
      rw [h]; simp
    have hend : EndsPos cur := endsPos_suffix A cur (hcur ▸ (hfr (k + 1) hi).2) hne
    unfold containsFrom
    rcases containsLane_head e cur hend hhead with h | ⟨X, c, r, Y, e1, e2, e3, e4⟩
    · rw [h]
    · rw [e2]
      have hc : c ∈ laneAt s.nodeList (k + 1) := by
        rw [hcur, e1]; simp
      obtain ⟨m, hm, hb, hkey⟩ := hinv.linked k hi c hc
      obtain ⟨A2, B2, h1, h2⟩ := deref_node s hinv k m hm
      rw [hb]
      simp only
      rw [h2]
      exact ih (by omega) f (by omega) A2 (m :: B2) h1 ⟨m, B2, rfl, by rw [hkey]; exact e3⟩

/-- Member `contains` returns, and answers whether the element is a key of
lane 0. -/
theorem contains_spec (e : α) (s : SkipListSet α) (hinv : Inv s)
    (hasc : Ascending (laneAt s.nodeList 0)) :
    contains s e = some (decide (e ∈ elements (laneAt s.nodeList 0))) := by
  have hpos := hinv.lv_pos
  have hrd := readSlot_written s hinv (s.lv - 1) (by omega)
  have hend : laneAt s.nodeList (s.lv - 1) = [] ∨ EndsPos (laneAt s.nodeList (s.lv - 1)) := by
    rcases hinv.framed with h | h
    · left
      have : s.lv - 1 = 0 := by omega
      rw [this]; exact h.1
    · right
      exact (h (s.lv - 1) (by omega)).2
  obtain ⟨b, hb⟩ := contains_total e s hinv
  rw [hb]
  cases b with
  | true =>
    have hres : containsFrom e s.nodeList s.lv (laneAt s.nodeList (s.lv - 1)) = some true := by
      unfold contains at hb
      rw [hrd] at hb
      exact hb
    have := containsFrom_sound e s hinv (s.lv - 1) (by omega) s.lv []
      (laneAt s.nodeList (s.lv - 1)) rfl hend hres
    rw [decide_eq_true ((mem_elements _ e).2 this)]
  | false =>
    have hn : e ∉ elements (laneAt s.nodeList 0) := by
      intro hmem
      have hm := (mem_elements _ e).1 hmem
      have hne : laneAt s.nodeList 0 ≠ [] := by
        obtain ⟨n, hn, -⟩ := hm
        intro h0; rw [h0] at hn; simp at hn
      have hfr := framed_lanes s hinv hne
      obtain ⟨⟨h, rest, eh, hk⟩, -⟩ := hfr (s.lv - 1) (by omega)
      have := containsFrom_complete e s hinv hfr hasc hm (s.lv - 1) (by omega) s.lv (by omega)
        [] (laneAt s.nodeList (s.lv - 1)) rfl ⟨h, rest, eh, by rw [hk]; rfl⟩
      unfold contains at hb
      rw [hrd] at hb
      have hb2 : containsFrom e s.nodeList s.lv (laneAt s.nodeList (s.lv - 1)) = some false := hb
      rw [this] at hb2
      simp at hb2
    rw [decide_eq_false hn]

end SkipListSet

namespace SkipListSet

variable {α : Type}

theorem insertAfter_append (n c : Node α) (P B : List (Node α))
    (h : c.addr ∉ P.map Node.addr) :
    insertAfter c.addr n (P ++ c :: B) = P ++ c :: n :: B := by
  induction P with
  | nil => simp [insertAfter]
  | cons d P ih =>
    simp only [List.map_cons, List.mem_cons, not_or] at h
    have hne : ¬ d.addr = c.addr := fun e => h.1 e.symm
    simp [insertAfter, hne, ih h.2]

/-- The lanes after the writes that put `n` behind the node `c` of lane `j`. -/
theorem laneAt_insert (s : SkipListSet α) (hinv : Inv s) (j : Nat) (n c : Node α)
    (P B : List (Node α)) (hl : laneAt s.nodeList j = P ++ c :: B) (i : Nat) :
    laneAt (s.nodeList.map (Slot.insertAfter c.addr n)) i =
      if i = j then P ++ c :: n :: B else laneAt s.nodeList i := by
  have hc : c ∈ laneAt s.nodeList j := by rw [hl]; simp
  rw [laneAt_map_insertAfter]
  by_cases hij : i = j
  · rw [if_pos hij, hij, hl]
    apply insertAfter_append
    have hnd := hinv.nodup j
    rw [hl, List.map_append, List.map_cons] at hnd
    intro hmem
    exact (List.nodup_append.1 hnd).2.2 hmem (List.mem_cons_self _ _)
  · rw [if_neg hij]
    apply insertAfter_of_not_mem
    intro hmem
    obtain ⟨x, hx, hxa⟩ := List.mem_map.1 hmem
    exact hij (hinv.apart i j x hx c hc hxa)

/-- What lines 550-567 leave in an entry that led to no node: nothing, or the
two sentinels of the new top lane. -/
theorem newLevel_lane_ge (L : Nat) (s s1 : SkipListSet α) (h : newLevel L s = some s1)
    (i : Nat) (hemp : laneAt s.nodeList i = []) :
    laneAt s1.nodeList i = [] ∨
      ∃ a b, laneAt s1.nodeList i = [a, b] ∧ a.key = .negInf ∧ b.key = .posInf := by
  unfold newLevel at h
  by_cases hgt : L > s.lv
  · rw [if_pos hgt] at h
    dsimp only at h
    obtain ⟨s2, hs2, h⟩ := Option.bind_eq_some.1 h
    have hl2 : laneAt s2.nodeList i = [] := by
      by_cases hg : 4 * s.capacity ≤ 5 * L
      · rw [if_pos hg] at hs2
        unfold resize at hs2
        dsimp only at hs2
        by_cases hle : L ≤ s.nodeList.length
        · rw [if_pos hle] at hs2
          simp only [Option.some.injEq] at hs2
          rw [← hs2]
          show laneAt (s.nodeList.take L ++ _) i = []
          rw [laneAt_resize _ _ _ _ hle]
          split
          · exact hemp
          · rfl
        · rw [if_neg hle] at hs2
          simp at hs2
      · rw [if_neg hg] at hs2
        simp only [Option.some.injEq] at hs2
        rw [← hs2]
        exact hemp
    obtain ⟨lower, -, h⟩ := Option.bind_eq_some.1 h
    cases hlast : lower.getLast? with
    | none => rw [hlast] at h; simp at h
    | some t =>
      rw [hlast] at h
      simp only at h
      unfold writeSlot at h
      by_cases hlt : s2.lv - 1 < s2.nodeList.length
      · have hlt2 : s2.lv - 1 < ({ s2 with fresh := s2.fresh + 2 } : SkipListSet α).nodeList.length :=
          hlt
        rw [if_pos hlt2] at h
        simp only [Option.some.injEq] at h
        rw [← h]
        show laneAt (s2.nodeList.set _ _) i = [] ∨ _
        rw [laneAt_set _ _ _ _ hlt]
        by_cases hi : i = s2.lv - 1
        · rw [if_pos hi]
          exact Or.inr ⟨_, _, rfl, rfl, rfl⟩
        · rw [if_neg hi]
          exact Or.inl hl2
      · have hlt2 : ¬ s2.lv - 1 <
            ({ s2 with fresh := s2.fresh + 2 } : SkipListSet α).nodeList.length := hlt
        rw [if_neg hlt2] at h
        simp at h
  · rw [if_neg hgt] at h
    simp only [Option.some.injEq] at h
    rw [← h]
    exact Or.inl hemp

theorem elements_insert (P B : List (Node α)) (c n : Node α) (e : α) (hn : n.key = .normal e) :
    (elements (P ++ c :: n :: B)).Perm (e :: elements (P ++ c :: B)) := by
  have h1 : elements (P ++ c :: n :: B) = elements (P ++ [c]) ++ e :: elements B := by
    unfold elements
    rw [show P ++ c :: n :: B = (P ++ [c]) ++ n :: B by simp, List.filterMap_append,
      List.filterMap_cons, hn]
  have h2 : elements (P ++ c :: B) = elements (P ++ [c]) ++ elements B := by
    unfold elements
    rw [show P ++ c :: B = (P ++ [c]) ++ B by simp, List.filterMap_append]
  rw [h1, h2]
  exact List.perm_middle

theorem laneAt_new (levelTester : List Bool) (i : Nat) :
    laneAt (new levelTester : SkipListSet α).nodeList i = [] := by
  show laneAt (List.replicate INITIAL_CAPACITY (Slot.ptr ([] : List (Node α)))) i = []
  unfold laneAt
  simp only [List.getD_eq_getElem?_getD, List.getElem?_replicate]
  split <;> rfl

end SkipListSet

namespace SkipListSet

variable {α : Type} [LinearOrder α]

/-- The walk to the right in an ascending lane stops at the node right before
the place of the element: the node has `key < element`, it has a successor,
and no node behind it has `key < element`. -/
theorem walk_adj (e : α) (cur : List (Node α)) (hasc : Ascending cur) (hend : EndsPos cur)
    (hhead : ∃ c0 rest, cur = c0 :: rest ∧ c0.key.ltElem e = true) :
    ∃ X c r Y, cur = X ++ c :: r :: Y ∧ walk e cur = some c ∧ c.key.ltElem e = true ∧
      ∀ y ∈ r :: Y, y.key.ltElem e = false := by
  induction cur with
  | nil =>
    obtain ⟨c0, rest, h, -⟩ := hhead
    simp at h
  | cons c rest ih =>
    obtain ⟨c0, rest0, h, hc0⟩ := hhead
    simp only [List.cons.injEq] at h
    obtain ⟨h1, h2⟩ := h
    subst h1; subst h2
    cases rest with
    | nil => exact absurd hend (not_endsPos_single c e hc0)
    | cons r more =>
      have hasc2 : Ascending (r :: more) := (List.pairwise_cons.1 hasc).2
      unfold walk
      rw [if_pos hc0]
      simp only
      by_cases hr : r.key.ltElem e = true
      · have hn : (!r.key.ltElem e) = false := by rw [hr]; rfl
        rw [hn, if_neg Bool.false_ne_true]
        obtain ⟨X, c1, r1, Y, e1, e2, e3, e4⟩ :=
          ih hasc2 (endsPos_suffix [c] (r :: more) hend (by simp)) ⟨r, more, rfl, hr⟩
        exact ⟨c :: X, c1, r1, Y, by rw [e1]; rfl, e2, e3, e4⟩
      · have hrf : r.key.ltElem e = false := by
          cases h : r.key.ltElem e with
          | false => rfl
          | true => exact absurd h hr
        have hn : (!r.key.ltElem e) = true := by rw [hrf]; rfl
        rw [hn, if_pos rfl]
        refine ⟨[], c, r, more, rfl, rfl, hc0, ?_⟩
        intro y hy
        rcases List.mem_cons.1 hy with h | h
        · rw [h]; exact hrf
        · cases hy2 : y.key.ltElem e with
          | false => rfl
          | true =>
            exfalso
            have h1 := (List.pairwise_cons.1 hasc2).1 y h
            rw [SkipListKey.ltElem_eq_ltKey] at hy2 hrf
            rw [SkipListKey.ltKey_trans h1 hy2] at hrf
            exact Bool.false_ne_true hrf.symm

theorem ascending_insert (P B : List (Node α)) (c n : Node α) (hasc : Ascending (P ++ c :: B))
    (h1 : c.key.ltKey n.key = true) (h2 : ∀ y ∈ B, n.key.ltKey y.key = true) :
    Ascending (P ++ c :: n :: B) := by
  unfold Ascending at hasc ⊢
  rw [List.pairwise_append, List.pairwise_cons] at hasc
  obtain ⟨hP, ⟨hc, hB⟩, hPc⟩ := hasc
  rw [List.pairwise_append, List.pairwise_cons, List.pairwise_cons]
  refine ⟨hP, ⟨?_, h2, hB⟩, ?_⟩
  · intro y hy
    rcases List.mem_cons.1 hy with h | h
    · rw [h]; exact h1
    · exact hc y h
  · intro x hx y hy
    rcases List.mem_cons.1 hy with h | h
    · rw [h]; exact hPc x hx c (List.mem_cons_self _ _)
    · rcases List.mem_cons.1 h with h | h
      · rw [h]
        exact SkipListKey.ltKey_trans (hPc x hx c (List.mem_cons_self _ _)) h1
      · exact hPc x hx y (List.mem_cons_of_mem _ h)

/-- The search of `add` ends at the node of lane 0 right before the place of
the element. -/
theorem search_adj (e : α) (s : SkipListSet α) (hinv : Inv s)
    (hfr : ∀ i, i < s.lv → Framed (laneAt s.nodeList i))
    (hasc : Ascending (laneAt s.nodeList 0)) (i : Nat) :
    i < s.lv → ∀ fuel, i + 1 ≤ fuel → ∀ A cur, laneAt s.nodeList i = A ++ cur →
      (∃ c0 rest, cur = c0 :: rest ∧ c0.key.ltElem e = true) →
      ∃ P c r Y, search e s.nodeList fuel cur = some c ∧
        laneAt s.nodeList 0 = P ++ c :: r :: Y ∧ c.key.ltElem e = true ∧
        ∀ y ∈ r :: Y, y.key.ltElem e = false := by
  induction i with
  | zero =>
    intro hi fuel hfuel A cur hcur hhead
    obtain ⟨f, rfl⟩ : ∃ f, fuel = f + 1 := ⟨fuel - 1, by omega⟩
    have hne : cur ≠ [] := by
      obtain ⟨c0, rest, h, -⟩ := hhead
      rw [h]; simp
    have hend : EndsPos cur := endsPos_suffix A cur (hcur ▸ (hfr 0 hi).2) hne
    have hasc2 : Ascending cur := by
      unfold Ascending at hasc ⊢
      rw [hcur] at hasc
      exact (List.pairwise_append.1 hasc).2.1
    obtain ⟨X, c, r, Y, e1, e2, e3, e4⟩ := walk_adj e cur hasc2 hend hhead
    have hc0 : c ∈ laneAt s.nodeList 0 := by rw [hcur, e1]; simp
    refine ⟨A ++ X, c, r, Y, ?_, by rw [hcur, e1, List.append_assoc], e3, e4⟩
    unfold search
    rw [e2]
    simp only
    rw [hinv.ground c hc0]
  | succ k ih =>
    intro hi fuel hfuel A cur hcur hhead
    obtain ⟨f, rfl⟩ : ∃ f, fuel = f + 1 := ⟨fuel - 1, by omega⟩
    have hne : cur ≠ [] := by
      obtain ⟨c0, rest, h, -⟩ := hhead
      rw [h]; simp
    have hend : EndsPos cur := endsPos_suffix A cur (hcur ▸ (hfr (k + 1) hi).2) hne
    obtain ⟨c, e1, m1, k1⟩ := walk_spec e cur hend hhead
    have hc : c ∈ laneAt s.nodeList (k + 1) := by rw [hcur]; exact List.mem_append_right _ m1
    obtain ⟨m, hm, hb, hkey⟩ := hinv.linked k hi c hc
    obtain ⟨A2, B2, h1, h2⟩ := deref_node s hinv k m hm
    obtain ⟨P, c2, r2, Y2, e2, e3, e4, e5⟩ := ih (by omega) f (by omega) A2 (m :: B2) h1
      ⟨m, B2, rfl, by rw [hkey]; exact k1⟩
    refine ⟨P, c2, r2, Y2, ?_, e3, e4, e5⟩
    unfold search
    rw [e1]
    simp only
    rw [hb]
    simp only
    rw [h2]
    exact e2

end SkipListSet

namespace SkipListSet

variable {α : Type} [LinearOrder α]

theorem ascending_sentinels (a b : Node α) (ha : a.key = .negInf) (hb : b.key = .posInf) :
    Ascending [a, b] := by
  unfold Ascending
  simp [ha, hb, SkipListKey.ltKey]

/-- The promotion loop of `add`, in a state with ascending lanes where the
lanes from `insertLevel` on do not hold the element yet: it returns, keeps the
lanes ascending and leaves lane 0 and `sz` as they are. -/
theorem promote_full (e : α) (tester : List Bool) :
    ∀ (L p : Nat) (s : SkipListSet α), Inv s →
      (∀ i, i < s.lv → Framed (laneAt s.nodeList i)) →
      (∀ i, Ascending (laneAt s.nodeList i)) → 1 ≤ L → L ≤ s.lv →
      (∃ q ∈ laneAt s.nodeList (L - 1), q.addr = p ∧ q.key = .normal e) →
      (∀ i, L ≤ i → ∀ y ∈ laneAt s.nodeList i, y.key ≠ .normal e) →
      ∃ s1, promote e tester L p s = some s1 ∧ Inv s1 ∧
        (∀ i, Ascending (laneAt s1.nodeList i)) ∧
        laneAt s1.nodeList 0 = laneAt s.nodeList 0 ∧ s1.sz = s.sz := by
  induction tester with
  | nil =>
    intro L p s hinv _ hasc _ _ _ _
    exact ⟨_, rfl, ⟨hinv.length_eq, hinv.lv_pos, hinv.load, hinv.written, hinv.above,
      hinv.framed, hinv.ground, hinv.linked, hinv.nodup, hinv.apart, hinv.below_fresh⟩,
      hasc, rfl, rfl⟩
  | cons b rest ih =>
    intro L p s hinv hfr hasc hL1 hL2 hq hnot
    cases b with
    | false =>
      exact ⟨_, rfl, ⟨hinv.length_eq, hinv.lv_pos, hinv.load, hinv.written, hinv.above,
        hinv.framed, hinv.ground, hinv.linked, hinv.nodup, hinv.apart, hinv.below_fresh⟩,
        hasc, rfl, rfl⟩
    | true =>
      obtain ⟨s1, e1, hinv1, hfr1, hL3, hsame, hsz1, -⟩ :=
        newLevel_spec s hinv hfr (L + 1) (by omega)
      have hge : ∀ i, s.lv ≤ i → laneAt s1.nodeList i = [] ∨
          ∃ a b, laneAt s1.nodeList i = [a, b] ∧ a.key = .negInf ∧ b.key = .posInf :=
        fun i hi => newLevel_lane_ge (L + 1) s s1 e1 i (hinv.above i hi)
      have hasc1 : ∀ i, Ascending (laneAt s1.nodeList i) := by
        intro i
        by_cases hi : i < s.lv
        · rw [hsame i hi]; exact hasc i
        · rcases hge i (by omega) with h | ⟨a, b, h, ha, hb⟩
          · rw [h]; exact List.Pairwise.nil
          · rw [h]; exact ascending_sentinels a b ha hb
      have hnot1 : ∀ i, L ≤ i → ∀ y ∈ laneAt s1.nodeList i, y.key ≠ .normal e := by
        intro i hi y hy
        by_cases hi2 : i < s.lv
        · rw [hsame i hi2] at hy; exact hnot i hi y hy
        · rcases hge i (by omega) with h | ⟨a, b, h, ha, hb⟩
          · rw [h] at hy; simp at hy
          · rw [h] at hy
            simp only [List.mem_cons, List.mem_singleton, List.not_mem_nil, or_false] at hy
            rcases hy with h2 | h2
            · rw [h2, ha]; simp
            · rw [h2, hb]; simp
      have hrd := readSlot_written s1 hinv1 L (by omega)
      obtain ⟨⟨h0, rest0, eh, hk0⟩, hend⟩ := hfr1 L (by omega)
      obtain ⟨X, c, r, Y, el, ec, hck, hB⟩ := walk_adj e (laneAt s1.nodeList L) (hasc1 L) hend
        ⟨h0, rest0, eh, by rw [hk0]; rfl⟩
      have hc : c ∈ laneAt s1.nodeList L := by rw [el]; simp
      obtain ⟨q, hq1, hq2, hq3⟩ := hq
      have hq1b : q ∈ laneAt s1.nodeList (L - 1) := by
        rw [hsame (L - 1) (by omega)]; exact hq1
      obtain ⟨k, hk⟩ : ∃ k, L = k + 1 := ⟨L - 1, by omega⟩
      have hins := inv_insert s1 hinv1 hfr1 L (by omega) c hc (ltElem_ne_posInf c e hck)
        ⟨s1.fresh, .normal e, some p⟩ rfl
        (Or.inr ⟨k, hk, q, by
          have : L - 1 = k := by omega
          rw [← this]; exact hq1b, by rw [hq2], hq3⟩)
      obtain ⟨hinv2, hfr2, hn2, -⟩ := hins
      have hl2 := laneAt_insert s1 hinv1 L ⟨s1.fresh, .normal e, some p⟩ c X (r :: Y) el
      have hasc2 : ∀ i, Ascending (laneAt (s1.nodeList.map
          (Slot.insertAfter c.addr ⟨s1.fresh, .normal e, some p⟩)) i) := by
        intro i
        rw [hl2 i]
        by_cases hi : i = L
        · rw [if_pos hi]
          apply ascending_insert X (r :: Y) c _ (el ▸ hasc1 L)
          · show c.key.ltKey (.normal e) = true
            rw [← SkipListKey.ltElem_eq_ltKey]; exact hck
          · intro y hy
            exact SkipListKey.ltKey_of_not_ltElem y.key e (hB y hy)
              (hnot1 L (Nat.le_refl L) y (by
                rw [el]; exact List.mem_append_right _ (List.mem_cons_of_mem _ hy)))
        · rw [if_neg hi]; exact hasc1 i
      obtain ⟨s3, e3, hinv3, hasc3, hl3, hsz3⟩ := ih (L + 1) s1.fresh
        { s1 with
          nodeList := s1.nodeList.map (Slot.insertAfter c.addr ⟨s1.fresh, .normal e, some p⟩),
          fresh := s1.fresh + 1 }
        hinv2 hfr2 hasc2 (by omega) hL3
        ⟨⟨s1.fresh, .normal e, some p⟩, by simpa using hn2, rfl, rfl⟩
        (by
          intro i hi y hy
          have hy2 : y ∈ laneAt (s1.nodeList.map
              (Slot.insertAfter c.addr ⟨s1.fresh, .normal e, some p⟩)) i := hy
          rw [hl2 i, if_neg (by omega)] at hy2
          exact hnot1 i (by omega) y hy2)
      refine ⟨s3, ?_, hinv3, hasc3, ?_, ?_⟩
      · unfold promote
        rw [e1]
        simp only [Option.bind, Nat.add_sub_cancel]
        rw [hrd]
        simp only
        rw [ec]
        exact e3
      · rw [hl3]
        show laneAt (s1.nodeList.map _) 0 = _
        rw [hl2 0, if_neg (by omega)]
        exact hsame 0 (by have := hinv.lv_pos; omega)
      · rw [hsz3]
        exact hsz1

end SkipListSet

namespace SkipListSet

variable {α : Type} [LinearOrder α]

/-- One call of `add` on a well-formed state with ascending lanes: it returns
such a state, the same state when the element is a key of lane 0, and
otherwise a state with the element as one more key of lane 0 and `sz` raised
by one. -/
theorem add_full (e : α) (s : SkipListSet α) (hinv : Inv s)
    (hasc : ∀ i, Ascending (laneAt s.nodeList i)) :
    ∃ s1, add e s = some s1 ∧ Inv s1 ∧ (∀ i, Ascending (laneAt s1.nodeList i)) ∧
      (e ∈ elements (laneAt s.nodeList 0) → s1 = s) ∧
      (e ∉ elements (laneAt s.nodeList 0) →
        s1.sz = s.sz + 1 ∧
          (elements (laneAt s1.nodeList 0)).Perm (e :: elements (laneAt s.nodeList 0))) := by
  have hpos := hinv.lv_pos
  cases h0 : laneAt s.nodeList 0 with
  | nil =>
    obtain ⟨s1, e1, hinv1⟩ := inv_first e s hinv h0
    have hadd : add e s = some s1 := by
      unfold add
      rw [readSlot_written s hinv 0 (by omega), h0]
      exact e1
    have hlv : s.lv = 1 := by
      rcases hinv.framed with h | h
      · exact h.2
      · have := (h 0 (by omega)).1
        rw [h0] at this
        obtain ⟨_, _, e2, _⟩ := this
        simp at e2
    have hlen : 0 < s.nodeList.length := by
      have := hinv.length_eq
      have := hinv.load
      omega
    unfold writeSlot at e1
    have hlen2 : 0 < ({ s with sz := s.sz + 1, fresh := s.fresh + 3 } : SkipListSet α).nodeList.length :=
      hlen
    rw [if_pos hlen2] at e1
    simp only [Option.some.injEq] at e1
    have hl : ∀ i, laneAt s1.nodeList i =
        if i = 0 then [⟨s.fresh, .negInf, none⟩, ⟨s.fresh + 1, .normal e, none⟩,
          ⟨s.fresh + 2, .posInf, none⟩] else [] := by
      intro i
      rw [← e1]
      show laneAt (s.nodeList.set _ _) i = _
      rw [laneAt_set _ _ _ _ hlen]
      by_cases hi : i = 0
      · rw [if_pos hi, if_pos hi]
      · rw [if_neg hi, if_neg hi]
        exact hinv.above i (by omega)
    refine ⟨s1, hadd, hinv1, ?_, ?_, ?_⟩
    · intro i
      rw [hl i]
      by_cases hi : i = 0
      · rw [if_pos hi]
        unfold Ascending
        simp [SkipListKey.ltKey]
      · rw [if_neg hi]; exact List.Pairwise.nil
    · intro hmem
      simp [elements] at hmem
    · intro _
      refine ⟨by rw [← e1], ?_⟩
      rw [hl 0, if_pos rfl]
      simp [elements]
  | cons c0 rest0 =>
    have hne : laneAt s.nodeList 0 ≠ [] := by rw [h0]; simp
    have hfr := framed_lanes s hinv hne
    have hcon := contains_spec e s hinv (hasc 0)
    rw [← h0]
    have hstep : add e s = (contains s e).bind fun found =>
        if !found then
          (readSlot (s.lv - 1) s).bind fun top =>
            (search e s.nodeList s.lv top).bind fun current =>
              (promote e s.levelTester 1 s.fresh
                { s with
                  nodeList := s.nodeList.map
                    (Slot.insertAfter current.addr ⟨s.fresh, .normal e, none⟩),
                  fresh := s.fresh + 1 }).map fun s2 => { s2 with sz := s2.sz + 1 }
        else some s := by
      unfold add
      rw [readSlot_written s hinv 0 (by omega), h0]
    rw [hstep, hcon]
    by_cases hmem : e ∈ elements (laneAt s.nodeList 0)
    · rw [decide_eq_true hmem]
      exact ⟨s, rfl, hinv, hasc, fun _ => rfl, fun h => absurd hmem h⟩
    · rw [decide_eq_false hmem]
      simp only [Option.bind, Bool.not_false, if_true]
      rw [readSlot_written s hinv (s.lv - 1) (by omega)]
      simp only
      obtain ⟨⟨h, rest, eh, hk⟩, -⟩ := hfr (s.lv - 1) (by omega)
      obtain ⟨P, c, r, Y, ec, el, hck, hB⟩ := search_adj e s hinv hfr (hasc 0) (s.lv - 1)
        (by omega) s.lv (by omega) [] (laneAt s.nodeList (s.lv - 1)) rfl
        ⟨h, rest, eh, by rw [hk]; rfl⟩
      rw [ec]
      simp only
      have hc : c ∈ laneAt s.nodeList 0 := by rw [el]; simp
      obtain ⟨hinv1, hfr1, hn1, -⟩ := inv_insert s hinv hfr 0 (by omega) c hc
        (ltElem_ne_posInf c e hck) ⟨s.fresh, .normal e, none⟩ rfl (Or.inl ⟨rfl, rfl⟩)
      have hl1 := laneAt_insert s hinv 0 ⟨s.fresh, .normal e, none⟩ c P (r :: Y) el
      have hnokey : ∀ i, ∀ y ∈ laneAt s.nodeList i, y.key ≠ .normal e := by
        intro i y hy hyk
        by_cases hi : i < s.lv
        · have hy2 : y ∈ laneAt s.nodeList (0 + i) := by rw [Nat.zero_add]; exact hy
          obtain ⟨m, hm, hmk⟩ := key_down s hinv 0 i y (by omega) hy2
          exact hmem ((mem_elements _ e).2 ⟨m, hm, hmk.trans hyk⟩)
        · rw [hinv.above i (by omega)] at hy
          simp at hy
      have hasc1 : ∀ i, Ascending (laneAt (s.nodeList.map
          (Slot.insertAfter c.addr ⟨s.fresh, .normal e, none⟩)) i) := by
        intro i
        rw [hl1 i]
        by_cases hi : i = 0
        · rw [if_pos hi]
          apply ascending_insert P (r :: Y) c _ (el ▸ hasc 0)
          · show c.key.ltKey (.normal e) = true
            rw [← SkipListKey.ltElem_eq_ltKey]; exact hck
          · intro y hy
            exact SkipListKey.ltKey_of_not_ltElem y.key e (hB y hy)
              (hnokey 0 y (by
                rw [el]; exact List.mem_append_right _ (List.mem_cons_of_mem _ hy)))
        · rw [if_neg hi]; exact hasc i
      obtain ⟨s2, e2, hinv2, hasc2, hl2, hsz2⟩ := promote_full e s.levelTester 1 s.fresh
        { s with
          nodeList := s.nodeList.map (Slot.insertAfter c.addr ⟨s.fresh, .normal e, none⟩),
          fresh := s.fresh + 1 }
        hinv1 hfr1 hasc1 (Nat.le_refl 1) hpos
        ⟨⟨s.fresh, .normal e, none⟩, by simpa using hn1, rfl, rfl⟩
        (by
          intro i hi y hy
          have hy2 : y ∈ laneAt (s.nodeList.map
              (Slot.insertAfter c.addr ⟨s.fresh, .normal e, none⟩)) i := hy
          rw [hl1 i, if_neg (by omega)] at hy2
          exact hnokey i y hy2)
      rw [e2]
      refine ⟨_, rfl, ⟨hinv2.length_eq, hinv2.lv_pos, hinv2.load, hinv2.written, hinv2.above,
        hinv2.framed, hinv2.ground, hinv2.linked, hinv2.nodup, hinv2.apart, hinv2.below_fresh⟩,
        hasc2, fun h => absurd h hmem, fun _ => ⟨?_, ?_⟩⟩
      · show s2.sz + 1 = s.sz + 1
        rw [hsz2]
      · show (elements (laneAt s2.nodeList 0)).Perm _
        rw [hl2]
        show (elements (laneAt (s.nodeList.map _) 0)).Perm _
        rw [hl1 0, if_pos rfl, el]
        exact elements_insert P (r :: Y) c _ e rfl

end SkipListSet

namespace SkipListSet

variable {α : Type} [LinearOrder α]

theorem reach_new (levelTester : List Bool) : Reach (new levelTester : SkipListSet α) := by
  refine ⟨inv_new levelTester, ?_, ?_, ?_⟩
  · intro i; rw [laneAt_new]; exact List.Pairwise.nil
  · rw [laneAt_new]; rfl
  · rw [laneAt_new]; exact List.nodup_nil

theorem reach_add (e : α) (s : SkipListSet α) (hr : Reach s) :
    ∃ s1, add e s = some s1 ∧ Reach s1 ∧
      (e ∈ elements (laneAt s.nodeList 0) → s1 = s) ∧
      (e ∉ elements (laneAt s.nodeList 0) → s1.sz = s.sz + 1) ∧
      ∀ x, x ∈ elements (laneAt s1.nodeList 0) ↔ x = e ∨ x ∈ elements (laneAt s.nodeList 0) := by
  obtain ⟨s1, e1, hinv1, hasc1, hin, hout⟩ := add_full e s hr.inv hr.ascending
  by_cases hmem : e ∈ elements (laneAt s.nodeList 0)
  · have := hin hmem
    subst this
    refine ⟨s1, e1, hr, fun _ => rfl, fun h => absurd hmem h, fun x => ?_⟩
    constructor
    · exact fun h => Or.inr h
    · rintro (h | h)
      · rw [h]; exact hmem
      · exact h
  · obtain ⟨hsz, hperm⟩ := hout hmem
    refine ⟨s1, e1, ⟨hinv1, hasc1, ?_, ?_⟩, fun h => absurd h hmem, fun _ => hsz, fun x => ?_⟩
    · rw [hsz, hperm.length_eq, hr.counted]; rfl
    · rw [hperm.nodup_iff]
      exact List.nodup_cons.2 ⟨hmem, hr.distinct⟩
    · rw [hperm.mem_iff, List.mem_cons]

theorem reach_addAll (xs : List α) (s : SkipListSet α) (hr : Reach s) :
    ∃ s1, addAll xs s = some s1 ∧ Reach s1 ∧
      ∀ x, x ∈ elements (laneAt s1.nodeList 0) ↔ x ∈ xs ∨ x ∈ elements (laneAt s.nodeList 0) := by
  induction xs generalizing s with
  | nil => exact ⟨s, rfl, hr, fun x => by simp⟩
  | cons y ys ih =>
    obtain ⟨s1, e1, hr1, -, -, hm1⟩ := reach_add y s hr
    obtain ⟨s2, e2, hr2, hm2⟩ := ih s1 hr1
    refine ⟨s2, by simp [addAll, e1, e2], hr2, fun x => ?_⟩
    rw [hm2 x, hm1 x, List.mem_cons]
    constructor
    · rintro (h | h | h)
      · exact Or.inl (Or.inr h)
      · exact Or.inl (Or.inl h)
      · exact Or.inr h
    · rintro ((h | h) | h)
      · exact Or.inr (Or.inl h)
      · exact Or.inl h
      · exact Or.inr (Or.inr h)

/-- Every run of `add` calls on a new SkipListSet returns; lane 0 of the
state it leaves holds the elements of the run. -/
theorem addAll_new_reach (levelTester : List Bool) (xs : List α) :
    ∃ s, addAll xs (new levelTester) = some s ∧ Reach s ∧
      ∀ x, x ∈ elements (laneAt s.nodeList 0) ↔ x ∈ xs := by
  obtain ⟨s, e1, hr, hm⟩ := reach_addAll xs (new levelTester) (reach_new levelTester)
  refine ⟨s, e1, hr, fun x => ?_⟩
  rw [hm x]
  rw [laneAt_new]
  simp [elements]

end SkipListSet

namespace SkipListSet

variable {α : Type} [LinearOrder α]

/-- A level tester that only answers no ends the promotion loop at once. -/
theorem promote_no (e : α) (tester : List Bool) (h : ∀ b ∈ tester, b = false) (L p : Nat)
    (s : SkipListSet α) : promote e tester L p s = some { s with levelTester := tester.tail } := by
  cases tester with
  | nil => rfl
  | cons b rest =>
    have hb := h b (List.mem_cons_self _ _)
    subst hb
    rfl

theorem add_no (e : α) (s s1 : SkipListSet α) (h : ∀ b ∈ s.levelTester, b = false)
    (hadd : add e s = some s1) : s1.lv = s.lv ∧ ∀ b ∈ s1.levelTester, b = false := by
  unfold add at hadd
  split at hadd
  · simp at hadd
  · unfold writeSlot at hadd
    split at hadd
    · simp only [Option.some.injEq] at hadd
      rw [← hadd]
      exact ⟨rfl, h⟩
    · simp at hadd
  · obtain ⟨found, -, hadd⟩ := Option.bind_eq_some.1 hadd
    cases found with
    | true =>
      simp only [Bool.not_true, Bool.false_eq_true, if_false, Option.some.injEq] at hadd
      rw [← hadd]
      exact ⟨rfl, h⟩
    | false =>
      simp only [Bool.not_false, if_true] at hadd
      obtain ⟨top, -, hadd⟩ := Option.bind_eq_some.1 hadd
      obtain ⟨current, -, hadd⟩ := Option.bind_eq_some.1 hadd
      rw [promote_no e s.levelTester h] at hadd
      simp only [Option.map, Option.some.injEq] at hadd
      rw [← hadd]
      exact ⟨rfl, fun b hb => h b (List.mem_of_mem_tail hb)⟩

theorem addAll_no (xs : List α) (s s1 : SkipListSet α) (h : ∀ b ∈ s.levelTester, b = false)
    (hadd : addAll xs s = some s1) : s1.lv = s.lv := by
  induction xs generalizing s with
  | nil =>
    simp only [addAll, Option.some.injEq] at hadd
    rw [hadd]
  | cons x xs ih =>
    unfold addAll at hadd
    obtain ⟨s2, h2, hadd⟩ := Option.bind_eq_some.1 hadd
    obtain ⟨hlv, ht⟩ := add_no x s s2 h h2
    rw [ih s2 ht hadd, hlv]

/-- In an ascending lane of normal keys the keys are those of the elements of
the lane, and the elements are strictly ascending. -/
theorem ascending_normal (mid : List (Node α)) (hall : ∀ m ∈ mid, ∃ a, m.key = .normal a)
    (hasc : Ascending mid) :
    mid.map Node.key = (elements mid).map SkipListKey.normal ∧
      (elements mid).Sorted (· < ·) := by
  induction mid with
  | nil => exact ⟨rfl, List.sorted_nil⟩
  | cons m rest ih =>
    obtain ⟨a, ha⟩ := hall m (List.mem_cons_self _ _)
    obtain ⟨h1, h2⟩ := ih (fun x hx => hall x (List.mem_cons_of_mem _ hx))
      (List.pairwise_cons.1 hasc).2
    have he : elements (m :: rest) = a :: elements rest := by
      unfold elements
      rw [List.filterMap_cons, ha]
    rw [he]
    refine ⟨by rw [List.map_cons, List.map_cons, ha, h1], List.sorted_cons.2 ⟨?_, h2⟩⟩
    intro b hb
    obtain ⟨n, hn, hnk⟩ := (mem_elements rest b).1 hb
    have := (List.pairwise_cons.1 hasc).1 n hn
    rw [ha, hnk] at this
    simpa [SkipListKey.ltKey] using this

/-- The keys of a lane with its two sentinels whose keys ascend. -/
theorem framed_ascending_keys (lane : List (Node α)) (hfr : Framed lane) (hasc : Ascending lane) :
    ∃ es : List α, lane.map Node.key = .negInf :: es.map SkipListKey.normal ++ [.posInf] ∧
      es.Sorted (· < ·) := by
  obtain ⟨⟨h, rest, eh, hk⟩, ⟨front, t, et, htk⟩⟩ := hfr
  have hrest : rest ≠ [] := by
    rintro rfl
    rw [eh] at et
    have hlen := congrArg List.length et
    simp only [List.length_singleton, List.length_append] at hlen
    have hf : front = [] := List.length_eq_zero.1 (by omega)
    subst hf
    simp only [List.nil_append, List.cons.injEq, and_true] at et
    rw [et, htk] at hk
    simp at hk
  obtain ⟨mid, t2, hmt⟩ : ∃ mid t2, rest = mid ++ [t2] :=
    ⟨rest.dropLast, rest.getLast hrest, (List.dropLast_append_getLast hrest).symm⟩
  have ht2 : t2 = t := by
    rw [eh, hmt, ← List.cons_append] at et
    have := List.append_inj_right' et rfl
    simpa using this
  subst ht2
  have hl : lane = h :: (mid ++ [t2]) := by rw [eh, hmt]
  rw [hl] at hasc
  unfold Ascending at hasc
  rw [List.pairwise_cons, List.pairwise_append] at hasc
  obtain ⟨hh, hmid, -, hmt2⟩ := hasc
  have hall : ∀ m ∈ mid, ∃ a, m.key = .normal a := by
    intro m hm
    have h1 := hh m (List.mem_append_left _ hm)
    have h2 := hmt2 m hm t2 (List.mem_singleton_self _)
    rw [hk] at h1
    rw [htk] at h2
    cases hmk : m.key with
    | normal a => exact ⟨a, rfl⟩
    | negInf => rw [hmk] at h1; simp [SkipListKey.ltKey] at h1
    | posInf => rw [hmk] at h2; simp [SkipListKey.ltKey] at h2
  obtain ⟨h1, h2⟩ := ascending_normal mid hall hmid
  refine ⟨elements mid, ?_, h2⟩
  rw [hl, List.map_cons, List.map_append, h1, hk, List.map_singleton, htk]
  rfl

end SkipListSet

/-! ## The claims on SkipListSet, continued -/

namespace SkipListKey

variable {α : Type} [LinearOrder α]

/-- C27: `operator<` on keys is the sentinel order: `negInf < k` for every
key `k` but `negInf`, `posInf < k` for no key, `k < posInf` for every key `k`
but `posInf`, and `normal(a) < normal(b)` exactly when `a < b`. -/
theorem skiplistkey_lt_sentinel_order (k : SkipListKey α) (a b : α) :
    (negInf.ltKey k = true ↔ k ≠ negInf) ∧ posInf.ltKey k = false ∧
      (k.ltKey posInf = true ↔ k ≠ posInf) ∧
      ((normal a).ltKey (normal b) = true ↔ a < b) := by
  cases k <;> simp [ltKey]

end SkipListKey

namespace SkipListSet

variable {α : Type} [LinearOrder α]

/-- C21: for every level tester and every run of `add` calls on a new
SkipListSet the run returns, and in the state it leaves `contains(x)` returns
true exactly when `x` is one of the values of the run, false otherwise. -/
theorem skiplist_contains_iff_added (levelTester : List Bool) (xs : List α) (x : α) :
    ∃ s, addAll xs (new levelTester) = some s ∧ contains s x = some (decide (x ∈ xs)) := by
  obtain ⟨s, e1, hr, hm⟩ := addAll_new_reach levelTester xs
  refine ⟨s, e1, ?_⟩
  rw [contains_spec x s hr.inv (hr.ascending 0)]
  congr 1
  exact decide_eq_decide.2 (hm x)

/-- C22: for every level tester, after any run of `add` calls on a new
SkipListSet `size()` is the number of distinct values of the run; one more
`add` returns and leaves `size()` unchanged when the value was added before,
and raises it by one otherwise. -/
theorem skiplist_size_counts_distinct (levelTester : List Bool) (xs : List α) (x : α) :
    ∃ s, addAll xs (new levelTester) = some s ∧ size s = xs.dedup.length ∧
      ∃ s1, add x s = some s1 ∧ size s1 = if x ∈ xs then size s else size s + 1 := by
  obtain ⟨s, e1, hr, hm⟩ := addAll_new_reach levelTester xs
  refine ⟨s, e1, ?_, ?_⟩
  · show s.sz = _
    rw [hr.counted]
    apply List.Perm.length_eq
    exact (List.perm_ext_iff_of_nodup hr.distinct (List.nodup_dedup xs)).2
      (fun y => (hm y).trans List.mem_dedup.symm)
  · obtain ⟨s1, e2, -, hin, hout, -⟩ := reach_add x s hr
    refine ⟨s1, e2, ?_⟩
    by_cases hx : x ∈ xs
    · rw [if_pos hx, hin ((hm x).2 hx)]
    · rw [if_neg hx]
      exact hout (fun h => hx ((hm x).1 h))

/-- C23: with a level tester that answers no every time it is asked (`n`
times, or more often), every run of `add` calls on a new SkipListSet returns
and leaves `levelCount()` at 1 and `elementsOnLevel(L)` at 0 for every
`L ≥ 1`. -/
theorem skiplist_never_promoting_one_lane (n : Nat) (xs : List α) :
    ∃ s, addAll xs (new (List.replicate n false)) = some s ∧ levelCount s = 1 ∧
      ∀ L, 1 ≤ L → elementsOnLevel s L = some 0 := by
  obtain ⟨s, e1, -⟩ := addAll_inv xs (new (List.replicate n false)) (inv_new _)
  have hlv : s.lv = 1 :=
    addAll_no xs (new (List.replicate n false)) s
      (fun b hb => (List.mem_replicate.1 hb).2) e1
  refine ⟨s, e1, hlv, fun L hL => ?_⟩
  unfold elementsOnLevel
  rw [if_pos (by rw [hlv]; exact hL)]

/-- C24, at the failing input: the first `add` on a new SkipListSet whose
level tester would answer yes once and then no. The tester is not asked (its
two answers are still to come), the value is on no level above 0 and
`levelCount()` stays 1, where the claim has the value on levels 0 and 1 and
`levelCount()` 2. -/
theorem skiplist_first_add_not_promoted :
    (add (5 : Nat) (new [true, false])).map
        (fun s => (levelCount s, isElementOnLevel s 5 0, isElementOnLevel s 5 1, s.levelTester)) =
      some (1, some true, some false, [true, false]) := by
  decide!

/-- C25: on a SkipListSet `s` reached by `add` calls, `add(e)` of a value with
`contains(e)` true returns the very same state: same lanes, same `sz` and
`lv`, and the level tester has all its answers left. -/
theorem skiplist_add_present_is_noop (levelTester : List Bool) (xs : List α)
    (s : SkipListSet α) (e : α) (hr : addAll xs (new levelTester) = some s)
    (hc : contains s e = some true) : add e s = some s := by
  obtain ⟨s0, e0, hr0, -⟩ := addAll_new_reach levelTester xs
  rw [hr] at e0
  simp only [Option.some.injEq] at e0
  subst e0
  rw [contains_spec e s hr0.inv (hr0.ascending 0)] at hc
  simp only [Option.some.injEq, decide_eq_true_eq] at hc
  obtain ⟨s1, e1, -, -, hin, -⟩ := add_full e s hr0.inv hr0.ascending
  rw [e1, hin hc]

/-- Witness for C25: after `add(2)`, `add(1)` with a level tester that answers
yes once, the call `add(1)` changes nothing. -/
theorem skiplist_add_present_is_noop_witness :
    add (1 : Nat)
        ⟨[], [.ptr [⟨0, .negInf, none⟩, ⟨3, .normal 1, none⟩, ⟨1, .normal 2, none⟩,
                ⟨2, .posInf, none⟩],
              .ptr [⟨4, .negInf, some 0⟩, ⟨6, .normal 1, some 3⟩, ⟨5, .posInf, some 2⟩]] ++
            List.replicate 8 (.ptr []), 2, 2, 10, 7⟩ =
      some ⟨[], [.ptr [⟨0, .negInf, none⟩, ⟨3, .normal 1, none⟩, ⟨1, .normal 2, none⟩,
                ⟨2, .posInf, none⟩],
              .ptr [⟨4, .negInf, some 0⟩, ⟨6, .normal 1, some 3⟩, ⟨5, .posInf, some 2⟩]] ++
            List.replicate 8 (.ptr []), 2, 2, 10, 7⟩ :=
  skiplist_add_present_is_noop [true] [2, 1] _ 1 (by decide!) (by decide!)

/-- C26: on a SkipListSet reached by `add` calls, for a level
`L ≥ levelCount()`, `elementsOnLevel(L)` returns 0 and
`isElementOnLevel(e, L)` returns false. -/
theorem skiplist_level_out_of_range (levelTester : List Bool) (xs : List α)
    (s : SkipListSet α) (e : α) (L : Nat) (_hr : addAll xs (new levelTester) = some s)
    (hL : levelCount s ≤ L) :
    elementsOnLevel s L = some 0 ∧ isElementOnLevel s e L = some false := by
  unfold elementsOnLevel isElementOnLevel
  have h : L ≥ s.lv := hL
  rw [if_pos h, if_pos h]
  exact ⟨rfl, rfl⟩

/-- Witness for C26: after `add(2)`, `add(1)` with a level tester that answers
yes once there are two levels; level 2 is out of range. -/
theorem skiplist_level_out_of_range_witness :
    elementsOnLevel
        (⟨[], [.ptr [⟨0, .negInf, none⟩, ⟨3, .normal 1, none⟩, ⟨1, .normal 2, none⟩,
                ⟨2, .posInf, none⟩],
              .ptr [⟨4, .negInf, some 0⟩, ⟨6, .normal 1, some 3⟩, ⟨5, .posInf, some 2⟩]] ++
            List.replicate 8 (.ptr []), 2, 2, 10, 7⟩ : SkipListSet Nat) 2 = some 0 ∧
      isElementOnLevel
        (⟨[], [.ptr [⟨0, .negInf, none⟩, ⟨3, .normal 1, none⟩, ⟨1, .normal 2, none⟩,
                ⟨2, .posInf, none⟩],
              .ptr [⟨4, .negInf, some 0⟩, ⟨6, .normal 1, some 3⟩, ⟨5, .posInf, some 2⟩]] ++
            List.replicate 8 (.ptr []), 2, 2, 10, 7⟩ : SkipListSet Nat) 1 2 = some false :=
  skiplist_level_out_of_range [true] [2, 1] _ 1 2 (by decide!) (by decide!)

/-- C28: after a run of at least one `add` call on a new SkipListSet, for
every level tester, every level `L < levelCount()` has a lane whose keys are
a negative-infinity sentinel, then normal keys in strictly ascending order of
their elements, then a positive-infinity sentinel. -/
theorem skiplist_lanes_framed_ascending (levelTester : List Bool) (x : α) (xs : List α) :
    ∃ s, addAll (x :: xs) (new levelTester) = some s ∧
      ∀ L, L < levelCount s → ∃ (lane : List (Node α)) (es : List α), readSlot L s = some lane ∧
        lane.map Node.key = .negInf :: es.map SkipListKey.normal ++ [.posInf] ∧
        es.Sorted (· < ·) := by
  obtain ⟨s, e1, hr, hm⟩ := addAll_new_reach levelTester (x :: xs)
  refine ⟨s, e1, fun L hL => ?_⟩
  have hne : laneAt s.nodeList 0 ≠ [] := by
    intro h0
    have := (hm x).2 (List.mem_cons_self _ _)
    rw [h0] at this
    simp [elements] at this
  obtain ⟨es, h1, h2⟩ := framed_ascending_keys _ (framed_lanes s hr.inv hne L hL) (hr.ascending L)
  exact ⟨laneAt s.nodeList L, es, readSlot_written s hr.inv L hL, h1, h2⟩

/-- C29, at the failing input: `add(1)`, `add(2)` on a SkipListSet whose level
tester answers yes once, then the move constructor. The set moved from has no
element left (`contains` is false for 1 and 2), yet its `size()` is still 2
and its `levelCount()` still 2, where the claim has 0 and 1: the member
initialisers `sz{s.sz}, lv{s.lv}` hand the old counters back to it. -/
theorem skiplist_moved_from_keeps_counters :
    (addAll [1, 2] (new [true] : SkipListSet Nat)).map
        (fun s => (size (moveConstruct [] s).2, levelCount (moveConstruct [] s).2,
          contains (moveConstruct [] s).2 1, contains (moveConstruct [] s).2 2,
          size (moveConstruct [] s).1, levelCount (moveConstruct [] s).1)) =
      some (2, 2, some false, some false, 2, 2) := by
  decide!

end SkipListSet

/-! ## The claims on AVLSet, continued -/

namespace AVLSet

variable {α : Type} [LinearOrder α]

/-- C30 as stated fails: `a = std::move(b)` with `a` holding 1 and `b` holding
2 leaves `b` with `size()` 1, `height()` 0 and `contains(1)` true. -/
theorem avl_move_assign_source_not_empty :
    ((addAll [1] (empty true : AVLSet Nat)).bind fun a =>
      (addAll [2] (empty true : AVLSet Nat)).map fun b =>
        (size (moveAssign a b).2, height (moveAssign a b).2, contains (moveAssign a b).2 1)) =
      some (1, 0, true) := by
  decide!

/-- C30, amended: the move assignment `a = std::move(b)` exchanges the two
sets. `a` has the tree, `size()`, `height()`, balancing mode and `contains`
of the former `b`, `b` has those of the former `a`; when `a` was newly
constructed, `b` is left with `size()` 0, `height()` -1 and `contains(x)`
false. -/
theorem avl_move_assign_exchanges (a b : AVLSet α) (x : α) (shouldBalance : Bool) :
    ((moveAssign a b).1.start = b.start ∧ size (moveAssign a b).1 = size b ∧
        height (moveAssign a b).1 = height b ∧ (moveAssign a b).1.balance = b.balance ∧
        contains (moveAssign a b).1 x = contains b x) ∧
      ((moveAssign a b).2.start = a.start ∧ size (moveAssign a b).2 = size a ∧
        height (moveAssign a b).2 = height a ∧ (moveAssign a b).2.balance = a.balance ∧
        contains (moveAssign a b).2 x = contains a x) ∧
      (size (moveAssign (empty shouldBalance) b).2 = 0 ∧
        height (moveAssign (empty shouldBalance) b).2 = -1 ∧
        contains (moveAssign (empty shouldBalance) b).2 x = false) := by
  refine ⟨⟨rfl, rfl, rfl, rfl, rfl⟩, ⟨rfl, rfl, rfl, rfl, rfl⟩, rfl, rfl, ?_⟩
  simp [moveAssign, contains, empty, containValue]

end AVLSet

/-! ## The claims on AVLSet: copies and cached heights -/

namespace AVLSet

variable {α : Type} [LinearOrder α]

theorem copy_eq_addAll (n : Node α) (s : AVLSet α) : copy n s = addAll (preorderVisit n) s := by
  induction n generalizing s with
  | nullptr => rfl
  | node a v k l r ihl ihr =>
    simp only [copy, preorderVisit, addAll]
    cases h : add v s with
    | none => rfl
    | some s1 =>
      simp only [Option.bind]
      rw [addAll_append, ihl s1]
      cases addAll (preorderVisit l) s1 with
      | none => rfl
      | some s2 => exact ihr s2

/-- The copy of the tree `n` into an empty object: it returns a well-formed
state with the values of the tree. -/
theorem copy_into_empty (n : Node α) (b : Bool) (f : Nat) :
    ∃ t, copy n ⟨.nullptr, none, b, 0, f⟩ = some t ∧ WF t ∧ t.balance = b ∧
      ∀ y, y ∈ inorderVisit t.start ↔ y ∈ inorderVisit n := by
  have hw : WF (⟨.nullptr, none, b, 0, f⟩ : AVLSet α) := by
    simp [WF, inorderVisit, addrs, LeafLow]
  obtain ⟨t, e, hwt, hb, hm⟩ := addAll_spec (preorderVisit n) _ hw
  refine ⟨t, by rw [copy_eq_addAll]; exact e, hwt, hb, fun y => ?_⟩
  rw [hm y, (preorderVisit_perm n).mem_iff]
  simp [inorderVisit]

/-- C35: for an AVLSet `s` reached by `add` calls the copy constructor
returns a set `t` with the balancing mode and the `size()` of `s`, with
`contains(x)` as in `s` for every `x`, and with the inorder sequence of `s`.
(`s` is an argument that is only read.) -/
theorem avl_copy_construct_same_set (b : Bool) (xs : List α) :
    ∃ s t, addAll xs (empty b) = some s ∧ copyConstruct s = some t ∧
      t.balance = s.balance ∧ size t = size s ∧ (∀ x, contains t x = contains s x) ∧
      inorder t = inorder s := by
  obtain ⟨s, e, hw, -, -⟩ := addAll_empty b xs
  obtain ⟨mySet, e1, -, -, -⟩ := copy_into_empty s.start s.balance s.fresh
  obtain ⟨t, e2, hwt, hbt, hm⟩ := copy_into_empty s.start s.balance mySet.fresh
  have hin : inorderVisit t.start = inorderVisit s.start :=
    List.eq_of_perm_of_sorted
      ((List.perm_ext_iff_of_nodup hwt.1.nodup hw.1.nodup).2 hm) hwt.1 hw.1
  refine ⟨s, t, e, ?_, hbt, ?_, ?_, hin⟩
  · unfold copyConstruct
    have : ({ (empty s.balance : AVLSet α) with fresh := s.fresh } : AVLSet α) =
        ⟨.nullptr, none, s.balance, 0, s.fresh⟩ := rfl
    rw [this, e1]
    exact e2
  · unfold size
    rw [hwt.2.2.2.2, hw.2.2.2.2, hin]
  · intro x
    have h1 := containValue_iff x t.start hwt.1
    have h2 := containValue_iff x s.start hw.1
    unfold contains
    rw [hin] at h1
    cases h3 : containValue x t.start <;> cases h4 : containValue x s.start <;> simp_all

/-- C31, at the failing input: `a = b` with `a` holding 2, `b` holding 1 and
an allocator whose second allocation fails. The copy into `mySet` takes the
first allocation; `a` is then cleared, and the `new Node` of its own
`copy(s.start)` throws: the exception leaves `a` empty (`start == nullptr`,
`sz == 0`), where it had `size()` 1 and `contains(2)` true. -/
theorem avl_copy_assign_loses_target :
    ((addAll [2] (empty true : AVLSet Nat)).bind fun a =>
      (addAll [1] (empty true : AVLSet Nat)).map fun b =>
        (size a, contains a 2, copyAssignAlloc a b 1)) =
      some (1, true, .thrown ⟨.nullptr, none, true, 0, 2⟩) := by
  decide!

end AVLSet

namespace AVLSet

/-- C32, at the failing input: after `add(0)`, ..., `add(9)` with balancing on,
the right child of the root, the node holding 6, caches the height 4 while
one plus the larger height of its subtrees is 3; the heights below the root
are not all valid. -/
theorem avl_cached_height_stale_below_root :
    (addAll [0, 1, 2, 3, 4, 5, 6, 7, 8, 9] (empty true)).map
        (fun s => (heightsValidBelowRoot s, s.start.right,
          codeHeight s.start.right)) =
      some (false,
        .node 6 6 4 (.node 5 5 1 .nullptr .nullptr)
          (.node 8 8 2 (.node 7 7 1 .nullptr .nullptr) (.node 9 9 1 .nullptr .nullptr)),
        3) := by
  decide!

end AVLSet

/-! ## The claims on HashSet: the bucket counts -/

namespace HashSet

variable {α : Type} [DecidableEq α]

/-- C38: after any run of `add` calls on a new HashSet, for every hash
function, the counts `elementsAtIndex(i)` of the buckets `0 .. capacity - 1`
add up to `size()`. -/
theorem hashset_bucket_counts_sum_to_size (hashFunction : α → Nat) (xs : List α) :
    ((List.range (addAll xs (new hashFunction)).capacity).map
        (elementsAtIndex (addAll xs (new hashFunction)))).sum =
      size (addAll xs (new hashFunction)) := by
  obtain ⟨hw, -, -⟩ := addAll_new hashFunction xs
  generalize addAll xs (new hashFunction) = s at hw
  obtain ⟨⟨hlen, -, -⟩, -, hsz⟩ := hw
  have h1 : (List.range s.capacity).map (elementsAtIndex s) =
      ((List.range s.hashTable.length).map (fun i => s.hashTable.getD i [])).map List.length := by
    rw [hlen, List.map_map]
    apply List.map_congr_left
    intro i hi
    have hi2 : ¬ i ≥ s.capacity := by
      have := List.mem_range.1 hi
      omega
    simp only [elementsAtIndex, if_neg hi2, Function.comp]
  rw [h1, range_map_getD]
  show _ = s.sz
  rw [hsz]
  unfold stored
  rw [List.length_flatten]

end HashSet

/-! ## Lemmas on SkipListSet: the lane array and the copy -/

namespace SkipListSet

variable {α : Type}

/-- What lines 550-567 do to `lv` and `capacity`. -/
theorem newLevel_lv_capacity (L : Nat) (s s1 : SkipListSet α) (h : newLevel L s = some s1) :
    s1.lv = max s.lv L ∧
      s1.capacity = if L > s.lv ∧ 4 * s.capacity ≤ 5 * L then s.capacity * 2 + 1
        else s.capacity := by
  unfold newLevel at h
  by_cases hgt : L > s.lv
  · rw [if_pos hgt] at h
    dsimp only at h
    obtain ⟨s2, hs2, h⟩ := Option.bind_eq_some.1 h
    have h2 : s2.lv = L ∧ s2.capacity =
        if 4 * s.capacity ≤ 5 * L then s.capacity * 2 + 1 else s.capacity := by
      by_cases hg : 4 * s.capacity ≤ 5 * L
      · rw [if_pos hg] at hs2
        unfold resize at hs2
        dsimp only at hs2
        by_cases hle : L ≤ s.nodeList.length
        · rw [if_pos hle] at hs2
          simp only [Option.some.injEq] at hs2
          rw [← hs2, if_pos hg]
          exact ⟨rfl, rfl⟩
        · rw [if_neg hle] at hs2
          simp at hs2
      · rw [if_neg hg] at hs2
        simp only [Option.some.injEq] at hs2
        rw [← hs2, if_neg hg]
        exact ⟨rfl, rfl⟩
    obtain ⟨lower, -, h⟩ := Option.bind_eq_some.1 h
    cases hlast : lower.getLast? with
    | none => rw [hlast] at h; simp at h
    | some t =>
      rw [hlast] at h
      simp only at h
      unfold writeSlot at h
      split at h
      · simp only [Option.some.injEq] at h
        rw [← h]
        refine ⟨?_, ?_⟩
        · show s2.lv = _
          rw [h2.1]; omega
        · show s2.capacity = _
          rw [h2.2]
          by_cases hg : 4 * s.capacity ≤ 5 * L
          · rw [if_pos hg, if_pos ⟨hgt, hg⟩]
          · rw [if_neg hg, if_neg (fun hh => hg hh.2)]
      · simp at h
  · rw [if_neg hgt] at h
    simp only [Option.some.injEq] at h
    rw [← h, if_neg (fun hh => hgt hh.1)]
    exact ⟨by omega, rfl⟩

end SkipListSet

namespace SkipListSet

variable {α : Type} [LinearOrder α]

/-- What the promotion loop does to `lv` and `capacity`. -/
theorem promote_lv_capacity (e : α) (tester : List Bool) :
    ∀ (L p : Nat) (s s1 : SkipListSet α), L ≤ s.lv → promote e tester L p s = some s1 →
      s.lv ≤ s1.lv ∧ s1.capacity = capacityAfterLanes (s1.lv - s.lv) s.lv s.capacity := by
  induction tester with
  | nil =>
    intro L p s s1 _ h
    simp only [promote, Option.some.injEq] at h
    rw [← h]
    exact ⟨Nat.le_refl _, by simp [capacityAfterLanes]⟩
  | cons b rest ih =>
    intro L p s s1 hL h
    cases b with
    | false =>
      simp only [promote, Option.some.injEq] at h
      rw [← h]
      exact ⟨Nat.le_refl _, by simp [capacityAfterLanes]⟩
    | true =>
      unfold promote at h
      obtain ⟨s2, hs2, h⟩ := Option.bind_eq_some.1 h
      obtain ⟨lane, -, h⟩ := Option.bind_eq_some.1 h
      obtain ⟨c, -, h⟩ := Option.bind_eq_some.1 h
      obtain ⟨hlv, hcap⟩ := newLevel_lv_capacity (L + 1) s s2 hs2
      obtain ⟨h1, h2⟩ := ih (L + 1) s2.fresh _ s1 (by
        show L + 1 ≤ s2.lv
        rw [hlv]; omega) h
      have h1b : s2.lv ≤ s1.lv := h1
      have h2b : s1.capacity = capacityAfterLanes (s1.lv - s2.lv) s2.lv s2.capacity := h2
      by_cases hgt : L + 1 > s.lv
      · have hl : s2.lv = s.lv + 1 := by rw [hlv]; omega
        have hL2 : L + 1 = s.lv + 1 := by omega
        refine ⟨by omega, ?_⟩
        obtain ⟨n, hn⟩ : ∃ n, s1.lv - s.lv = n + 1 := ⟨s1.lv - s.lv - 1, by omega⟩
        have hn2 : s1.lv - s2.lv = n := by omega
        have hstep : capacityAfterLanes (n + 1) s.lv s.capacity =
            capacityAfterLanes n (s.lv + 1)
              (if 4 * s.capacity ≤ 5 * (s.lv + 1) then 2 * s.capacity + 1 else s.capacity) := rfl
        rw [hn, hstep, h2b, hn2, hl, hcap, hL2]
        by_cases hg : 4 * s.capacity ≤ 5 * (s.lv + 1)
        · rw [if_pos ⟨by omega, hg⟩, if_pos hg, Nat.mul_comm]
        · rw [if_neg (fun hh => hg hh.2), if_neg hg]
      · have hl : s2.lv = s.lv := by rw [hlv]; omega
        refine ⟨by omega, ?_⟩
        rw [h2b, hl, hcap, if_neg (fun hh => hgt hh.1)]

/-- What one call of `add` does to `lv` and `capacity`. -/
theorem add_lv_capacity (e : α) (s s1 : SkipListSet α) (hlv : 1 ≤ s.lv)
    (hadd : add e s = some s1) :
    s.lv ≤ s1.lv ∧ s1.capacity = capacityAfterLanes (s1.lv - s.lv) s.lv s.capacity := by
  unfold add at hadd
  split at hadd
  · simp at hadd
  · unfold writeSlot at hadd
    split at hadd
    · simp only [Option.some.injEq] at hadd
      rw [← hadd]
      exact ⟨Nat.le_refl _, by simp [capacityAfterLanes]⟩
    · simp at hadd
  · obtain ⟨found, -, hadd⟩ := Option.bind_eq_some.1 hadd
    cases found with
    | true =>
      simp only [Bool.not_true, Bool.false_eq_true, if_false, Option.some.injEq] at hadd
      rw [← hadd]
      exact ⟨Nat.le_refl _, by simp [capacityAfterLanes]⟩
    | false =>
      simp only [Bool.not_false, if_true] at hadd
      obtain ⟨top, -, hadd⟩ := Option.bind_eq_some.1 hadd
      obtain ⟨current, -, hadd⟩ := Option.bind_eq_some.1 hadd
      obtain ⟨s2, hs2, hadd⟩ := Option.map_eq_some'.1 hadd
      have := promote_lv_capacity e s.levelTester 1 s.fresh
        { s with
          nodeList := s.nodeList.map
            (Slot.insertAfter current.addr ⟨s.fresh, .normal e, none⟩),
          fresh := s.fresh + 1 } s2 hlv hs2
      rw [← hadd]
      exact this

end SkipListSet

namespace SkipListSet

variable {α : Type}

theorem allPtr_set (nl : List (Slot α)) (i : Nat) (l : List (Node α)) (h : AllPtr nl) :
    AllPtr (nl.set i (.ptr l)) := by
  intro sl hsl
  rcases List.mem_or_eq_of_mem_set hsl with h1 | h1
  · exact h sl h1
  · exact ⟨l, h1⟩

theorem allPtr_map_insertAfter (nl : List (Slot α)) (a : Nat) (n : Node α) (h : AllPtr nl) :
    AllPtr (nl.map (Slot.insertAfter a n)) := by
  intro sl hsl
  obtain ⟨sl0, h0, rfl⟩ := List.mem_map.1 hsl
  obtain ⟨l, rfl⟩ := h sl0 h0
  exact ⟨_, rfl⟩

/-- Lines 550-567 that end with the capacity they began with leave no entry
unwritten. -/
theorem newLevel_allPtr (L : Nat) (s s1 : SkipListSet α) (h : newLevel L s = some s1)
    (hcap : s1.capacity = s.capacity) (hp : AllPtr s.nodeList) : AllPtr s1.nodeList := by
  have hc := (newLevel_lv_capacity L s s1 h).2
  unfold newLevel at h
  by_cases hgt : L > s.lv
  · rw [if_pos hgt] at h
    dsimp only at h
    obtain ⟨s2, hs2, h⟩ := Option.bind_eq_some.1 h
    have hg : ¬ 4 * s.capacity ≤ 5 * L := by
      intro hg
      rw [if_pos ⟨hgt, hg⟩] at hc
      omega
    rw [if_neg hg] at hs2
    simp only [Option.some.injEq] at hs2
    obtain ⟨lower, -, h⟩ := Option.bind_eq_some.1 h
    cases hlast : lower.getLast? with
    | none => rw [hlast] at h; simp at h
    | some t =>
      rw [hlast] at h
      simp only at h
      unfold writeSlot at h
      split at h
      · simp only [Option.some.injEq] at h
        rw [← h, ← hs2]
        exact allPtr_set _ _ _ hp
      · simp at h
  · rw [if_neg hgt] at h
    simp only [Option.some.injEq] at h
    rw [← h]
    exact hp

end SkipListSet

namespace SkipListSet

variable {α : Type} [LinearOrder α]

theorem promote_allPtr (e : α) (tester : List Bool) :
    ∀ (L p : Nat) (s s1 : SkipListSet α), promote e tester L p s = some s1 →
      s.capacity ≤ s1.capacity ∧
        (s1.capacity = s.capacity → AllPtr s.nodeList → AllPtr s1.nodeList) := by
  induction tester with
  | nil =>
    intro L p s s1 h
    simp only [promote, Option.some.injEq] at h
    rw [← h]
    exact ⟨Nat.le_refl _, fun _ hp => hp⟩
  | cons b rest ih =>
    intro L p s s1 h
    cases b with
    | false =>
      simp only [promote, Option.some.injEq] at h
      rw [← h]
      exact ⟨Nat.le_refl _, fun _ hp => hp⟩
    | true =>
      unfold promote at h
      obtain ⟨s2, hs2, h⟩ := Option.bind_eq_some.1 h
      obtain ⟨lane, -, h⟩ := Option.bind_eq_some.1 h
      obtain ⟨c, -, h⟩ := Option.bind_eq_some.1 h
      have hc2 := (newLevel_lv_capacity (L + 1) s s2 hs2).2
      have hle2 : s.capacity ≤ s2.capacity := by
        rw [hc2]
        split <;> omega
      obtain ⟨h1, h2⟩ := ih (L + 1) s2.fresh _ s1 h
      have h1b : s2.capacity ≤ s1.capacity := h1
      refine ⟨by omega, fun hcap hp => ?_⟩
      apply h2 (by show s1.capacity = s2.capacity; omega)
      exact allPtr_map_insertAfter _ _ _ (newLevel_allPtr (L + 1) s s2 hs2 (by omega) hp)

theorem add_allPtr (e : α) (s s1 : SkipListSet α) (hadd : add e s = some s1) :
    s.capacity ≤ s1.capacity ∧
      (s1.capacity = s.capacity → AllPtr s.nodeList → AllPtr s1.nodeList) := by
  unfold add at hadd
  split at hadd
  · simp at hadd
  · unfold writeSlot at hadd
    split at hadd
    · simp only [Option.some.injEq] at hadd
      rw [← hadd]
      exact ⟨Nat.le_refl _, fun _ hp => allPtr_set _ _ _ hp⟩
    · simp at hadd
  · obtain ⟨found, -, hadd⟩ := Option.bind_eq_some.1 hadd
    cases found with
    | true =>
      simp only [Bool.not_true, Bool.false_eq_true, if_false, Option.some.injEq] at hadd
      rw [← hadd]
      exact ⟨Nat.le_refl _, fun _ hp => hp⟩
    | false =>
      simp only [Bool.not_false, if_true] at hadd
      obtain ⟨top, -, hadd⟩ := Option.bind_eq_some.1 hadd
      obtain ⟨current, -, hadd⟩ := Option.bind_eq_some.1 hadd
      obtain ⟨s2, hs2, hadd⟩ := Option.map_eq_some'.1 hadd
      obtain ⟨h1, h2⟩ := promote_allPtr e s.levelTester 1 s.fresh
        { s with
          nodeList := s.nodeList.map
            (Slot.insertAfter current.addr ⟨s.fresh, .normal e, none⟩),
          fresh := s.fresh + 1 } s2 hs2
      rw [← hadd]
      exact ⟨h1, fun hcap hp => h2 hcap (allPtr_map_insertAfter _ _ _ hp)⟩

theorem addAll_allPtr (xs : List α) (s s1 : SkipListSet α) (hadd : addAll xs s = some s1) :
    s.capacity ≤ s1.capacity ∧
      (s1.capacity = s.capacity → AllPtr s.nodeList → AllPtr s1.nodeList) := by
  induction xs generalizing s with
  | nil =>
    simp only [addAll, Option.some.injEq] at hadd
    rw [← hadd]
    exact ⟨Nat.le_refl _, fun _ hp => hp⟩
  | cons x xs ih =>
    unfold addAll at hadd
    obtain ⟨s2, h2, hadd⟩ := Option.bind_eq_some.1 hadd
    obtain ⟨h3, h4⟩ := add_allPtr x s s2 h2
    obtain ⟨h5, h6⟩ := ih s2 hadd
    exact ⟨by omega, fun hcap hp => h6 (by omega) (h4 (by omega) hp)⟩

/-- A set reached by `add` calls whose array was never resized has no
unwritten entry. -/
theorem allPtr_of_reached (levelTester : List Bool) (xs : List α) (s : SkipListSet α)
    (hr : addAll xs (new levelTester) = some s) (hcap : s.capacity = INITIAL_CAPACITY) :
    AllPtr s.nodeList := by
  apply (addAll_allPtr xs _ s hr).2 hcap
  intro sl hsl
  exact ⟨[], (List.mem_replicate.1 hsl).2⟩

end SkipListSet

namespace SkipListSet

variable {α : Type}

theorem readSlot_allPtr (t : SkipListSet α) (h : AllPtr t.nodeList) (i : Nat)
    (hi : i < t.nodeList.length) : readSlot i t = some (laneAt t.nodeList i) := by
  have hmem : t.nodeList[i] ∈ t.nodeList := List.getElem_mem hi
  obtain ⟨l, hl⟩ := h _ hmem
  have hget : t.nodeList.get? i = some (.ptr l) := by
    rw [List.get?_eq_getElem?, List.getElem?_eq_getElem hi, hl]
  unfold readSlot
  rw [hget, laneAt_of_get? _ _ _ hget]

end SkipListSet

namespace SkipListSet

variable {α : Type} [LinearOrder α]

theorem eqKey_iff (a b : SkipListKey α) : a.eqKey b = true ↔ a = b := by
  cases a <;> cases b <;> simp [SkipListKey.eqKey]

/-- The loop that looks for a key in the lane below finds the first node with
the key, when the lane has one. -/
theorem findKey_spec (key : SkipListKey α) (lower : List (Node α))
    (h : ∃ m ∈ lower, m.key = key) :
    ∃ b, findKey key lower = some b ∧ b ∈ lower ∧ b.key = key := by
  induction lower with
  | nil =>
    obtain ⟨m, hm, -⟩ := h
    simp at hm
  | cons c rest ih =>
    unfold findKey
    by_cases hc : c.key.eqKey key = true
    · rw [if_pos hc]
      exact ⟨c, rfl, List.mem_cons_self _ _, (eqKey_iff _ _).1 hc⟩
    · rw [if_neg hc]
      obtain ⟨m, hm, hk⟩ := h
      rcases List.mem_cons.1 hm with h1 | h1
      · exact absurd ((eqKey_iff _ _).2 (h1 ▸ hk)) hc
      · obtain ⟨b, e1, e2, e3⟩ := ih ⟨m, h1, hk⟩
        exact ⟨b, e1, List.mem_cons_of_mem _ e2, e3⟩

/-- One node copied: the body of the inner loop of `copy` returns and puts a
node with the key of `current` at the end of lane `k`. -/
theorem copyNode_spec (s t : SkipListSet α) (k : Nat) (pre : List (Node α)) (current : Node α)
    (hc : Copying s t k pre) (hk : k < s.capacity)
    (hlow : k ≠ 0 → ∃ m ∈ laneAt t.nodeList (k - 1), m.key = current.key) :
    ∃ t1, copyNode k current t = some t1 ∧ Copying s t1 k (pre ++ [current]) ∧
      t1.sz = t.sz ∧ t1.lv = t.lv ∧ t1.capacity = t.capacity ∧
      t1.levelTester = t.levelTester := by
  have hlen := hc.length_eq
  have hbelow : ∃ below,
      (if k ≠ 0 then
          (readSlot (k - 1) t).bind fun lower =>
            (findKey current.key lower).map fun belowCurrent => some belowCurrent.addr
        else some none) = some below ∧
      ((k = 0 ∧ below = none) ∨
        (k ≠ 0 ∧ ∃ b ∈ laneAt t.nodeList (k - 1), below = some b.addr ∧ b.key = current.key)) := by
    by_cases hk0 : k = 0
    · exact ⟨none, by rw [if_neg (by simpa using hk0)], Or.inl ⟨hk0, rfl⟩⟩
    · obtain ⟨b, e1, e2, e3⟩ := findKey_spec current.key _ (hlow hk0)
      refine ⟨some b.addr, ?_, Or.inr ⟨hk0, b, e2, rfl, e3⟩⟩
      rw [if_pos hk0, readSlot_allPtr t hc.allPtr (k - 1) (by omega)]
      simp only [Option.bind]
      rw [e1]
      rfl
  obtain ⟨below, eb, hb⟩ := hbelow
  have hmatch : ∀ (lane : List (Node α)) (x : Node α) (u : SkipListSet α),
      (match lane with
        | [] => writeSlot k [x] u
        | c :: rest => writeSlot k (c :: rest ++ [x]) u) = writeSlot k (lane ++ [x]) u := by
    intro lane x u
    cases lane <;> rfl
  have hklen : k < t.nodeList.length := by omega
  have hrun : copyNode k current t =
      some { t with
        nodeList := t.nodeList.set k
          (.ptr (laneAt t.nodeList k ++ [⟨t.fresh, current.key, below⟩])),
        fresh := t.fresh + 1 } := by
    unfold copyNode
    rw [eb]
    simp only [Option.bind]
    rw [readSlot_allPtr t hc.allPtr k hklen]
    simp only
    rw [hmatch]
    unfold writeSlot
    have hklen2 : k < ({ t with fresh := t.fresh + 1 } : SkipListSet α).nodeList.length := hklen
    rw [if_pos hklen2]
  have hl : ∀ i, laneAt (t.nodeList.set k
      (.ptr (laneAt t.nodeList k ++ [⟨t.fresh, current.key, below⟩]))) i =
      if i = k then laneAt t.nodeList k ++ [⟨t.fresh, current.key, below⟩]
      else laneAt t.nodeList i := fun i => laneAt_set _ _ _ _ hklen
  have hmem : ∀ i x, x ∈ laneAt (t.nodeList.set k
      (.ptr (laneAt t.nodeList k ++ [⟨t.fresh, current.key, below⟩]))) i ↔
      (x ∈ laneAt t.nodeList i ∨ (i = k ∧ x = ⟨t.fresh, current.key, below⟩)) := by
    intro i x
    rw [hl i]
    by_cases hik : i = k
    · rw [if_pos hik, hik]
      simp
    · rw [if_neg hik]
      simp [hik]
  refine ⟨_, hrun, ?_, rfl, rfl, rfl, rfl⟩
  constructor
  · show (t.nodeList.set _ _).length = s.capacity
    rw [List.length_set]; exact hlen
  · exact allPtr_set _ _ _ hc.allPtr
  · intro i hi
    show (laneAt (t.nodeList.set _ _) i).map Node.key = _
    rw [hl i, if_neg (by omega)]
    exact hc.done i hi
  · show (laneAt (t.nodeList.set _ _) k).map Node.key = _
    rw [hl k, if_pos rfl, List.map_append, List.map_append, hc.current]
    rfl
  · intro i hi
    show laneAt (t.nodeList.set _ _) i = []
    rw [hl i, if_neg (by omega)]
    exact hc.rest i hi
  · intro n hn
    rcases (hmem 0 n).1 hn with h1 | ⟨h1, h2⟩
    · exact hc.ground n h1
    · rcases hb with ⟨-, hb⟩ | ⟨hk0, -⟩
      · rw [h2]; exact hb
      · exact absurd h1.symm hk0
  · intro i n hn
    show ∃ m ∈ laneAt (t.nodeList.set _ _) i, _
    rcases (hmem (i + 1) n).1 hn with h1 | ⟨h1, h2⟩
    · obtain ⟨m, hm, e1, e2⟩ := hc.linked i n h1
      exact ⟨m, (hmem i m).2 (Or.inl hm), e1, e2⟩
    · rcases hb with ⟨hk0, -⟩ | ⟨hk0, b, hb1, hb2, hb3⟩
      · omega
      · have hik : k - 1 = i := by omega
        rw [hik] at hb1
        exact ⟨b, (hmem i b).2 (Or.inl hb1), by rw [h2]; exact hb2, by rw [h2]; exact hb3⟩
  · intro i
    show ((laneAt (t.nodeList.set _ _) i).map Node.addr).Nodup
    rw [hl i]
    by_cases hik : i = k
    · rw [if_pos hik, List.map_append]
      refine List.Nodup.append (hc.nodup k) (by simp) ?_
      intro a ha1 ha2
      obtain ⟨x, hx, hxa⟩ := List.mem_map.1 ha1
      have := hc.below_fresh k x hx
      simp only [List.map_cons, List.map_nil, List.mem_singleton] at ha2
      omega
    · rw [if_neg hik]; exact hc.nodup i
  · intro i j x hx y hy hxy
    rcases (hmem i x).1 hx with h1 | ⟨h1, h2⟩
    · rcases (hmem j y).1 hy with h3 | ⟨h3, h4⟩
      · exact hc.apart i j x h1 y h3 hxy
      · have := hc.below_fresh i x h1
        rw [h4] at hxy
        simp only at hxy
        omega
    · rcases (hmem j y).1 hy with h3 | ⟨h3, h4⟩
      · have := hc.below_fresh j y h3
        rw [h2] at hxy
        simp only at hxy
        omega
      · omega
  · intro i x hx
    show x.addr < t.fresh + 1
    rcases (hmem i x).1 hx with h1 | ⟨-, h2⟩
    · have := hc.below_fresh i x h1; omega
    · rw [h2]; simp

end SkipListSet

namespace SkipListSet

variable {α : Type}

theorem laneAt_replicate (n i : Nat) :
    laneAt (List.replicate n (Slot.ptr ([] : List (Node α)))) i = [] := by
  unfold laneAt
  simp only [List.getD_eq_getElem?_getD, List.getElem?_replicate]
  split <;> rfl

/-- A lane with the keys of a lane that has its two sentinels has them too. -/
theorem framed_of_keys (l1 l2 : List (Node α)) (h : l1.map Node.key = l2.map Node.key)
    (hf : Framed l2) : Framed l1 := by
  obtain ⟨⟨a, rest, e1, k1⟩, ⟨front, b, e2, k2⟩⟩ := hf
  constructor
  · rw [e1] at h
    cases l1 with
    | nil => simp at h
    | cons x xs =>
      simp only [List.map_cons, List.cons.injEq] at h
      exact ⟨x, xs, rfl, h.1.trans k1⟩
  · rw [e2] at h
    have hne : l1 ≠ [] := by
      rintro rfl
      simp at h
    rw [← List.dropLast_append_getLast hne] at h
    simp only [List.map_append, List.map_cons, List.map_nil] at h
    have := List.append_inj_right' h rfl
    simp only [List.cons.injEq, and_true] at this
    exact ⟨l1.dropLast, l1.getLast hne, (List.dropLast_append_getLast hne).symm, this.trans k2⟩

/-- The state in which `copy` starts: an array of null entries. -/
theorem copying_start (s : SkipListSet α) (levelTester : List Bool) (sz lv cap fresh : Nat) :
    Copying s ⟨levelTester, List.replicate s.capacity (.ptr []), sz, lv, cap, fresh⟩ 0 [] := by
  constructor
  · simp
  · intro sl hsl
    exact ⟨[], (List.mem_replicate.1 hsl).2⟩
  · intro i hi; omega
  · show (laneAt (List.replicate _ _) 0).map Node.key = _
    rw [laneAt_replicate]
  · intro i _
    exact laneAt_replicate _ i
  · intro n hn
    have : n ∈ laneAt (List.replicate s.capacity (Slot.ptr ([] : List (Node α)))) 0 := hn
    rw [laneAt_replicate] at this
    simp at this
  · intro i n hn
    have : n ∈ laneAt (List.replicate s.capacity (Slot.ptr ([] : List (Node α)))) (i + 1) := hn
    rw [laneAt_replicate] at this
    simp at this
  · intro i
    show ((laneAt (List.replicate _ _) i).map Node.addr).Nodup
    rw [laneAt_replicate]
    exact List.nodup_nil
  · intro i j n hn
    have : n ∈ laneAt (List.replicate s.capacity (Slot.ptr ([] : List (Node α)))) i := hn
    rw [laneAt_replicate] at this
    simp at this
  · intro i n hn
    have : n ∈ laneAt (List.replicate s.capacity (Slot.ptr ([] : List (Node α)))) i := hn
    rw [laneAt_replicate] at this
    simp at this

/-- A lane copied to its end: the copy moves on to the next lane. -/
theorem copying_next (s t : SkipListSet α) (k : Nat)
    (hc : Copying s t k (laneAt s.nodeList k)) : Copying s t (k + 1) [] := by
  refine ⟨hc.length_eq, hc.allPtr, ?_, ?_, ?_, hc.ground, hc.linked, hc.nodup, hc.apart,
    hc.below_fresh⟩
  · intro i hi
    by_cases hik : i = k
    · rw [hik]; exact hc.current
    · exact hc.done i (by omega)
  · rw [hc.rest (k + 1) (by omega)]
  · intro i hi
    exact hc.rest i (by omega)

/-- The copy has the keys of the source in every lane. -/
theorem copying_keys (s t : SkipListSet α) (hinv : Inv s) (hc : Copying s t s.capacity [])
    (i : Nat) : (laneAt t.nodeList i).map Node.key = (laneAt s.nodeList i).map Node.key := by
  by_cases hi : i < s.capacity
  · exact hc.done i hi
  · have h1 : laneAt s.nodeList i = [] := hinv.above i (by have := hinv.load; omega)
    have h2 : laneAt t.nodeList i = [] := by
      by_cases hi2 : i = s.capacity
      · have := hc.current
        rw [← hi2] at this
        simpa using this
      · exact hc.rest i (by omega)
    rw [h1, h2]

/-- The copy of a well-formed source, with the counters of the source, is
well-formed. -/
theorem copying_inv (s t : SkipListSet α) (hinv : Inv s) (hc : Copying s t s.capacity [])
    (hlv : t.lv = s.lv) (hcap : t.capacity = s.capacity) : Inv t := by
  have hkeys := copying_keys s t hinv hc
  have hempty : ∀ i, laneAt s.nodeList i = [] → laneAt t.nodeList i = [] := by
    intro i h
    have := hkeys i
    rw [h] at this
    simpa using this
  constructor
  · rw [hcap]; exact hc.length_eq
  · rw [hlv]; exact hinv.lv_pos
  · rw [hlv, hcap]; exact hinv.load
  · intro i hi
    have hi2 : i < t.nodeList.length := by
      rw [hc.length_eq]
      have := hinv.load
      omega
    have hmem : t.nodeList[i] ∈ t.nodeList := List.getElem_mem hi2
    obtain ⟨l, hl⟩ := hc.allPtr _ hmem
    exact ⟨l, by rw [List.get?_eq_getElem?, List.getElem?_eq_getElem hi2, hl]⟩
  · intro i hi
    exact hempty i (hinv.above i (by omega))
  · rcases hinv.framed with h | h
    · exact Or.inl ⟨hempty 0 h.1, by rw [hlv]; exact h.2⟩
    · right
      intro i hi
      exact framed_of_keys _ _ (hkeys i) (h i (by omega))
  · exact hc.ground
  · intro i _
    exact hc.linked i
  · exact hc.nodup
  · exact hc.apart
  · exact hc.below_fresh

end SkipListSet

namespace SkipListSet

variable {α : Type} [LinearOrder α]

/-- The inner loop of `copy` over what is left of lane `k` of the source. -/
theorem copyLane_spec (s : SkipListSet α) (k : Nat) (hk : k < s.capacity)
    (rest : List (Node α)) :
    ∀ (t : SkipListSet α) (pre : List (Node α)), Copying s t k pre →
      (k ≠ 0 → ∀ c ∈ rest, c.key ∈ (laneAt s.nodeList (k - 1)).map Node.key) →
      ∃ t1, copyLane k rest t = some t1 ∧ Copying s t1 k (pre ++ rest) ∧
        t1.sz = t.sz ∧ t1.lv = t.lv ∧ t1.capacity = t.capacity ∧
        t1.levelTester = t.levelTester := by
  induction rest with
  | nil =>
    intro t pre hc _
    exact ⟨t, rfl, by rw [List.append_nil]; exact hc, rfl, rfl, rfl, rfl⟩
  | cons c rest ih =>
    intro t pre hc hkeys
    obtain ⟨t1, e1, hc1, f1, f2, f3, f4⟩ := copyNode_spec s t k pre c hc hk (by
      intro hk0
      have h1 := hkeys hk0 c (List.mem_cons_self _ _)
      rw [← hc.done (k - 1) (by omega)] at h1
      obtain ⟨m, hm, hmk⟩ := List.mem_map.1 h1
      exact ⟨m, hm, hmk⟩)
    obtain ⟨t2, e2, hc2, g1, g2, g3, g4⟩ := ih t1 (pre ++ [c]) hc1
      (fun hk0 x hx => hkeys hk0 x (List.mem_cons_of_mem _ hx))
    refine ⟨t2, ?_, ?_, g1.trans f1, g2.trans f2, g3.trans f3, g4.trans f4⟩
    · unfold copyLane
      rw [e1]
      exact e2
    · have : pre ++ c :: rest = pre ++ [c] ++ rest := by simp
      rw [this]
      exact hc2

/-- The outer loop of `copy`, on a well-formed source without unwritten
entries. -/
theorem copyFrom_spec (s : SkipListSet α) (hinv : Inv s) (hp : AllPtr s.nodeList) (n : Nat) :
    ∀ (i : Nat) (t : SkipListSet α), i + n = s.capacity → Copying s t i [] →
      ∃ t1, copyFrom s n i t = some t1 ∧ Copying s t1 s.capacity [] ∧
        t1.sz = t.sz ∧ t1.lv = t.lv ∧ t1.capacity = t.capacity ∧
        t1.levelTester = t.levelTester := by
  induction n with
  | zero =>
    intro i t hi hc
    have : i = s.capacity := by omega
    subst this
    exact ⟨t, rfl, hc, rfl, rfl, rfl, rfl⟩
  | succ n ih =>
    intro i t hi hc
    have hread : readSlot i s = some (laneAt s.nodeList i) :=
      readSlot_allPtr s hp i (by rw [hinv.length_eq]; omega)
    obtain ⟨t1, e1, hc1, f1, f2, f3, f4⟩ := copyLane_spec s i (by omega) (laneAt s.nodeList i)
      t [] hc (by
        intro hi0 c hcm
        by_cases hlv : i < s.lv
        · obtain ⟨m, hm, -, hmk⟩ := hinv.linked (i - 1) (by omega) c (by
            have : i - 1 + 1 = i := by omega
            rw [this]; exact hcm)
          exact List.mem_map.2 ⟨m, hm, hmk⟩
        · rw [hinv.above i (by omega)] at hcm
          simp at hcm)
    rw [List.nil_append] at hc1
    obtain ⟨t2, e2, hc2, g1, g2, g3, g4⟩ := ih (i + 1) t1 (by omega) (copying_next s t1 i hc1)
    refine ⟨t2, ?_, hc2, g1.trans f1, g2.trans f2, g3.trans f3, g4.trans f4⟩
    unfold copyFrom
    rw [hread]
    simp only [Option.bind]
    rw [e1]
    exact e2

/-- Member `copy` from a well-formed source without unwritten entries into an
object that starts with an array of `capacity` null entries: it returns, and
the lanes of the object have the keys of the lanes of the source. -/
theorem copy_spec (s : SkipListSet α) (hinv : Inv s) (hp : AllPtr s.nodeList)
    (levelTester : List Bool) (sz lv cap fresh : Nat) :
    ∃ t1, copy s ⟨levelTester, List.replicate s.capacity (.ptr []), sz, lv, cap, fresh⟩ =
        some t1 ∧ Copying s t1 s.capacity [] ∧
      t1.sz = sz ∧ t1.lv = lv ∧ t1.capacity = cap ∧ t1.levelTester = levelTester :=
  copyFrom_spec s hinv hp s.capacity 0 _ (by omega) (copying_start s levelTester sz lv cap fresh)

end SkipListSet

/-! ## The claims on SkipListSet: order of the keys, search, lane array, copy -/

namespace SkipListKey

variable {α : Type} [LinearOrder α]

/-- C37: over a linearly ordered element type `operator<` on keys is
irreflexive and transitive, exactly one of `a < b`, `a == b`, `b < a` holds,
and the operators that take an element agree with those that take the key
`normal(e)`. -/
theorem skiplistkey_strict_total_order (a b c k : SkipListKey α) (e : α) :
    a.ltKey a = false ∧ (a.ltKey b = true → b.ltKey c = true → a.ltKey c = true) ∧
      ((a.ltKey b = true ∧ a.eqKey b = false ∧ b.ltKey a = false) ∨
        (a.ltKey b = false ∧ a.eqKey b = true ∧ b.ltKey a = false) ∨
        (a.ltKey b = false ∧ a.eqKey b = false ∧ b.ltKey a = true)) ∧
      k.ltElem e = k.ltKey (normal e) ∧ k.eqElem e = k.eqKey (normal e) := by
  refine ⟨ltKey_irrefl a, ltKey_trans, ?_, ltElem_eq_ltKey k e, by cases k <;> rfl⟩
  cases a <;> cases b <;> simp [ltKey, eqKey]
  rename_i x y
  rcases lt_trichotomy x y with h | h | h
  · exact Or.inl ⟨h, ne_of_lt h, le_of_lt h⟩
  · exact Or.inr (Or.inl ⟨le_of_eq h.symm, h, le_of_eq h⟩)
  · exact Or.inr (Or.inr ⟨le_of_lt h, ne_of_gt h, h⟩)

end SkipListKey

namespace SkipListSet

variable {α : Type} [LinearOrder α]

/-- C33: in a SkipListSet reached by at least one `add` call, for an element
`e` that was not added: the search of `add` (lines 520-537) returns, without
reading through `nullptr`, at a node of lane 0 that has `key < e`, has a
successor, and whose successor has `e < key`. The walk along a lane of lines
569-575 does so on every lane the set has, and on a new lane of two sentinels
(these are the lanes a promotion meets: lines 548-585 do not write to a lane
before they search it). -/
theorem skiplist_search_stops_before (levelTester : List Bool) (x : α) (xs : List α) (e : α)
    (he : e ∉ x :: xs) :
    ∃ s, addAll (x :: xs) (new levelTester) = some s ∧
      (∃ P c r Y, (readSlot (s.lv - 1) s).bind (search e s.nodeList s.lv) = some c ∧
        laneAt s.nodeList 0 = P ++ c :: r :: Y ∧ c.key.ltElem e = true ∧
        (SkipListKey.normal e).ltKey r.key = true) ∧
      (∀ L, L < s.lv → ∃ X c r Y, (readSlot L s).bind (walk e) = some c ∧
        laneAt s.nodeList L = X ++ c :: r :: Y ∧ c.key.ltElem e = true ∧
        (SkipListKey.normal e).ltKey r.key = true) ∧
      ∀ a b : Node α, a.key = .negInf → b.key = .posInf → walk e [a, b] = some a := by
  obtain ⟨s, e1, hr, hm⟩ := addAll_new_reach levelTester (x :: xs)
  have hpos := hr.inv.lv_pos
  have hne : laneAt s.nodeList 0 ≠ [] := by
    intro h0
    have := (hm x).2 (List.mem_cons_self _ _)
    rw [h0] at this
    simp [elements] at this
  have hfr := framed_lanes s hr.inv hne
  have hnokey : ∀ i, ∀ y ∈ laneAt s.nodeList i, y.key ≠ .normal e := by
    intro i y hy hyk
    by_cases hi : i < s.lv
    · have hy2 : y ∈ laneAt s.nodeList (0 + i) := by rw [Nat.zero_add]; exact hy
      obtain ⟨m, hm1, hmk⟩ := key_down s hr.inv 0 i y (by omega) hy2
      exact he ((hm e).1 ((mem_elements _ e).2 ⟨m, hm1, hmk.trans hyk⟩))
    · rw [hr.inv.above i (by omega)] at hy
      simp at hy
  refine ⟨s, e1, ?_, ?_, ?_⟩
  · obtain ⟨⟨h, rest, eh, hk⟩, -⟩ := hfr (s.lv - 1) (by omega)
    obtain ⟨P, c, r, Y, ec, el, hck, hB⟩ := search_adj e s hr.inv hfr (hr.ascending 0) (s.lv - 1)
      (by omega) s.lv (by omega) [] (laneAt s.nodeList (s.lv - 1)) rfl
      ⟨h, rest, eh, by rw [hk]; rfl⟩
    refine ⟨P, c, r, Y, ?_, el, hck, ?_⟩
    · rw [readSlot_written s hr.inv (s.lv - 1) (by omega)]
      exact ec
    · exact SkipListKey.ltKey_of_not_ltElem r.key e (hB r (List.mem_cons_self _ _))
        (hnokey 0 r (by rw [el]; simp))
  · intro L hL
    obtain ⟨⟨h, rest, eh, hk⟩, hend⟩ := hfr L hL
    obtain ⟨X, c, r, Y, el, ec, hck, hB⟩ := walk_adj e (laneAt s.nodeList L) (hr.ascending L) hend
      ⟨h, rest, eh, by rw [hk]; rfl⟩
    refine ⟨X, c, r, Y, ?_, el, hck, ?_⟩
    · rw [readSlot_written s hr.inv L hL]
      exact ec
    · exact SkipListKey.ltKey_of_not_ltElem r.key e (hB r (List.mem_cons_self _ _))
        (hnokey L r (by rw [el]; simp))
  · intro a b ha hb
    simp [walk, ha, hb, SkipListKey.ltElem]

/-- Witness for C33: the set built by `add(1)`, `add(2)` with a level tester
that answers yes once, and the element 5. -/
theorem skiplist_search_stops_before_witness :
    (5 : Nat) ∉ [1, 2] ∧
    ∃ s, addAll (1 :: [2]) (new [true]) = some s ∧
      (∃ P c r Y, (readSlot (s.lv - 1) s).bind (search 5 s.nodeList s.lv) = some c ∧
        laneAt s.nodeList 0 = P ++ c :: r :: Y ∧ c.key.ltElem 5 = true ∧
        (SkipListKey.normal 5).ltKey r.key = true) ∧
      (∀ L, L < s.lv → ∃ X c r Y, (readSlot L s).bind (walk 5) = some c ∧
        laneAt s.nodeList L = X ++ c :: r :: Y ∧ c.key.ltElem 5 = true ∧
        (SkipListKey.normal 5).ltKey r.key = true) ∧
      ∀ a b : Node Nat, a.key = .negInf → b.key = .posInf → walk 5 [a, b] = some a :=
  ⟨by decide, skiplist_search_stops_before [true] 1 [2] 5 (by decide)⟩

/-- C34: in every SkipListSet reached by `add` calls `levelCount()` is below
`capacity`, the length of the lane array; one more `add` returns, does not
lower `levelCount()`, and leaves the capacity that the lanes it materializes
call for: one growth to `2 * capacity + 1` at each new lane that brings
`levelCount / capacity` to `0.8` or above, and no other change. -/
theorem skiplist_level_count_below_capacity (levelTester : List Bool) (xs : List α) (e : α) :
    ∃ s, addAll xs (new levelTester) = some s ∧ levelCount s < s.capacity ∧
      s.nodeList.length = s.capacity ∧
      ∃ s1, add e s = some s1 ∧ levelCount s ≤ levelCount s1 ∧
        s1.capacity =
          capacityAfterLanes (levelCount s1 - levelCount s) (levelCount s) s.capacity := by
  obtain ⟨s, e1, hr, -⟩ := addAll_new_reach levelTester xs
  obtain ⟨s1, e2, -⟩ := add_inv e s hr.inv
  have hload := hr.inv.load
  refine ⟨s, e1, ?_, hr.inv.length_eq, s1, e2, add_lv_capacity e s s1 hr.inv.lv_pos e2⟩
  show s.lv < s.capacity
  omega

end SkipListSet

namespace SkipListSet

variable {α : Type} [LinearOrder α]

/-- C36: for a SkipListSet `s` reached by `add` calls whose lane array was
never resized (its capacity is still `INITIAL_CAPACITY`) the copy constructor
returns a set `t` with the `size()` and `levelCount()` of `s`, with
`isElementOnLevel(x, L)` and `elementsOnLevel(L)` as in `s` for every `x` and
`L`, in which every node of a lane `L + 1` has its `below` at a node of lane
`L` with the same key; `t` is well-formed, so its nodes have distinct
addresses. -/
theorem skiplist_copy_construct_same_lanes (levelTester tempTester newTester : List Bool)
    (xs : List α) (s : SkipListSet α) (hr : addAll xs (new levelTester) = some s)
    (hcap : s.capacity = INITIAL_CAPACITY) :
    ∃ t, copyConstruct tempTester newTester s = some t ∧ size t = size s ∧
      levelCount t = levelCount s ∧
      (∀ x L, isElementOnLevel t x L = isElementOnLevel s x L) ∧
      (∀ L, elementsOnLevel t L = elementsOnLevel s L) ∧
      (∀ L, L + 1 < levelCount t → ∀ n ∈ laneAt t.nodeList (L + 1),
        ∃ m ∈ laneAt t.nodeList L, n.below = some m.addr ∧ m.key = n.key) ∧
      Inv t := by
  obtain ⟨s0, e0, hinv⟩ := addAll_inv xs (new levelTester) (inv_new levelTester)
  rw [hr] at e0
  simp only [Option.some.injEq] at e0
  subst e0
  have hp := allPtr_of_reached levelTester xs s hr hcap
  have htemp : ({ (new tempTester : SkipListSet α) with
      capacity := s.capacity, fresh := s.fresh } : SkipListSet α) =
      ⟨tempTester, List.replicate s.capacity (.ptr []), 0, 1, s.capacity, s.fresh⟩ := by
    rw [hcap]; rfl
  obtain ⟨temp1, e1, -⟩ := copy_spec s hinv hp tempTester 0 1 s.capacity s.fresh
  obtain ⟨t, e2, hc, f1, f2, f3, -⟩ := copy_spec s hinv hp newTester s.sz s.lv s.capacity
    temp1.fresh
  have hinvt := copying_inv s t hinv hc f2 f3
  have hkeys := copying_keys s t hinv hc
  refine ⟨t, ?_, f1, f2, ?_, ?_, ?_, hinvt⟩
  · unfold copyConstruct
    simp only
    rw [htemp, e1]
    exact e2
  · intro x L
    unfold isElementOnLevel
    rw [f2]
    by_cases hL : L ≥ s.lv
    · rw [if_pos hL, if_pos hL]
    · rw [if_neg hL, if_neg hL, readSlot_written t hinvt L (by rw [f2]; omega),
        readSlot_written s hinv L (by omega)]
      simp only [Option.map, Option.some.injEq]
      have h1 : ∀ l : List (Node α),
          (l.any fun n => n.key.eqElem x) = (l.map Node.key).any fun k => k.eqElem x := by
        intro l
        induction l with
        | nil => rfl
        | cons a l ih => simp only [List.any_cons, List.map_cons, ih]
      rw [h1, h1, hkeys L]
  · intro L
    unfold elementsOnLevel
    rw [f2]
    by_cases hL : L ≥ s.lv
    · rw [if_pos hL, if_pos hL]
    · rw [if_neg hL, if_neg hL, readSlot_written t hinvt L (by rw [f2]; omega),
        readSlot_written s hinv L (by omega)]
      simp only [Option.map, Option.some.injEq]
      have := congrArg List.length (hkeys L)
      simp only [List.length_map] at this
      rw [this]
  · intro L _ n hn
    exact hc.linked L n hn

/-- Witness for C36: the copy of the set built by `add(2)`, `add(1)` with a
level tester that answers yes once. -/
theorem skiplist_copy_construct_same_lanes_witness :
    ∃ t, copyConstruct [] [] twoLanes = some t ∧ size t = size twoLanes ∧
      levelCount t = levelCount twoLanes ∧
      (∀ x L, isElementOnLevel t x L = isElementOnLevel twoLanes x L) ∧
      (∀ L, elementsOnLevel t L = elementsOnLevel twoLanes L) ∧
      (∀ L, L + 1 < levelCount t → ∀ n ∈ laneAt t.nodeList (L + 1),
        ∃ m ∈ laneAt t.nodeList L, n.below = some m.addr ∧ m.key = n.key) ∧
      Inv t :=
  skiplist_copy_construct_same_lanes [true] [] [] [2, 1] twoLanes (by decide!) (by decide)

end SkipListSet

/-! ## Lemmas on WordChecker -/

namespace WordChecker

theorem strLt_irrefl (a : List Char) : strLt a a = false := by
  induction a with
  | nil => rfl
  | cons x xs ih => simp [strLt, ih]

theorem strLt_trans : ∀ (a b c : List Char), strLt a b = true → strLt b c = true →
    strLt a c = true
  | _, [], _, h1, _ => by simp [strLt] at h1
  | _, _ :: _, [], _, h2 => by simp [strLt] at h2
  | [], _ :: _, _ :: _, _, _ => rfl
  | x :: xs, y :: ys, z :: zs, h1, h2 => by
    unfold strLt at h1 h2 ⊢
    by_cases hxy : x.toNat < y.toNat
    · by_cases hyz : y.toNat < z.toNat
      · rw [if_pos (Nat.lt_trans hxy hyz)]
      · rw [if_neg hyz] at h2
        by_cases hzy : z.toNat < y.toNat
        · rw [if_pos hzy] at h2
          exact absurd h2 Bool.false_ne_true
        · rw [if_pos (by omega)]
    · rw [if_neg hxy] at h1
      by_cases hyx : y.toNat < x.toNat
      · rw [if_pos hyx] at h1
        exact absurd h1 Bool.false_ne_true
      · rw [if_neg hyx] at h1
        by_cases hyz : y.toNat < z.toNat
        · rw [if_pos (by omega)]
        · rw [if_neg hyz] at h2
          by_cases hzy : z.toNat < y.toNat
          · rw [if_pos hzy] at h2
            exact absurd h2 Bool.false_ne_true
          · rw [if_neg hzy] at h2
            rw [if_neg (by omega), if_neg (by omega)]
            exact strLt_trans xs ys zs h1 h2

theorem setInsert_mem (x z : List Char) (l : List (List Char)) (h : z ∈ setInsert x l) :
    z = x ∨ z ∈ l := by
  induction l with
  | nil =>
    simp only [setInsert, List.mem_singleton] at h
    exact Or.inl h
  | cons y ys ih =>
    unfold setInsert at h
    split at h
    · rcases List.mem_cons.1 h with h1 | h1
      · exact Or.inl h1
      · exact Or.inr h1
    · split at h
      · rcases List.mem_cons.1 h with h1 | h1
        · exact Or.inr (h1 ▸ List.mem_cons_self _ _)
        · rcases ih h1 with h2 | h2
          · exact Or.inl h2
          · exact Or.inr (List.mem_cons_of_mem _ h2)
      · exact Or.inr h

/-- Putting a string into the set keeps the iteration order ascending. -/
theorem setInsert_pairwise (x : List Char) (l : List (List Char))
    (h : l.Pairwise fun a b => strLt a b = true) :
    (setInsert x l).Pairwise fun a b => strLt a b = true := by
  induction l with
  | nil => simp [setInsert]
  | cons y ys ih =>
    obtain ⟨hy, hys⟩ := List.pairwise_cons.1 h
    unfold setInsert
    by_cases hxy : strLt x y = true
    · rw [if_pos hxy]
      refine List.pairwise_cons.2 ⟨?_, h⟩
      intro z hz
      rcases List.mem_cons.1 hz with h1 | h1
      · rw [h1]; exact hxy
      · exact strLt_trans x y z hxy (hy z h1)
    · rw [if_neg hxy]
      by_cases hyx : strLt y x = true
      · rw [if_pos hyx]
        refine List.pairwise_cons.2 ⟨?_, ih hys⟩
        intro z hz
        rcases setInsert_mem x z ys hz with h1 | h1
        · rw [h1]; exact hyx
        · exact hy z h1
      · rw [if_neg hyx]
        exact h

/-- A loop whose body returns and keeps `P` for every value of the counter
returns and keeps `P`. -/
theorem forLoop_inv {σ : Type} (P : σ → Prop) (body : Nat → σ → Option σ) (n : Nat) :
    ∀ (i : Nat) (acc : σ),
      (∀ j acc, i ≤ j → j < i + n → P acc → ∃ acc1, body j acc = some acc1 ∧ P acc1) →
      P acc → ∃ acc1, forLoop body n i acc = some acc1 ∧ P acc1 := by
  induction n with
  | zero => intro i acc _ h; exact ⟨acc, rfl, h⟩
  | succ n ih =>
    intro i acc hb h
    obtain ⟨a1, e1, h1⟩ := hb i acc (Nat.le_refl i) (by omega) h
    obtain ⟨a2, e2, h2⟩ := ih (i + 1) a1
      (fun j acc hj1 hj2 hp => hb j acc (by omega) (by omega) hp) h1
    exact ⟨a2, by simp [forLoop, e1, e2], h2⟩

theorem forLetters_inv {σ : Type} (P : σ → Prop) (body : Char → σ → Option σ)
    (hb : ∀ j acc, P acc → ∃ acc1, body j acc = some acc1 ∧ P acc1) (ls : List Char) :
    ∀ acc, P acc → ∃ acc1, forLetters body ls acc = some acc1 ∧ P acc1 := by
  induction ls with
  | nil => intro acc h; exact ⟨acc, rfl, h⟩
  | cons j rest ih =>
    intro acc h
    obtain ⟨a1, e1, h1⟩ := hb j acc h
    obtain ⟨a2, e2, h2⟩ := ih a1 h1
    exact ⟨a2, by simp [forLetters, e1, e2], h2⟩

end WordChecker

namespace WordChecker

theorem wordExists_eq (contains : List Char → Bool) (x : List Char) :
    wordExists contains x = contains x := by
  unfold wordExists
  cases contains x <;> rfl

theorem suggested_insert (contains : List Char → Bool) (w x : List Char)
    (tempSet : List (List Char)) (h : Suggested contains w tempSet)
    (hx : contains x = true ∨
      ∃ a b, x = a ++ ' ' :: b ∧ contains a = true ∧ contains b = true ∧ a ++ b = w) :
    Suggested contains w (setInsert x tempSet) := by
  refine ⟨setInsert_pairwise x tempSet h.1, fun r hr => ?_⟩
  rcases setInsert_mem x r tempSet hr with h1 | h1
  · rw [h1]; exact hx
  · exact h.2 r h1

theorem suggested_insertIfWord (contains : List Char → Bool) (w x : List Char)
    (tempSet : List (List Char)) (h : Suggested contains w tempSet) :
    Suggested contains w (insertIfWord contains x tempSet) := by
  unfold insertIfWord
  rw [wordExists_eq]
  by_cases hx : contains x = true
  · rw [if_pos hx]; exact suggested_insert contains w x tempSet h (Or.inl hx)
  · rw [if_neg hx]; exact h

theorem swapEach_spec (contains : List Char → Bool) (w : List Char) (hw : w ≠ [])
    (tempSet : List (List Char)) (h : Suggested contains w tempSet) :
    ∃ s1, swapEach contains w tempSet = some s1 ∧ Suggested contains w s1 := by
  have hlen : 0 < w.length := List.length_pos.2 hw
  have hbound : (w.length + 2 ^ 64 - 1) % 2 ^ 64 ≤ w.length - 1 := by
    have h1 : w.length + 2 ^ 64 - 1 = (w.length - 1) + 2 ^ 64 := by omega
    rw [h1, Nat.add_mod_right]
    exact Nat.mod_le _ _
  unfold swapEach
  apply forLoop_inv (Suggested contains w) _ _ 0 tempSet _ h
  intro i acc _ hi hacc
  have hi2 : i + 2 ≤ w.length := by omega
  have e1 : substr w 0 i = some (w.take i) := by
    unfold substr
    rw [if_neg (by omega)]
    simp
  have e2 : index w (i + 1) = some (w.getD (i + 1) (Char.ofNat 0)) := by
    unfold index
    rw [if_neg (by omega)]
  have e3 : index w i = some (w.getD i (Char.ofNat 0)) := by
    unfold index
    rw [if_neg (by omega)]
  have e4 : substrFrom w (i + 2) = some (w.drop (i + 2)) := by
    unfold substrFrom
    rw [if_neg (by omega)]
  rw [e1, e2, e3, e4]
  exact ⟨_, rfl, suggested_insertIfWord contains w _ acc hacc⟩

theorem insertEach_spec (contains : List Char → Bool) (w : List Char)
    (tempSet : List (List Char)) (h : Suggested contains w tempSet) :
    ∃ s1, insertEach contains w tempSet = some s1 ∧ Suggested contains w s1 := by
  unfold insertEach
  apply forLoop_inv (Suggested contains w) _ _ 0 tempSet _ h
  intro k acc _ hk hacc
  apply forLetters_inv (Suggested contains w) _ _ letters acc hacc
  intro j acc2 hacc2
  have e1 : insert w k j = some (w.take k ++ j :: w.drop k) := by
    unfold insert
    rw [if_neg (by omega)]
  rw [e1]
  exact ⟨_, rfl, suggested_insertIfWord contains w _ acc2 hacc2⟩

theorem eraseEach_spec (contains : List Char → Bool) (w : List Char)
    (tempSet : List (List Char)) (h : Suggested contains w tempSet) :
    ∃ s1, eraseEach contains w tempSet = some s1 ∧ Suggested contains w s1 := by
  unfold eraseEach
  apply forLoop_inv (Suggested contains w) _ _ 0 tempSet _ h
  intro m acc _ hm hacc
  have e1 : erase w m = some (w.take m ++ w.drop (m + 1)) := by
    unfold erase
    rw [if_neg (by omega)]
  rw [e1]
  exact ⟨_, rfl, suggested_insertIfWord contains w _ acc hacc⟩

theorem replaceEach_spec (contains : List Char → Bool) (w : List Char)
    (tempSet : List (List Char)) (h : Suggested contains w tempSet) :
    ∃ s1, replaceEach contains w tempSet = some s1 ∧ Suggested contains w s1 := by
  unfold replaceEach
  apply forLoop_inv (Suggested contains w) _ _ 0 tempSet _ h
  intro n acc _ hn hacc
  apply forLetters_inv (Suggested contains w) _ _ letters acc hacc
  intro l acc2 hacc2
  have e1 : replace w n l = some (w.take n ++ l :: w.drop (n + 1)) := by
    unfold replace
    rw [if_neg (by omega)]
  rw [e1]
  exact ⟨_, rfl, suggested_insertIfWord contains w _ acc2 hacc2⟩

theorem splitEach_spec (contains : List Char → Bool) (w : List Char)
    (tempSet : List (List Char)) (h : Suggested contains w tempSet) :
    ∃ s1, splitEach contains w tempSet = some s1 ∧ Suggested contains w s1 := by
  unfold splitEach
  apply forLoop_inv (Suggested contains w) _ _ 1 tempSet _ h
  intro a acc ha1 ha2 hacc
  have ha : a < w.length := by omega
  have e1 : insert w a ' ' = some (w.take a ++ ' ' :: w.drop a) := by
    unfold insert
    rw [if_neg (by omega)]
  have hl : (w.take a ++ ' ' :: w.drop a).length = w.length + 1 := by
    simp only [List.length_append, List.length_take, List.length_cons, List.length_drop]
    omega
  have hta : (w.take a).length = a := by
    rw [List.length_take]; omega
  have e2 : substr (w.take a ++ ' ' :: w.drop a) 0 a = some (w.take a) := by
    unfold substr
    rw [if_neg (by omega), List.drop_zero, List.take_left' hta]
  have e3 : substrFrom (w.take a ++ ' ' :: w.drop a) (a + 1) = some (w.drop a) := by
    unfold substrFrom
    rw [if_neg (by omega)]
    have : w.take a ++ ' ' :: w.drop a = (w.take a ++ [' ']) ++ w.drop a := by simp
    rw [this, List.drop_left' (by simp [hta])]
  rw [e1]
  simp only [Option.bind]
  rw [e2]
  simp only [wordExists_eq]
  by_cases hf : contains (w.take a) = true
  · rw [if_pos hf, e3]
    refine ⟨_, rfl, ?_⟩
    show Suggested contains w (if contains (w.drop a) = true then _ else acc)
    by_cases hs : contains (w.drop a) = true
    · rw [if_pos hs]
      exact suggested_insert contains w _ acc hacc
        (Or.inr ⟨w.take a, w.drop a, rfl, hf, hs, List.take_append_drop a w⟩)
    · rw [if_neg hs]; exact hacc
  · rw [if_neg hf]
    exact ⟨acc, rfl, hacc⟩

end WordChecker

/-! ## The claims on WordChecker -/

namespace WordChecker

/-- C39: for every word set and every non-empty word `w`, `findSuggestions(w)`
returns; every string it returns is in the word set or is `a + ' ' + b` for
two strings `a`, `b` of the word set with `a + b = w`; and the strings
returned ascend strictly in `operator<`, so none is returned twice. -/
theorem wordchecker_suggestions_sound (contains : List Char → Bool) (w : List Char)
    (hw : w ≠ []) :
    ∃ result, findSuggestions contains w = some result ∧
      (∀ r ∈ result, contains r = true ∨
        ∃ a b, r = a ++ ' ' :: b ∧ contains a = true ∧ contains b = true ∧ a ++ b = w) ∧
      (result.Pairwise fun a b => strLt a b = true) ∧ result.Nodup := by
  have h0 : Suggested contains w [] := ⟨List.Pairwise.nil, fun r hr => by simp at hr⟩
  obtain ⟨s1, e1, h1⟩ := swapEach_spec contains w hw [] h0
  obtain ⟨s2, e2, h2⟩ := insertEach_spec contains w s1 h1
  obtain ⟨s3, e3, h3⟩ := eraseEach_spec contains w s2 h2
  obtain ⟨s4, e4, h4⟩ := replaceEach_spec contains w s3 h3
  obtain ⟨s5, e5, h5⟩ := splitEach_spec contains w s4 h4
  refine ⟨s5, ?_, h5.2, h5.1, ?_⟩
  · unfold findSuggestions
    rw [e1]
    simp only [Option.bind]
    rw [e2]
    simp only
    rw [e3]
    simp only
    rw [e4]
    exact e5
  · refine h5.1.imp_of_mem ?_
    intro a b _ _ hab heq
    rw [heq, strLt_irrefl] at hab
    exact Bool.false_ne_true hab

/-- Witness for C39: the word `AB` and the word set `A`, `B`, `BA`. -/
theorem wordchecker_suggestions_sound_witness :
    ['A', 'B'] ≠ [] ∧
    ∃ result, findSuggestions (fun x => decide (x ∈ [['A'], ['B'], ['B', 'A']])) ['A', 'B'] =
        some result ∧
      (∀ r ∈ result, (fun x => decide (x ∈ [['A'], ['B'], ['B', 'A']])) r = true ∨
        ∃ a b, r = a ++ ' ' :: b ∧ (fun x => decide (x ∈ [['A'], ['B'], ['B', 'A']])) a = true ∧
          (fun x => decide (x ∈ [['A'], ['B'], ['B', 'A']])) b = true ∧ a ++ b = ['A', 'B']) ∧
      (result.Pairwise fun a b => strLt a b = true) ∧ result.Nodup :=
  ⟨by decide, wordchecker_suggestions_sound _ ['A', 'B'] (by decide)⟩

/-- C40, at the failing input: for the empty word `findSuggestions` does not
return, whatever the word set. `word.size() - 1` is the largest `size_t`, so
the first loop is entered with `i == 0`, where `word[i + 1]` is beyond the end
of the string and `word.substr(i + 2)` throws `std::out_of_range`. -/
theorem wordchecker_empty_word_out_of_range (contains : List Char → Bool) :
    findSuggestions contains [] = none ∧
      ((([] : List Char).length + 2 ^ 64 - 1) % 2 ^ 64, index [] (0 + 1), substrFrom [] (0 + 2)) =
        (18446744073709551615, none, none) := by
  refine ⟨?_, by decide⟩
  unfold findSuggestions swapEach
  have hb : (([] : List Char).length + 2 ^ 64 - 1) % 2 ^ 64 = 18446744073709551614 + 1 := by
    decide
  rw [hb]
  rfl

end WordChecker
